import Mathlib

/-!
# ShipNet protocol runtime: segmented byte buffer, binary codec, dispatch table, acceptor

A shallow embedding of `src/protocol/ByteBuffer.cpp` (classes `ByteBuffer` and
`ByteBufferImpl`, declared in `src/protocol/Protocol.hpp`), of the dispatch table of
`src/protocol/handler/PacketHandler.cpp` and of the accept loop of
`src/network/listener/EpollListener.cpp`, followed by the properties proved about them.

* The free store is a list of regions addressed by their index; a pointer is such an index.
  `new uint8_t[n]` appends a region of `n` bytes and always succeeds, `delete` marks a region
  as released. The bytes of a fresh region are indeterminate in C++; the embedding fills them
  with `0`.
* `size_t` and `uint64_t` are 64 bits wide and `uint32_t` is 32 bits wide; arithmetic that can
  leave the range is reduced explicitly. The increment of an index that has just addressed a
  byte of a region stays in range and is left as it is.
* A member function becomes a function from the object's state to a `Res`: a normal return
  with the new state, a C++ exception together with the state at the `throw`, or `undefined`
  when the program has no defined result.
* A `while` loop becomes a function that is recursive in a number of turns; the comment of
  each loop says why the turns given to it are enough.
-/

namespace Ship

/-- The number of values of `size_t`, `2^64`. -/
def SIZE_RANGE : Nat := 18446744073709551616

/-- The number of values of `uint32_t`, `2^32`. -/
def UINT32_RANGE : Nat := 4294967296

/-- The number of values of `uint64_t`, `2^64`. -/
def UINT64_RANGE : Nat := 18446744073709551616

/-! ## The free store -/

/-- The free store: region `p` is `some bytes` while allocated and `none` once released. -/
abbrev Heap := List (Option (List Nat))

namespace Heap

/-- The live region a pointer refers to, if any. -/
def region (h : Heap) (p : Nat) : Option (List Nat) :=
  match h[p]? with
  | some (some seg) => some seg
  | _ => none

/-- The statement `delete p`. -/
def free (h : Heap) (p : Nat) : Heap := h.set p none

/-- The read `p[i]`. -/
def load (h : Heap) (p i : Nat) : Option Nat :=
  match h.region p with
  | some seg => seg[i]?
  | none => none

/-- The assignment `p[i] = v`. -/
def store (h : Heap) (p i v : Nat) : Option Heap :=
  match h.region p with
  | some seg => if i < seg.length then some (h.set p (some (seg.set i v))) else none
  | none => none

/-- The bytes of the range `[p + off, p + off + len)`, as the source range of a `std::copy`. -/
def loadRange (h : Heap) (p off len : Nat) : Option (List Nat) :=
  match h.region p with
  | some seg => if off + len ≤ seg.length then some ((seg.drop off).take len) else none
  | none => none

/-- The call `std::copy(bs.begin(), bs.end(), p + off)`. -/
def storeRange (h : Heap) (p off : Nat) (bs : List Nat) : Option Heap :=
  match h.region p with
  | some seg =>
    if off + bs.length ≤ seg.length then
      some (h.set p (some (seg.take off ++ bs ++ seg.drop (off + bs.length))))
    else none
  | none => none

end Heap

/-- The call `std::copy(chunk.begin(), chunk.end(), output + off)` into a caller's array. -/
def copyInto (output : List Nat) (off : Nat) (chunk : List Nat) : Option (List Nat) :=
  if off + chunk.length ≤ output.length then
    some (output.take off ++ chunk ++ output.drop (off + chunk.length))
  else none

/-! ## Buffer state and results -/

/-- The value a bounds-checked read was asked for, as named in its exception message. -/
inductive ReadTarget where
  | boolean | byte | short | medium | int | long | byteArray
  deriving DecidableEq, Repr

/-- The exceptions thrown in `ByteBuffer.cpp`. -/
inductive Exn where
  /-- The exception `Exception("Tried to read ..., but not enough readable bytes")`. -/
  | notEnoughReadable (what : ReadTarget)
  /-- The exception `Exception("Not enough readable bytes to skip them")`. -/
  | notEnoughToSkip
  /-- The exception `IncompleteVarIntException()`. -/
  | incompleteVarInt
  /-- The exception `Exception("Invalid VarInt")`. -/
  | invalidVarInt
  /-- The exception `Exception("Invalid VarLong")`. -/
  | invalidVarLong
  /-- The exception `InvalidArgumentException("Invalid received string size", length)`. -/
  | invalidArgument (length : Nat)
  deriving DecidableEq, Repr

/-- The data members of `ByteBufferImpl`, together with the free store its pointers refer to. -/
structure ByteBufferImpl where
  heap : Heap
  buffers : List Nat
  singleCapacity : Nat
  currentReadBuffer : Nat
  currentWriteBuffer : Nat
  localReaderIndex : Nat
  localWriterIndex : Nat
  readableBytes : Nat
  deriving DecidableEq, Repr

/-- The outcome of a member function: a normal return, an exception with the state at the
`throw`, or no defined result (an access outside a live region, `front()` or `pop_back()` on an
empty deque, or a loop that does not come to an end). -/
inductive Res (α : Type) where
  | ok (a : α) (s : ByteBufferImpl)
  | raised (e : Exn) (s : ByteBufferImpl)
  | undefined
  deriving DecidableEq, Repr

/-- Sequencing: the continuation runs after a normal return only. -/
def Res.bind {α β : Type} (x : Res α) (f : α → ByteBufferImpl → Res β) : Res β :=
  match x with
  | .ok a s => f a s
  | .raised e s => .raised e s
  | .undefined => .undefined

namespace ByteBufferImpl

/-- The constructor `ByteBufferImpl(size_t cap)`. -/
def ofCapacity (cap : Nat) : ByteBufferImpl :=
  { heap := [some (List.replicate cap 0)]
    buffers := [0]
    singleCapacity := cap
    currentReadBuffer := 0
    currentWriteBuffer := 0
    localReaderIndex := 0
    localWriterIndex := 0
    readableBytes := 0 }

def GetReadableBytes (s : ByteBufferImpl) : Nat := s.readableBytes

def AppendBuffer (s : ByteBufferImpl) : Res Unit :=
  .ok () { s with
    localWriterIndex := 0
    currentWriteBuffer := s.heap.length
    heap := s.heap ++ [some (List.replicate s.singleCapacity 0)]
    buffers := s.buffers ++ [s.heap.length] }

def PopBuffer (s : ByteBufferImpl) : Res Unit :=
  match s.buffers with
  | [] => .undefined
  | p :: rest =>
    match s.heap.region p, rest with
    | some _, q :: _ =>
      .ok () { s with
        localReaderIndex := 0
        heap := s.heap.free p
        buffers := rest
        currentReadBuffer := q }
    | _, _ => .undefined

def TryRefreshReaderBuffer (s : ByteBufferImpl) : Res Unit :=
  if s.localReaderIndex ≥ s.singleCapacity then PopBuffer s else .ok () s

def TryRefreshWriterBuffer (s : ByteBufferImpl) : Res Unit :=
  if s.localWriterIndex ≥ s.singleCapacity then AppendBuffer s else .ok () s

def ReadByteUnsafe (s : ByteBufferImpl) : Res Nat :=
  (TryRefreshReaderBuffer s).bind fun _ s1 =>
    match s1.heap.load s1.currentReadBuffer s1.localReaderIndex with
    | none => .undefined
    | some b =>
      .ok b { s1 with
        readableBytes := (s1.readableBytes + SIZE_RANGE - 1) % SIZE_RANGE
        localReaderIndex := s1.localReaderIndex + 1 }

/-- The parameter is a `uint8_t`: an argument of a wider type is converted on the call. -/
def WriteByte (input : Nat) (s : ByteBufferImpl) : Res Unit :=
  (TryRefreshWriterBuffer s).bind fun _ s1 =>
    match s1.heap.store s1.currentWriteBuffer s1.localWriterIndex (input % 256) with
    | none => .undefined
    | some h =>
      .ok () { s1 with
        heap := h
        readableBytes := (s1.readableBytes + 1) % SIZE_RANGE
        localWriterIndex := s1.localWriterIndex + 1 }

/-- The loop `while (size > singleCapacity)` of `WriteBytes`, on the locals `bytesIndex` and
`size`, which it returns. Every turn takes `singleCapacity` off `size`, so `fuel = size` turns
are enough unless `singleCapacity` is `0`, when the source loop does not come to an end. -/
def WriteBytes.loop (input : List Nat) :
    Nat → Nat → Nat → ByteBufferImpl → Res (Nat × Nat)
  | 0, bytesIndex, size, s =>
    if size > s.singleCapacity then .undefined else .ok (bytesIndex, size) s
  | fuel + 1, bytesIndex, size, s =>
    if size > s.singleCapacity then
      match s.heap.storeRange s.currentWriteBuffer s.localWriterIndex
          ((input.drop bytesIndex).take s.singleCapacity) with
      | none => .undefined
      | some h =>
        (AppendBuffer { s with
            heap := h
            readableBytes := (s.readableBytes + s.singleCapacity) % SIZE_RANGE
            localWriterIndex := 0 }).bind fun _ s1 =>
          WriteBytes.loop input fuel ((bytesIndex + s.singleCapacity) % SIZE_RANGE)
            (size - s.singleCapacity) s1
    else .ok (bytesIndex, size) s

/-- The last three statements of `WriteBytes`. -/
def WriteBytes.finish (input : List Nat) (bytesIndex size : Nat) (s : ByteBufferImpl) :
    Res Unit :=
  match s.heap.storeRange s.currentWriteBuffer s.localWriterIndex
      ((input.drop bytesIndex).take size) with
  | none => .undefined
  | some h =>
    .ok () { s with
      heap := h
      localWriterIndex := (s.localWriterIndex + size) % SIZE_RANGE
      readableBytes := (s.readableBytes + size) % SIZE_RANGE }

/-- The overload `WriteBytes(const uint8_t* input, size_t size)`; `input` is the region of
`size` bytes the pointer refers to. -/
def WriteBytes (input : List Nat) (s : ByteBufferImpl) : Res Unit :=
  let size := input.length
  (TryRefreshWriterBuffer s).bind fun _ s1 =>
    if (s1.localWriterIndex + size) % SIZE_RANGE > s1.singleCapacity then
      let copiedBytes := (s1.singleCapacity + SIZE_RANGE - s1.localWriterIndex) % SIZE_RANGE
      match s1.heap.storeRange s1.currentWriteBuffer s1.localWriterIndex
          (input.take copiedBytes) with
      | none => .undefined
      | some h =>
        (AppendBuffer { s1 with
            heap := h
            readableBytes := (s1.readableBytes + copiedBytes) % SIZE_RANGE
            localWriterIndex := 0 }).bind fun _ s2 =>
          (WriteBytes.loop input (size - copiedBytes) copiedBytes (size - copiedBytes) s2).bind
            fun r s3 => WriteBytes.finish input r.1 r.2 s3
    else WriteBytes.finish input 0 size s1

/-- The member function `WriteBytesAndDelete`. On the first branch the caller's region becomes
an element of `buffers`, so it is given an address in the free store; the element popped off
the deque is not released. On the second branch `delete[] input` releases a region that is not
part of this state. -/
def WriteBytesAndDelete (input : List Nat) (s : ByteBufferImpl) : Res Unit :=
  if s.localWriterIndex = 0 ∧ input.length = s.singleCapacity then
    match s.buffers with
    | [] => .undefined
    | _ :: _ =>
      .ok () { s with
        heap := s.heap ++ [some input]
        buffers := s.buffers.dropLast ++ [s.heap.length] }
  else WriteBytes input s

/-- The loop `while (size > singleCapacity)` of `ReadBytes`, on the caller's array and the
locals `bytesIndex` (a `uint32_t`) and `size`, which it returns. Every turn pops a segment, so
`fuel = buffers.size()` turns are enough. -/
def ReadBytes.loop :
    Nat → List Nat → Nat → Nat → ByteBufferImpl → Res (List Nat × Nat × Nat)
  | 0, output, bytesIndex, size, s =>
    if size > s.singleCapacity then .undefined else .ok (output, bytesIndex, size) s
  | fuel + 1, output, bytesIndex, size, s =>
    if size > s.singleCapacity then
      match s.heap.loadRange s.currentReadBuffer 0 s.singleCapacity with
      | none => .undefined
      | some chunk =>
        match copyInto output bytesIndex chunk with
        | none => .undefined
        | some output1 =>
          (PopBuffer { s with
              readableBytes := (s.readableBytes + SIZE_RANGE - s.singleCapacity) % SIZE_RANGE
              localReaderIndex := 0 }).bind fun _ s1 =>
            ReadBytes.loop fuel output1 ((bytesIndex + s.singleCapacity) % UINT32_RANGE)
              (size - s.singleCapacity) s1
    else .ok (output, bytesIndex, size) s

/-- The last three statements of `ReadBytes`. -/
def ReadBytes.finish (output : List Nat) (bytesIndex size : Nat) (s : ByteBufferImpl) :
    Res (List Nat) :=
  match s.heap.loadRange s.currentReadBuffer s.localReaderIndex size with
  | none => .undefined
  | some chunk =>
    match copyInto output bytesIndex chunk with
    | none => .undefined
    | some output1 =>
      .ok output1 { s with
        localReaderIndex := (s.localReaderIndex + size) % SIZE_RANGE
        readableBytes := (s.readableBytes + SIZE_RANGE - size) % SIZE_RANGE }

/-- The member function `ReadBytes(uint8_t* output, size_t size)`; `output` is the content of
the caller's array before the call and the result is its content after it. -/
def ReadBytes (output : List Nat) (size : Nat) (s : ByteBufferImpl) : Res (List Nat) :=
  if s.GetReadableBytes < size then .raised (.notEnoughReadable .byteArray) s
  else
    (TryRefreshReaderBuffer s).bind fun _ s1 =>
      if (s1.localReaderIndex + size) % SIZE_RANGE > s1.singleCapacity then
        match s1.heap.loadRange s1.currentReadBuffer s1.localReaderIndex
            (s1.singleCapacity - s1.localReaderIndex) with
        | none => .undefined
        | some chunk =>
          match copyInto output 0 chunk with
          | none => .undefined
          | some output1 =>
            let copiedBytes :=
              (s1.singleCapacity + SIZE_RANGE - s1.localReaderIndex) % SIZE_RANGE
            (PopBuffer { s1 with
                readableBytes := (s1.readableBytes + SIZE_RANGE - copiedBytes) % SIZE_RANGE
                localReaderIndex := 0 }).bind fun _ s2 =>
              (ReadBytes.loop s2.buffers.length output1 (copiedBytes % UINT32_RANGE)
                  (size - copiedBytes) s2).bind
                fun r s3 => ReadBytes.finish r.1 r.2.1 r.2.2 s3
      else ReadBytes.finish output 0 size s1

/-- The loop of `SkipReadBytes` on the local `count`, which it returns. Every turn pops a
segment, so `fuel = buffers.size()` turns are enough. -/
def SkipReadBytes.loop : Nat → Nat → ByteBufferImpl → Res Nat
  | 0, count, s =>
    if count > (s.singleCapacity + SIZE_RANGE - s.localReaderIndex) % SIZE_RANGE then .undefined
    else .ok count s
  | fuel + 1, count, s =>
    if count > (s.singleCapacity + SIZE_RANGE - s.localReaderIndex) % SIZE_RANGE then
      (PopBuffer s).bind fun _ s1 =>
        SkipReadBytes.loop fuel
          (count - (s.singleCapacity + SIZE_RANGE - s.localReaderIndex) % SIZE_RANGE) s1
    else .ok count s

def SkipReadBytes (count : Nat) (s : ByteBufferImpl) : Res Unit :=
  if count > s.readableBytes then .raised .notEnoughToSkip s
  else
    (SkipReadBytes.loop s.buffers.length count
        { s with readableBytes := s.readableBytes - count }).bind fun count1 s1 =>
      TryRefreshReaderBuffer { s1 with localReaderIndex := count1 }

/-- The loop of `SkipWriteBytes` on the local `count`, which it returns. While `count -=
singleCapacity` does not wrap, every turn takes at least one off `count`; `fuel = count` turns
cover those runs, and a run that needs more has no result. -/
def SkipWriteBytes.loop : Nat → Nat → ByteBufferImpl → Res Nat
  | 0, count, s =>
    if count > (s.singleCapacity + SIZE_RANGE - s.localWriterIndex) % SIZE_RANGE then .undefined
    else .ok count s
  | fuel + 1, count, s =>
    if count > (s.singleCapacity + SIZE_RANGE - s.localWriterIndex) % SIZE_RANGE then
      (AppendBuffer s).bind fun _ s1 =>
        SkipWriteBytes.loop fuel ((count + SIZE_RANGE - s.singleCapacity) % SIZE_RANGE) s1
    else .ok count s

def SkipWriteBytes (count : Nat) (s : ByteBufferImpl) : Res Unit :=
  (SkipWriteBytes.loop count count
      { s with readableBytes := (s.readableBytes + count) % SIZE_RANGE }).bind fun count1 s1 =>
    TryRefreshWriterBuffer { s1 with localWriterIndex := count1 }

def ResetReaderIndex (s : ByteBufferImpl) : Res Unit :=
  .ok () { s with
    localReaderIndex := 0
    readableBytes :=
      ((s.buffers.length + SIZE_RANGE - 1) % SIZE_RANGE * s.singleCapacity
        + s.localWriterIndex) % SIZE_RANGE }

def ResetWriterIndex (s : ByteBufferImpl) : Res Unit :=
  .ok () { s with localWriterIndex := 0, readableBytes := 0 }

end ByteBufferImpl

/-! ## The codec of the base class `ByteBuffer`

The virtual calls `WriteByte`, `ReadByteUnsafe` and `GetReadableBytes` are resolved to
`ByteBufferImpl`. The operands of `|` in the reads are taken from left to right. -/

namespace ByteBuffer

open ByteBufferImpl

def VarIntBytes (input : Nat) : Nat :=
  if input &&& ((0xFFFFFFFF <<< 7) % UINT32_RANGE) = 0 then 1
  else if input &&& ((0xFFFFFFFF <<< 14) % UINT32_RANGE) = 0 then 2
  else if input &&& ((0xFFFFFFFF <<< 21) % UINT32_RANGE) = 0 then 3
  else if input &&& ((0xFFFFFFFF <<< 28) % UINT32_RANGE) = 0 then 4
  else 5

def VarLongBytes (input : Nat) : Nat :=
  if input &&& ((0xFFFFFFFFFFFFFFFF <<< 7) % UINT64_RANGE) = 0 then 1
  else if input &&& ((0xFFFFFFFFFFFFFFFF <<< 14) % UINT64_RANGE) = 0 then 2
  else if input &&& ((0xFFFFFFFFFFFFFFFF <<< 21) % UINT64_RANGE) = 0 then 3
  else if input &&& ((0xFFFFFFFFFFFFFFFF <<< 28) % UINT64_RANGE) = 0 then 4
  else if input &&& ((0xFFFFFFFFFFFFFFFF <<< 35) % UINT64_RANGE) = 0 then 5
  else if input &&& ((0xFFFFFFFFFFFFFFFF <<< 42) % UINT64_RANGE) = 0 then 6
  else if input &&& ((0xFFFFFFFFFFFFFFFF <<< 49) % UINT64_RANGE) = 0 then 7
  else if input &&& ((0xFFFFFFFFFFFFFFFF <<< 56) % UINT64_RANGE) = 0 then 8
  else if input &&& ((0xFFFFFFFFFFFFFFFF <<< 63) % UINT64_RANGE) = 0 then 9
  else 10

def WriteBoolean (input : Bool) (s : ByteBufferImpl) : Res Unit :=
  WriteByte (if input then 1 else 0) s

def WriteShort (input : Nat) (s : ByteBufferImpl) : Res Unit :=
  (WriteByte (input >>> 8) s).bind fun _ s1 =>
    WriteByte input s1

def WriteMedium (input : Nat) (s : ByteBufferImpl) : Res Unit :=
  (WriteByte (input >>> 16) s).bind fun _ s1 =>
    (WriteByte (input >>> 8) s1).bind fun _ s2 =>
      WriteByte input s2

def WriteInt (input : Nat) (s : ByteBufferImpl) : Res Unit :=
  (WriteByte (input >>> 24) s).bind fun _ s1 =>
    (WriteByte (input >>> 16) s1).bind fun _ s2 =>
      (WriteByte (input >>> 8) s2).bind fun _ s3 =>
        WriteByte input s3

/-- The loop `while (true)` of `WriteVarInt` on the parameter `input`, a `uint32_t`; `~0x7F`
is `0xFFFFFF80` in 32 bits. The loop returns once `input` is below `0x80`, and five shifts by
seven bits clear a 32-bit value, so `fuel = 5` turns are enough. -/
def WriteVarInt.loop : Nat → Nat → ByteBufferImpl → Res Unit
  | 0, _, _ => .undefined
  | fuel + 1, input, s =>
    if input &&& (UINT32_RANGE - 1 - 0x7F) = 0 then WriteByte input s
    else
      (WriteByte ((input &&& 0x7F) ||| 0x80) s).bind fun _ s1 =>
        WriteVarInt.loop fuel (input >>> 7) s1

def WriteVarInt (input : Nat) (s : ByteBufferImpl) : Res Unit :=
  WriteVarInt.loop 5 input s

def WriteLong (input : Nat) (s : ByteBufferImpl) : Res Unit :=
  (WriteByte (input >>> 56) s).bind fun _ s1 =>
    (WriteByte (input >>> 48) s1).bind fun _ s2 =>
      (WriteByte (input >>> 40) s2).bind fun _ s3 =>
        (WriteByte (input >>> 32) s3).bind fun _ s4 =>
          (WriteByte (input >>> 24) s4).bind fun _ s5 =>
            (WriteByte (input >>> 16) s5).bind fun _ s6 =>
              (WriteByte (input >>> 8) s6).bind fun _ s7 =>
                WriteByte input s7

/-- The loop `while (true)` of `WriteVarLong` on the parameter `input`, a `uint64_t`; ten
shifts by seven bits clear a 64-bit value, so `fuel = 10` turns are enough. -/
def WriteVarLong.loop : Nat → Nat → ByteBufferImpl → Res Unit
  | 0, _, _ => .undefined
  | fuel + 1, input, s =>
    if input &&& (UINT64_RANGE - 1 - 0x7F) = 0 then WriteByte input s
    else
      (WriteByte ((input &&& 0x7F) ||| 0x80) s).bind fun _ s1 =>
        WriteVarLong.loop fuel (input >>> 7) s1

def WriteVarLong (input : Nat) (s : ByteBufferImpl) : Res Unit :=
  WriteVarLong.loop 10 input s

def ReadBoolean (s : ByteBufferImpl) : Res Bool :=
  if s.GetReadableBytes < 1 then .raised (.notEnoughReadable .boolean) s
  else (ReadByteUnsafe s).bind fun b s1 => .ok (b != 0) s1

def ReadByte (s : ByteBufferImpl) : Res Nat :=
  if s.GetReadableBytes < 1 then .raised (.notEnoughReadable .byte) s
  else ReadByteUnsafe s

def ReadShort (s : ByteBufferImpl) : Res Nat :=
  if s.GetReadableBytes < 2 then .raised (.notEnoughReadable .short) s
  else
    (ReadByteUnsafe s).bind fun b1 s1 =>
      (ReadByteUnsafe s1).bind fun b2 s2 =>
        .ok ((b1 <<< 8 ||| b2) % 65536) s2

def ReadMedium (s : ByteBufferImpl) : Res Nat :=
  if s.GetReadableBytes < 3 then .raised (.notEnoughReadable .medium) s
  else
    (ReadByteUnsafe s).bind fun b1 s1 =>
      (ReadByteUnsafe s1).bind fun b2 s2 =>
        (ReadByteUnsafe s2).bind fun b3 s3 =>
          .ok ((b1 <<< 16 ||| b2 <<< 8 ||| b3) % UINT32_RANGE) s3

def ReadInt (s : ByteBufferImpl) : Res Nat :=
  if s.GetReadableBytes < 4 then .raised (.notEnoughReadable .int) s
  else
    (ReadByteUnsafe s).bind fun b1 s1 =>
      (ReadByteUnsafe s1).bind fun b2 s2 =>
        (ReadByteUnsafe s2).bind fun b3 s3 =>
          (ReadByteUnsafe s3).bind fun b4 s4 =>
            .ok ((b1 <<< 24 ||| b2 <<< 16 ||| b3 <<< 8 ||| b4) % UINT32_RANGE) s4

/-- The loop `for (byteIndex = 0; byteIndex < 5; ++byteIndex)` of `ReadVarInt`, with the
number of turns left, and the `throw` that follows it. -/
def ReadVarInt.loop : Nat → Nat → Nat → ByteBufferImpl → Res Nat
  | 0, _, _, s => .raised .invalidVarInt s
  | turns + 1, byteIndex, decodedVarInt, s =>
    if s.GetReadableBytes < 1 then .raised .incompleteVarInt s
    else
      (ReadByteUnsafe s).bind fun byte s1 =>
        let decodedVarInt1 :=
          decodedVarInt ||| ((byte &&& 0x7F) <<< (byteIndex * 7)) % UINT32_RANGE
        if byte &&& 0x80 = 0 then .ok decodedVarInt1 s1
        else ReadVarInt.loop turns (byteIndex + 1) decodedVarInt1 s1

def ReadVarInt (s : ByteBufferImpl) : Res Nat :=
  ReadVarInt.loop 5 0 0 s

def ReadLong (s : ByteBufferImpl) : Res Nat :=
  if s.GetReadableBytes < 8 then .raised (.notEnoughReadable .long) s
  else
    (ReadByteUnsafe s).bind fun b1 s1 =>
      (ReadByteUnsafe s1).bind fun b2 s2 =>
        (ReadByteUnsafe s2).bind fun b3 s3 =>
          (ReadByteUnsafe s3).bind fun b4 s4 =>
            (ReadByteUnsafe s4).bind fun b5 s5 =>
              (ReadByteUnsafe s5).bind fun b6 s6 =>
                (ReadByteUnsafe s6).bind fun b7 s7 =>
                  (ReadByteUnsafe s7).bind fun b8 s8 =>
                    .ok ((b1 <<< 56 ||| b2 <<< 48 ||| b3 <<< 40 ||| b4 <<< 32
                      ||| b5 <<< 24 ||| b6 <<< 16 ||| b7 <<< 8 ||| b8) % UINT64_RANGE) s8

/-- The loop `for (byteIndex = 0; byteIndex < 10; ++byteIndex)` of `ReadVarLong`, with the
number of turns left, and the `throw` that follows it. -/
def ReadVarLong.loop : Nat → Nat → Nat → ByteBufferImpl → Res Nat
  | 0, _, _, s => .raised .invalidVarLong s
  | turns + 1, byteIndex, decodedVarLong, s =>
    (ReadByteUnsafe s).bind fun byte s1 =>
      let decodedVarLong1 :=
        decodedVarLong ||| ((byte &&& 0x7F) <<< (byteIndex * 7)) % UINT64_RANGE
      if byte &&& 0x80 = 0 then .ok decodedVarLong1 s1
      else ReadVarLong.loop turns (byteIndex + 1) decodedVarLong1 s1

def ReadVarLong (s : ByteBufferImpl) : Res Nat :=
  ReadVarLong.loop 10 0 0 s

end ByteBuffer

/-- The overload `ByteBuffer::ReadBytes(size_t size)`: a fresh array of `size` bytes is filled
by `ReadBytes(bytes, size)` and returned. -/
def ByteBuffer.ReadBytes (size : Nat) (s : ByteBufferImpl) : Res (List Nat) :=
  ByteBufferImpl.ReadBytes (List.replicate size 0) size s

/-! ## Strings, byte arrays, identifiers and positions

A second buffer object (the source of `WriteByteArray`, the result of `ReadByteArray`) is a
second state with a free store of its own. An `int` is a 32-bit two's complement value, held
as an `Int`; its conversions and its `&` go through the bit pattern. -/

namespace ByteBufferImpl

/-- The constructor `ByteBufferImpl(uint8_t* buffer, size_t cap)`: the region becomes the only
segment; the two indices and `readableBytes` keep their default member initialisers, `0`. -/
def ofRegion (buffer : List Nat) (cap : Nat) : ByteBufferImpl :=
  { heap := [some buffer]
    buffers := [0]
    singleCapacity := cap
    currentReadBuffer := 0
    currentWriteBuffer := 0
    localReaderIndex := 0
    localWriterIndex := 0
    readableBytes := 0 }

/-- The overload `WriteBytes(ByteBuffer* input, size_t size)`. The argument `writeBuffer` is
the content, before the call, of the thread-local array `writeBuffer` of `MAX_PACKET_SIZE`
bytes; that constant is declared outside these sources, so the array is a parameter. The
object `input` is another one than `this`; its state after the call is the value returned. -/
def WriteBytesFrom (writeBuffer : List Nat) (input : ByteBufferImpl) (size : Nat)
    (s : ByteBufferImpl) : Res ByteBufferImpl :=
  match ReadBytes writeBuffer size input with
  | .ok writeBuffer1 input1 =>
    if size ≤ writeBuffer1.length then
      (WriteBytes (writeBuffer1.take size) s).bind fun _ s1 => .ok input1 s1
    else .undefined
  | .raised e _ => .raised e s
  | .undefined => .undefined

end ByteBufferImpl

/-- Modelled from the spec: the class `UUID` of `data/uuid/UUID.hpp`, which is not among these
sources: two 64-bit halves, the most significant one first, also as the arguments of the
constructor; `GetMostSignificant` and `GetLeastSignificant` return them. -/
structure UUID where
  mostSignificant : Nat
  leastSignificant : Nat
  deriving DecidableEq, Repr

/-- The conversion of an `int` to `uint32_t`, its bit pattern. -/
def toUInt32 (x : Int) : Nat := (x % 4294967296).toNat

/-- The conversion of an `int` to `unsigned long long`: the value modulo `2^64`. -/
def toUInt64 (x : Int) : Nat := (x % 18446744073709551616).toNat

/-- The conversion of an unsigned value to `int`: the value of its low 32 bits in two's
complement. -/
def toInt32 (n : Nat) : Int :=
  if n % 4294967296 < 2147483648 then ((n % 4294967296 : Nat) : Int)
  else ((n % 4294967296 : Nat) : Int) - 4294967296

/-- The operator `&` on two `int`s. -/
def andInt32 (a b : Int) : Int := toInt32 (toUInt32 a &&& toUInt32 b)

/-- The construction of a `std::string` from a `const char*`: the bytes before the first zero
byte. Without a zero byte in the array the construction reads past its end. -/
def cString : List Nat → Option (List Nat)
  | [] => none
  | b :: bs => if b = 0 then some [] else (cString bs).map fun r => b :: r

namespace ByteBuffer

open ByteBufferImpl

def WriteUUID (input : UUID) (s : ByteBufferImpl) : Res Unit :=
  (WriteLong input.mostSignificant s).bind fun _ s1 =>
    WriteLong input.leastSignificant s1

/-- The casts to `int32_t` keep the low 32 bits, which the `uint32_t` parameter of `WriteInt`
receives. -/
def WriteUUIDIntArray (input : UUID) (s : ByteBufferImpl) : Res Unit :=
  (WriteInt ((input.mostSignificant >>> 32) % UINT32_RANGE) s).bind fun _ s1 =>
    (WriteInt (input.mostSignificant % UINT32_RANGE) s1).bind fun _ s2 =>
      (WriteInt ((input.leastSignificant >>> 32) % UINT32_RANGE) s2).bind fun _ s3 =>
        WriteInt (input.leastSignificant % UINT32_RANGE) s3

/-- The parameter of `WriteVarInt` is a `uint32_t`: `input.size()` is converted on the call. -/
def WriteString (input : List Nat) (s : ByteBufferImpl) : Res Unit :=
  (WriteVarInt (input.length % UINT32_RANGE) s).bind fun _ s1 =>
    WriteBytes input s1

/-- The member function `WriteByteArray`, with the thread-local array as for `WriteBytesFrom`;
the value returned is the state of `input` after the call. -/
def WriteByteArray (writeBuffer : List Nat) (input : ByteBufferImpl) (s : ByteBufferImpl) :
    Res ByteBufferImpl :=
  (WriteVarInt (input.GetReadableBytes % UINT32_RANGE) s).bind fun _ s1 =>
    WriteBytesFrom writeBuffer input input.GetReadableBytes s1

/-- The word `((x & 0x3FFFFFFULL) << 38) | ((z & 0x3FFFFFFULL) << 12) | (y & 0xFFF)`: `x` and
`z` are converted to `unsigned long long` for their `&`, `y & 0xFFF` is an `int` and is
converted for the `|`. -/
def WritePosition (x y z : Int) (s : ByteBufferImpl) : Res Unit :=
  WriteLong
    (((toUInt64 x &&& 0x3FFFFFF) <<< 38) % UINT64_RANGE
      ||| ((toUInt64 z &&& 0x3FFFFFF) <<< 12) % UINT64_RANGE
      ||| toUInt64 (andInt32 y 0xFFF)) s

def ReadUUID (s : ByteBufferImpl) : Res UUID :=
  (ReadLong s).bind fun msb s1 =>
    (ReadLong s1).bind fun lsb s2 =>
      .ok { mostSignificant := msb, leastSignificant := lsb } s2

def ReadUUIDIntArray (s : ByteBufferImpl) : Res UUID :=
  (ReadInt s).bind fun a s1 =>
    (ReadInt s1).bind fun b s2 =>
      (ReadInt s2).bind fun c s3 =>
        (ReadInt s3).bind fun d s4 =>
          .ok { mostSignificant := (a <<< 32) % UINT64_RANGE ||| (b &&& 0xFFFFFFFF)
                leastSignificant := (c <<< 32) % UINT64_RANGE ||| (d &&& 0xFFFFFFFF) } s4

/-- The overload `ReadString(uint32_t max_size)`. The array returned by `ReadBytes(length)` is
handed to the `std::string` as a `const char*`, without its length. -/
def ReadString (max_size : Nat) (s : ByteBufferImpl) : Res (List Nat) :=
  (ReadVarInt s).bind fun length s1 =>
    if length > max_size then .raised (.invalidArgument length) s1
    else
      (ByteBuffer.ReadBytes length s1).bind fun bytes s2 =>
        match cString bytes with
        | none => .undefined
        | some string => .ok string s2

/-- The overload `ReadByteArray(uint32_t max_size)`; the value returned is the state of the
new object. -/
def ReadByteArray (max_size : Nat) (s : ByteBufferImpl) : Res ByteBufferImpl :=
  (ReadVarInt s).bind fun length s1 =>
    if length > max_size then .raised (.invalidArgument length) s1
    else
      (ByteBuffer.ReadBytes length s1).bind fun bytes s2 =>
        .ok (ofRegion bytes length) s2

/-- The member function `ReadPosition`, returning the three references `x`, `y`, `z`; `1 << 25`
is `33554432`, `1 << 26` is `67108864`, `1 << 11` is `2048` and `1 << 12` is `4096`. -/
def ReadPosition (s : ByteBufferImpl) : Res (Int × Int × Int) :=
  (ReadLong s).bind fun value s1 =>
    let x := toInt32 (value >>> 38)
    let y := toInt32 (value &&& 0xFFF)
    let z := andInt32 (toInt32 (value >>> 12)) 0x3FFFFFF
    let x1 := if x ≥ 33554432 then x - 67108864 else x
    let y1 := if y ≥ 2048 then y - 4096 else y
    let z1 := if z ≥ 33554432 then z - 67108864 else z
    .ok (x1, y1, z1) s1

end ByteBuffer

/-! ## Direct addressing -/

namespace ByteBufferImpl

/-- The parameter is a `size_t`; the sum is taken in `size_t`. -/
def CanReadDirect (read_size : Nat) (s : ByteBufferImpl) : Bool :=
  (s.localReaderIndex + read_size) % SIZE_RANGE < s.singleCapacity

/-- The pointer `currentReadBuffer + localReaderIndex`: a region and an offset into it. -/
def GetDirectReadAddress (s : ByteBufferImpl) : Nat × Nat :=
  (s.currentReadBuffer, s.localReaderIndex)

/-- The parameter is a `size_t`; the sum is taken in `size_t`. -/
def CanWriteDirect (write_size : Nat) (s : ByteBufferImpl) : Bool :=
  (s.localWriterIndex + write_size) % SIZE_RANGE < s.singleCapacity

/-- The pointer `currentWriteBuffer + localWriterIndex`: a region and an offset into it. -/
def GetDirectWriteAddress (s : ByteBufferImpl) : Nat × Nat :=
  (s.currentWriteBuffer, s.localWriterIndex)

end ByteBufferImpl

/-! ## The dispatch table of `handler/PacketHandler.cpp`

The header `PacketHandler.hpp` is not among these sources. The static member `callbacks` is
a value handed from call to call; `GetOrdinal()` of the handler a member function is called on
is a parameter; pointers are numbers. A callback acts on surroundings of some type `σ` and
returns its `bool` with the surroundings it leaves. A function that indexes a vector outside
its size has no defined result, `none`. -/

/-- Modelled from the spec: the class `PacketHolder`, which is not among these sources: an
opaque decoded unit carrying at least a packet-type ordinal, returned by `GetOrdinal`, and a
payload. -/
structure PacketHolder where
  ordinal : Nat
  payload : List Nat
  deriving DecidableEq, Repr

/-- A non-empty `std::function<bool(PacketHandler*, void*, const PacketHolder&)>`. -/
abbrev Callback (σ : Type) := Nat → Nat → PacketHolder → σ → Bool × σ

/-- The type of `PacketHandler::callbacks`; an empty `std::function` is `none`. -/
abbrev Callbacks (σ : Type) := List (List (Option (Callback σ)))

/-- The call `vector.resize(n)` with value-initialised new elements. -/
def vectorResize {α : Type} (vector : List α) (n : Nat) (value : α) : List α :=
  vector.take n ++ List.replicate (n - vector.length) value

/-- Modelled from the spec: the helper `OrdinalVector::ResizeVectorAndSet` of
`utils/ordinal/OrdinalVector.hpp`, which is not among these sources: the vector grows to
exactly fit the ordinal, that is to `ordinal + 1` elements when it has fewer, and the element
at the ordinal is set. -/
def OrdinalVector.ResizeVectorAndSet {α : Type} (vector : List α) (ordinal : Nat)
    (value empty : α) : List α :=
  (if vector.length ≤ ordinal then vectorResize vector (ordinal + 1) empty else vector).set
    ordinal value

namespace PacketHandler

/-- The member function `Handle` of a handler whose `GetOrdinal()` is `thisOrdinal`; the
result is the `bool` returned and the surroundings after the call. -/
def Handle {σ : Type} (thisOrdinal : Nat) (handler connection : Nat) (packet : PacketHolder)
    (callbacks : Callbacks σ) (w : σ) : Option (Bool × σ) :=
  if thisOrdinal ≥ callbacks.length then some (false, w)
  else
    match callbacks[thisOrdinal]? with
    | none => none
    | some localCallbacks =>
      let ordinal := packet.ordinal
      if ordinal ≥ localCallbacks.length then some (false, w)
      else
        match localCallbacks[ordinal]? with
        | none => none
        | some none => some (false, w)
        | some (some callback) => some (callback handler connection packet w)

/-- The member function `HasCallback` of a handler whose `GetOrdinal()` is `thisOrdinal`. -/
def HasCallback {σ : Type} (thisOrdinal : Nat) (ordinal : Nat) (callbacks : Callbacks σ) :
    Option Bool :=
  if callbacks.length ≥ thisOrdinal then some false
  else
    match callbacks[thisOrdinal]? with
    | none => none
    | some localCallbacks =>
      if ordinal < localCallbacks.length then
        match localCallbacks[ordinal]? with
        | none => none
        | some callback => some callback.isSome
      else some false

/-- The static member function `SetPointerCallback`; `handler_ordinal + 8` is a `uint32_t`.
The result is the table after the call. -/
def SetPointerCallback {σ : Type} (handler_ordinal packet_ordinal : Nat)
    (callback : Option (Callback σ)) (callbacks : Callbacks σ) : Option (Callbacks σ) :=
  let callbacks1 :=
    if callbacks.length ≥ handler_ordinal then
      vectorResize callbacks ((handler_ordinal + 8) % UINT32_RANGE) []
    else callbacks
  match callbacks1[handler_ordinal]? with
  | none => none
  | some localCallbacks =>
    some (callbacks1.set handler_ordinal
      (OrdinalVector.ResizeVectorAndSet localCallbacks packet_ordinal callback none))

end PacketHandler

/-! ## The accept loop of `network/listener/EpollListener.cpp`

The loop of `StartListening` from its first `epoll_wait` on, over simulated surroundings: the
results of the successive `epoll_wait` calls and of the successive `accept4` calls are given
as two lists, and the calls the loop makes are recorded in order. The constants are those of
the Linux headers. -/

namespace EpollListener

/-- The flag `EPOLLIN` of `<sys/epoll.h>`. -/
def EPOLLIN : Nat := 0x001

/-- The flag `EPOLLERR` of `<sys/epoll.h>`. -/
def EPOLLERR : Nat := 0x008

/-- The flag `EPOLLHUP` of `<sys/epoll.h>`. -/
def EPOLLHUP : Nat := 0x010

/-- The error number `EAGAIN` of `<errno.h>`. -/
def EAGAIN : Nat := 11

/-- The fields of `epoll_event` the loop reads: `events` and `data.fd`. -/
structure epoll_event where
  events : Nat
  fd : Int
  deriving DecidableEq, Repr

/-- The calls the loop makes, with the descriptor each is made on. -/
inductive Call where
  | epoll_wait (epollFileDescriptor : Int)
  | accept4 (socketFileDescriptor : Int)
  | Accept (receivedFileDescriptor : Int)
  | close (fileDescriptor : Int)
  deriving DecidableEq, Repr

/-- How a run of the loop ends: blocked in an `epoll_wait` no result is given for, with an
`ErrnoException` thrown out of `StartListening`, or with no defined result (an element of
`events` read that `epoll_wait` has not filled). -/
inductive Ending where
  | blocked
  | raised
  | undefined
  deriving DecidableEq, Repr

/-- A run: the calls made, in order, and how it ends. -/
structure Run where
  calls : List Call
  ending : Ending
  deriving DecidableEq, Repr

/-- How the body of the `try` ends for one event: by `break`, or by a `throw`. -/
inductive Drained where
  | done
  | thrown
  deriving DecidableEq, Repr

/-- The loop `while (true)` inside the `try`, for one event. The list holds the results of
the `accept4` calls to come, return value and `errno`; once it is used up no connection is
pending and `accept4` fails with `EAGAIN`. The result is the calls made so far, the results
not used, and how the loop ended. -/
def StartListening.drain (socketFileDescriptor : Int) (event : epoll_event) :
    List (Int × Nat) → List Call → List Call × List (Int × Nat) × Drained
  | [], calls =>
    if event.events &&& EPOLLIN = 0 ∨ event.events &&& EPOLLERR ≠ 0
        ∨ event.events &&& EPOLLHUP ≠ 0 then (calls, [], .thrown)
    else (calls ++ [.accept4 socketFileDescriptor], [], .done)
  | (receivedFileDescriptor, errno) :: accepts, calls =>
    if event.events &&& EPOLLIN = 0 ∨ event.events &&& EPOLLERR ≠ 0
        ∨ event.events &&& EPOLLHUP ≠ 0 then
      (calls, (receivedFileDescriptor, errno) :: accepts, .thrown)
    else if receivedFileDescriptor = -1 then
      if errno ≠ EAGAIN then (calls ++ [.accept4 socketFileDescriptor], accepts, .thrown)
      else (calls ++ [.accept4 socketFileDescriptor], accepts, .done)
    else
      StartListening.drain socketFileDescriptor event accepts
        (calls ++ [.accept4 socketFileDescriptor, .Accept receivedFileDescriptor])

/-- The loop `for (int i = 0; i < amount; ++i)` with its `try` and `catch`: the first argument
is the number of turns left, the second the elements of `events` from `events[i]` on. The
result is the calls made so far, the `accept4` results not used, and whether the exception
left the loop (`some` is a normal end, `none` no defined result). -/
def StartListening.forEvents (socketFileDescriptor epollFileDescriptor : Int) :
    Nat → List epoll_event → List (Int × Nat) → List Call →
      Option (List Call × List (Int × Nat) × Drained)
  | 0, _, accepts, calls => some (calls, accepts, .done)
  | _ + 1, [], _, _ => none
  | turns + 1, event :: events, accepts, calls =>
    match StartListening.drain socketFileDescriptor event accepts calls with
    | (calls1, accepts1, .thrown) =>
      some (calls1 ++ [.close event.fd, .close epollFileDescriptor], accepts1, .thrown)
    | (calls1, accepts1, .done) =>
      StartListening.forEvents socketFileDescriptor epollFileDescriptor turns events accepts1
        calls1

/-- The loop `while (true)` of `StartListening`. The first list holds the results of the
`epoll_wait` calls to come, the return value `amount` and the content of `events`; once it is
used up the next `epoll_wait` does not return. -/
def StartListening.loop (socketFileDescriptor epollFileDescriptor : Int) :
    List (Int × List epoll_event) → List (Int × Nat) → List Call → Run
  | [], _, calls => { calls := calls ++ [.epoll_wait epollFileDescriptor], ending := .blocked }
  | (amount, events) :: waits, accepts, calls =>
    match StartListening.forEvents socketFileDescriptor epollFileDescriptor amount.toNat
        events accepts (calls ++ [.epoll_wait epollFileDescriptor]) with
    | none => { calls := calls ++ [.epoll_wait epollFileDescriptor], ending := .undefined }
    | some (calls1, _, .thrown) => { calls := calls1, ending := .raised }
    | some (calls1, accepts1, .done) =>
      StartListening.loop socketFileDescriptor epollFileDescriptor waits accepts1 calls1

end EpollListener

/-! ## Specification vocabulary -/

/-- The bytes of the regions a list of pointers refers to, in order. -/
def flatOf (h : Heap) : List Nat → List Nat
  | [] => []
  | p :: ps => (h.region p).getD [] ++ flatOf h ps

/-- The absolute position of the writer: the full segments before the tail, then the writer
index. -/
def writePos (s : ByteBufferImpl) : Nat :=
  (s.buffers.length - 1) * s.singleCapacity + s.localWriterIndex

/-- The readable bytes of a buffer, in reading order: the bytes of the held segments from the
reader index of the head segment up to the writer index of the tail segment. -/
def contents (s : ByteBufferImpl) : List Nat :=
  ((flatOf s.heap s.buffers).take (writePos s)).drop s.localReaderIndex

/-- Well-formed buffer states: the capacity is a positive `size_t`, the deque holds distinct
pointers to live regions of that capacity, the two current-buffer pointers are its front and
its back, both indices lie within a segment, the reader is not ahead of the writer, and the
readable-byte count is the distance between them. A fresh buffer is well-formed, and writes
and bounds-checked reads keep a buffer so. -/
structure WF (s : ByteBufferImpl) : Prop where
  cap_pos : 1 ≤ s.singleCapacity
  cap_lt : s.singleCapacity < SIZE_RANGE
  nodup : s.buffers.Nodup
  live : ∀ p ∈ s.buffers, ∃ seg, s.heap.region p = some seg ∧ seg.length = s.singleCapacity
  front : s.buffers.head? = some s.currentReadBuffer
  back : s.buffers.getLast? = some s.currentWriteBuffer
  reader_le : s.localReaderIndex ≤ s.singleCapacity
  writer_le : s.localWriterIndex ≤ s.singleCapacity
  reader_le_pos : s.localReaderIndex ≤ writePos s
  readable : s.readableBytes = writePos s - s.localReaderIndex
  pos_lt : writePos s < SIZE_RANGE

/-- Reading a buffer back in chunks of the given sizes, one `ReadBytes(size)` per chunk. -/
def readChunks : List Nat → ByteBufferImpl → Res (List (List Nat))
  | [], s => .ok [] s
  | c :: cs, s =>
    (ByteBuffer.ReadBytes c s).bind fun chunk s1 =>
      (readChunks cs s1).bind fun chunks s2 => .ok (chunk :: chunks) s2

/-- The public mutating operations of `ByteBufferImpl`. -/
inductive Op where
  | WriteByte (input : Nat)
  | WriteBytes (input : List Nat)
  | WriteBytesAndDelete (input : List Nat)
  | ReadByte
  | ReadBytes (size : Nat)
  | SkipReadBytes (count : Nat)
  | SkipWriteBytes (count : Nat)
  | ResetReaderIndex
  | ResetWriterIndex
  deriving DecidableEq, Repr

/-- One operation, its result value dropped. -/
def Op.apply : Op → ByteBufferImpl → Res Unit
  | .WriteByte input, s => ByteBufferImpl.WriteByte input s
  | .WriteBytes input, s => ByteBufferImpl.WriteBytes input s
  | .WriteBytesAndDelete input, s => ByteBufferImpl.WriteBytesAndDelete input s
  | .ReadByte, s => (ByteBuffer.ReadByte s).bind fun _ s1 => .ok () s1
  | .ReadBytes size, s => (ByteBuffer.ReadBytes size s).bind fun _ s1 => .ok () s1
  | .SkipReadBytes count, s => ByteBufferImpl.SkipReadBytes count s
  | .SkipWriteBytes count, s => ByteBufferImpl.SkipWriteBytes count s
  | .ResetReaderIndex, s => ByteBufferImpl.ResetReaderIndex s
  | .ResetWriterIndex, s => ByteBufferImpl.ResetWriterIndex s

/-- A sequence of operations, one after the other. -/
def runOps : List Op → ByteBufferImpl → Res Unit
  | [], s => .ok () s
  | op :: ops, s => (op.apply s).bind fun _ s1 => runOps ops s1

/-- The number of bytes an operation is asked to write. -/
def Op.written : Op → Nat
  | .WriteByte _ => 1
  | .WriteBytes input => input.length
  | .WriteBytesAndDelete input => input.length
  | .SkipWriteBytes count => count
  | _ => 0

/-- The operations that write, read or rewind the reader, without the two skips and the
writer reset. -/
def Op.plain : Op → Bool
  | .SkipReadBytes _ => false
  | .SkipWriteBytes _ => false
  | .ResetWriterIndex => false
  | _ => true

/-- The accounting of readable bytes: at least one segment is held, and the readable-byte
count is `(number of segments - 1) * capacity + writer index - reader index`. -/
def SegmentAccounting (s : ByteBufferImpl) : Prop :=
  s.buffers ≠ [] ∧
    (s.readableBytes : Int)
      = ((s.buffers.length : Int) - 1) * s.singleCapacity + s.localWriterIndex
        - s.localReaderIndex

instance (s : ByteBufferImpl) : Decidable (SegmentAccounting s) := by
  unfold SegmentAccounting
  infer_instance

/-- The numeric part of well-formedness: it does not look at the free store or at the
pointers, so it also survives the pointer exchange of `WriteBytesAndDelete`. -/
structure Counted (s : ByteBufferImpl) : Prop where
  cap_pos : 1 ≤ s.singleCapacity
  cap_lt : s.singleCapacity < SIZE_RANGE
  buffers_pos : 1 ≤ s.buffers.length
  reader_le : s.localReaderIndex ≤ s.singleCapacity
  writer_le : s.localWriterIndex ≤ s.singleCapacity
  readable : s.readableBytes + s.localReaderIndex = writePos s
  pos_lt : writePos s < SIZE_RANGE

/-- A result that is not an exception. -/
def Res.NoThrow {α : Type} (x : Res α) : Prop := ∀ e s1, x ≠ .raised e s1

/-- The bytes the loops of `WriteVarInt` and `WriteVarLong` hand to `WriteByte`, in arithmetic
form: groups of seven bits from the least significant end, `0x80` added to each but the last;
at most `fuel` of them. -/
def varGroups : Nat → Nat → List Nat
  | 0, _ => []
  | fuel + 1, v => if v < 128 then [v] else (v % 128 + 128) :: varGroups fuel (v / 128)

/-- The value of a sequence of seven-bit groups, least significant group first. -/
def lebValue : List Nat → Nat
  | [] => 0
  | b :: bs => b % 128 + 128 * lebValue bs

/-- The LEB128 encoding of `v`, as the specification words it: bytes carrying seven value
bits each, least significant group first, with the high bit set on every byte except the
last, and without a trailing zero group. -/
def IsLEB128 (v : Nat) (bs : List Nat) : Prop :=
  lebValue bs = v ∧ (∀ b ∈ bs, b < 256) ∧ (∀ b ∈ bs.dropLast, 128 ≤ b) ∧
    ∃ l, bs.getLast? = some l ∧ l < 128 ∧ (l = 0 → bs.length = 1)

/-- What a decoder of at most `turns` bytes meets in a byte sequence. -/
inductive Scan where
  | terminated
  | exhausted
  | overlong
  deriving DecidableEq, Repr

/-- Scanning for a byte without the continuation bit `0x80` among the first `turns` bytes:
found, or the bytes end first, or all `turns` bytes carry the bit. -/
def scan : Nat → List Nat → Scan
  | 0, _ => .overlong
  | _ + 1, [] => .exhausted
  | turns + 1, b :: bs => if b &&& 0x80 = 0 then .terminated else scan turns bs

/-- The big-endian bytes of `v` in width `w`: byte `i` is `(v >> 8 * (w - 1 - i)) mod 256`. -/
def bigEndian (w v : Nat) : List Nat :=
  (List.range w).map fun i => (v >>> (8 * (w - 1 - i))) % 256

/-- A write followed by a read gives the value back: on `s` the write returns normally and
appends some bytes `bs` to the readable bytes; the read, on any well-formed buffer whose
readable bytes begin with `bs`, returns `v` and leaves what follows `bs`, the readable-byte
count lower by their number; and when `s` has no unread bytes, the read right after the write
returns `v` and leaves none. -/
def RoundTrips {α : Type} (write : ByteBufferImpl → Res Unit) (read : ByteBufferImpl → Res α)
    (v : α) (s : ByteBufferImpl) : Prop :=
  ∃ s1 bs, write s = .ok () s1 ∧ WF s1 ∧ contents s1 = contents s ++ bs ∧
    s1.readableBytes = s.readableBytes + bs.length ∧
    (∀ t rest, WF t → contents t = bs ++ rest →
      ∃ t1, read t = .ok v t1 ∧ WF t1 ∧ contents t1 = rest ∧
        t1.readableBytes + bs.length = t.readableBytes) ∧
    (s.readableBytes = 0 → ∃ s2, read s1 = .ok v s2 ∧ s2.readableBytes = 0)

/-- A terminated VarInt: at most five bytes, the continuation bit `0x80` set on every byte
except the last. -/
def IsVarInt (pre : List Nat) : Prop :=
  pre.length ≤ 5 ∧ (∀ b ∈ pre.dropLast, b &&& 0x80 ≠ 0) ∧
    ∃ l, pre.getLast? = some l ∧ l &&& 0x80 = 0

/-- The 64-bit word of a position, as the specification words it: bits 38..63 are the low 26
bits of `x`, bits 12..37 the low 26 bits of `z`, bits 0..11 the low 12 bits of `y`, each in
two's complement. -/
def positionWord (x y z : Int) : Nat :=
  (x % 2 ^ 26).toNat * 2 ^ 38 + (z % 2 ^ 26).toNat * 2 ^ 12 + (y % 2 ^ 12).toNat

/-- The callback the table holds at a handler ordinal and a packet ordinal, if any: `none`
when either ordinal is outside its vector or the `std::function` there is empty. -/
def PacketHandler.entry {σ : Type} (callbacks : Callbacks σ) (h p : Nat) :
    Option (Callback σ) :=
  match callbacks[h]? with
  | none => none
  | some localCallbacks =>
    match localCallbacks[p]? with
    | none => none
    | some callback => callback

/-- The calls made while the given `accept4` results, all of them descriptors, are taken:
each `accept4` followed by the hand-off of the descriptor it returned. -/
def EpollListener.acceptCalls (socketFileDescriptor : Int) : List (Int × Nat) → List Call
  | [] => []
  | r :: rs => .accept4 socketFileDescriptor :: .Accept r.1 :: acceptCalls socketFileDescriptor rs

/-- The descriptors handed to `eventLoop->Accept`, in the order of the calls. -/
def EpollListener.handedOff : List Call → List Int
  | [] => []
  | .Accept fd :: calls => fd :: handedOff calls
  | _ :: calls => handedOff calls

/-- The part of well-formedness that reading needs and that survives a read past the writer:
the capacity is positive, the deque holds distinct pointers to live regions of that capacity,
its front is the current read buffer, and the reader index lies within a segment. Nothing is
said of the writer or of the readable-byte count. -/
structure Held (s : ByteBufferImpl) : Prop where
  cap_pos : 1 ≤ s.singleCapacity
  nodup : s.buffers.Nodup
  live : ∀ p ∈ s.buffers, ∃ seg, s.heap.region p = some seg ∧ seg.length = s.singleCapacity
  front : s.buffers.head? = some s.currentReadBuffer
  reader_le : s.localReaderIndex ≤ s.singleCapacity

/-- The bytes in the held segments from the reader index to the end of the last segment, in
order: the readable bytes, then the bytes from the write position on, which are no part of the
data the buffer holds. -/
def physical (s : ByteBufferImpl) : List Nat :=
  (flatOf s.heap s.buffers).drop s.localReaderIndex

/-- The bytes in the held segments from the write position on. -/
def beyond (s : ByteBufferImpl) : List Nat :=
  (flatOf s.heap s.buffers).drop (writePos s)

/-- A number of calls of `ReadByteUnsafe`, one after the other, with the bytes returned. -/
def readUnsafeN : Nat → ByteBufferImpl → Res (List Nat)
  | 0, s => .ok [] s
  | n + 1, s =>
    (ByteBufferImpl.ReadByteUnsafe s).bind fun b s1 =>
      (readUnsafeN n s1).bind fun bs s2 => .ok (b :: bs) s2

/-- The value of `decodedVarLong` once the loop of `ReadVarLong` has taken the bytes `bs`, the
first of them at `byteIndex`, starting from `decodedVarLong`: every byte adds
`(byte & 0x7F) << byteIndex * 7`. -/
def decodedAfter : Nat → Nat → List Nat → Nat
  | _, decodedVarLong, [] => decodedVarLong
  | byteIndex, decodedVarLong, byte :: bs =>
    decodedAfter (byteIndex + 1)
      (decodedVarLong ||| ((byte &&& 0x7F) <<< (byteIndex * 7)) % UINT64_RANGE) bs

/-! # Theorems -/

/-! ## Layout of the segments in the free store -/

section

open ByteBufferImpl

namespace Heap

theorem region_eq_some {h : Heap} {p : Nat} {seg : List Nat} :
    h.region p = some seg ↔ h[p]? = some (some seg) := by
  unfold region
  split
  · next seg' heq => simp [heq]
  · next hne =>
    constructor
    · intro hh; cases hh
    · intro hh; exact absurd hh (hne seg)

theorem region_lt {h : Heap} {p : Nat} {seg : List Nat} (hr : h.region p = some seg) :
    p < h.length := by
  rw [region_eq_some] at hr
  by_contra hlt
  rw [List.getElem?_eq_none (by omega)] at hr
  cases hr

theorem region_append_left (h x : Heap) {p : Nat} (hp : p < h.length) :
    region (h ++ x) p = h.region p := by
  unfold region
  rw [List.getElem?_append_left hp]

theorem region_append_new (h : Heap) (seg : List Nat) :
    region (h ++ [some seg]) h.length = some seg := by
  rw [region_eq_some]
  simp

theorem region_set_same (h : Heap) {p : Nat} (seg : List Nat) (hp : p < h.length) :
    region (h.set p (some seg)) p = some seg := by
  rw [region_eq_some]
  simp [hp]

theorem region_set_ne (h : Heap) {p q : Nat} (x : Option (List Nat)) (hne : q ≠ p) :
    region (h.set p x) q = h.region q := by
  unfold region
  rw [List.getElem?_set_ne (Ne.symm hne)]

end Heap

theorem flatOf_append (h : Heap) (a b : List Nat) :
    flatOf h (a ++ b) = flatOf h a ++ flatOf h b := by
  induction a with
  | nil => rfl
  | cons p ps ih => simp [flatOf, ih]

theorem flatOf_congr {h h2 : Heap} {ps : List Nat}
    (hh : ∀ p ∈ ps, h2.region p = h.region p) : flatOf h2 ps = flatOf h ps := by
  induction ps with
  | nil => rfl
  | cons p ps ih =>
    simp only [flatOf]
    rw [hh p (List.mem_cons_self _ _), ih (fun q hq => hh q (List.mem_cons_of_mem _ hq))]

theorem length_flatOf {h : Heap} {ps : List Nat} {C : Nat}
    (hl : ∀ p ∈ ps, ∃ seg, h.region p = some seg ∧ seg.length = C) :
    (flatOf h ps).length = ps.length * C := by
  induction ps with
  | nil => simp [flatOf]
  | cons p ps ih =>
    obtain ⟨seg, hseg, hlen⟩ := hl p (List.mem_cons_self _ _)
    simp only [flatOf, hseg, Option.getD_some, List.length_append, List.length_cons, hlen,
      ih (fun q hq => hl q (List.mem_cons_of_mem _ hq))]
    ring

theorem WF.flat_back {s : ByteBufferImpl} (hs : WF s) :
    ∃ init seg, s.buffers = init ++ [s.currentWriteBuffer] ∧ s.currentWriteBuffer ∉ init ∧
      s.heap.region s.currentWriteBuffer = some seg ∧ seg.length = s.singleCapacity ∧
      flatOf s.heap s.buffers = flatOf s.heap init ++ seg ∧
      (flatOf s.heap init).length = init.length * s.singleCapacity ∧
      writePos s = init.length * s.singleCapacity + s.localWriterIndex := by
  obtain ⟨init, hinit⟩ := List.getLast?_eq_some_iff.mp hs.back
  obtain ⟨seg, hseg, hlen⟩ := hs.live s.currentWriteBuffer (by simp [hinit])
  have hnd := hs.nodup
  rw [hinit] at hnd
  have hnot : s.currentWriteBuffer ∉ init := by
    intro hmem
    exact (List.nodup_append.mp hnd).2.2 hmem (List.mem_singleton_self _)
  refine ⟨init, seg, hinit, hnot, hseg, hlen, ?_, ?_, ?_⟩
  · rw [hinit, flatOf_append]
    simp [flatOf, hseg]
  · apply length_flatOf
    intro p hp
    exact hs.live p (by simp [hinit, hp])
  · simp [writePos, hinit]

theorem WF.flat_front {s : ByteBufferImpl} (hs : WF s) :
    ∃ tail seg, s.buffers = s.currentReadBuffer :: tail ∧ s.currentReadBuffer ∉ tail ∧
      s.heap.region s.currentReadBuffer = some seg ∧ seg.length = s.singleCapacity ∧
      flatOf s.heap s.buffers = seg ++ flatOf s.heap tail ∧
      (flatOf s.heap tail).length = tail.length * s.singleCapacity := by
  obtain ⟨tail, htail⟩ := List.head?_eq_some_iff.mp hs.front
  obtain ⟨seg, hseg, hlen⟩ := hs.live s.currentReadBuffer (by simp [htail])
  have hnd := hs.nodup
  rw [htail] at hnd
  refine ⟨tail, seg, htail, (List.nodup_cons.mp hnd).1, hseg, hlen, ?_, ?_⟩
  · rw [htail]
    simp [flatOf, hseg]
  · apply length_flatOf
    intro p hp
    exact hs.live p (by simp [htail, hp])

theorem WF.length_flat {s : ByteBufferImpl} (hs : WF s) :
    (flatOf s.heap s.buffers).length = s.buffers.length * s.singleCapacity :=
  length_flatOf hs.live

theorem WF.buffers_pos {s : ByteBufferImpl} (hs : WF s) : 1 ≤ s.buffers.length := by
  obtain ⟨tail, htail⟩ := List.head?_eq_some_iff.mp hs.front
  simp [htail]

theorem WF.writePos_le {s : ByteBufferImpl} (hs : WF s) :
    writePos s ≤ s.buffers.length * s.singleCapacity := by
  have h1 := hs.buffers_pos
  have h2 := hs.writer_le
  obtain ⟨n, hn⟩ : ∃ n, s.buffers.length = n + 1 := ⟨s.buffers.length - 1, by omega⟩
  simp only [writePos, hn, Nat.add_sub_cancel]
  rw [Nat.add_mul]
  omega

theorem WF.length_contents {s : ByteBufferImpl} (hs : WF s) :
    (contents s).length = s.readableBytes := by
  have h1 := hs.writePos_le
  simp only [contents, List.length_drop, List.length_take, hs.length_flat, hs.readable]
  omega

/-- Storing a range that fits into the tail segment appends it to the readable bytes. -/
theorem WF.storeRange {s : ByteBufferImpl} (hs : WF s) (bs : List Nat)
    (hfit : s.localWriterIndex + bs.length ≤ s.singleCapacity)
    (hpos : writePos s + bs.length < SIZE_RANGE) :
    ∃ h, s.heap.storeRange s.currentWriteBuffer s.localWriterIndex bs = some h ∧
      WF { s with
        heap := h
        localWriterIndex := s.localWriterIndex + bs.length
        readableBytes := s.readableBytes + bs.length } ∧
      contents { s with
        heap := h
        localWriterIndex := s.localWriterIndex + bs.length
        readableBytes := s.readableBytes + bs.length } = contents s ++ bs := by
  obtain ⟨init, seg, hinit, hnot, hseg, hlen, hflat, hflen, hwp⟩ := hs.flat_back
  have hlt := Heap.region_lt hseg
  refine ⟨_, by simp only [Heap.storeRange, hseg]; rw [if_pos (by omega)], ?_, ?_⟩
  all_goals
    have hreg : ∀ p ∈ init, Heap.region (s.heap.set s.currentWriteBuffer
        (some (seg.take s.localWriterIndex ++ bs ++
          seg.drop (s.localWriterIndex + bs.length)))) p = s.heap.region p := by
      intro p hp
      apply Heap.region_set_ne
      rintro rfl
      exact hnot hp
    have hwp2 : writePos { s with
        heap := s.heap.set s.currentWriteBuffer
          (some (seg.take s.localWriterIndex ++ bs ++ seg.drop (s.localWriterIndex + bs.length)))
        localWriterIndex := s.localWriterIndex + bs.length
        readableBytes := s.readableBytes + bs.length } = writePos s + bs.length := by
      simp only [writePos]; omega
  · have h1 := hs.reader_le_pos
    have h2 := hs.readable
    refine ⟨hs.cap_pos, hs.cap_lt, hs.nodup, ?_, hs.front, hs.back, hs.reader_le, hfit, ?_, ?_, ?_⟩
    · intro p hp
      by_cases hpw : p = s.currentWriteBuffer
      · subst hpw
        refine ⟨_, Heap.region_set_same _ _ hlt, ?_⟩
        simp only [List.length_append, List.length_take, List.length_drop]
        omega
      · show ∃ seg2, Heap.region (s.heap.set _ _) p = some seg2 ∧ _
        rw [Heap.region_set_ne _ _ hpw]
        exact hs.live p hp
    · rw [hwp2]; show s.localReaderIndex ≤ _; omega
    · rw [hwp2]; show s.readableBytes + bs.length = writePos s + bs.length - s.localReaderIndex
      omega
    · rw [hwp2]; exact hpos
  · simp only [contents]
    rw [hwp2]
    show List.drop s.localReaderIndex (List.take (writePos s + bs.length)
      (flatOf (s.heap.set _ _) s.buffers)) = _
    rw [hflat, hinit, flatOf_append, flatOf_congr hreg]
    simp only [flatOf, Heap.region_set_same _ _ hlt, Option.getD_some, List.append_nil]
    rw [hwp]
    have e1 : init.length * s.singleCapacity + s.localWriterIndex + bs.length
        = (flatOf s.heap init ++ (seg.take s.localWriterIndex ++ bs)).length := by
      simp only [List.length_append, List.length_take, hflen]; omega
    have e2 : init.length * s.singleCapacity + s.localWriterIndex
        = (flatOf s.heap init ++ seg.take s.localWriterIndex).length := by
      simp only [List.length_append, List.length_take, hflen]; omega
    have a1 : flatOf s.heap init ++ (seg.take s.localWriterIndex ++ bs ++
          seg.drop (s.localWriterIndex + bs.length))
        = (flatOf s.heap init ++ (seg.take s.localWriterIndex ++ bs)) ++
          seg.drop (s.localWriterIndex + bs.length) := by simp
    have a2 : flatOf s.heap init ++ seg
        = (flatOf s.heap init ++ seg.take s.localWriterIndex) ++
          seg.drop s.localWriterIndex := by simp
    rw [a1, e1, List.take_left, a2, e2, List.take_left, ← List.append_assoc,
      List.drop_append_of_le_length]
    rw [← e2, ← hwp]
    exact hs.reader_le_pos

theorem WF.lt_heap {s : ByteBufferImpl} (hs : WF s) {p : Nat} (hp : p ∈ s.buffers) :
    p < s.heap.length := by
  obtain ⟨seg, hseg, _⟩ := hs.live p hp
  exact Heap.region_lt hseg

/-- Appending a segment when the tail segment is full keeps the readable bytes. -/
theorem WF.appendBuffer {s : ByteBufferImpl} (hs : WF s)
    (hw : s.localWriterIndex = s.singleCapacity) :
    WF { s with
      localWriterIndex := 0
      currentWriteBuffer := s.heap.length
      heap := s.heap ++ [some (List.replicate s.singleCapacity 0)]
      buffers := s.buffers ++ [s.heap.length] } ∧
    contents { s with
      localWriterIndex := 0
      currentWriteBuffer := s.heap.length
      heap := s.heap ++ [some (List.replicate s.singleCapacity 0)]
      buffers := s.buffers ++ [s.heap.length] } = contents s := by
  have hn := hs.buffers_pos
  have hwp : writePos { s with
      localWriterIndex := 0
      currentWriteBuffer := s.heap.length
      heap := s.heap ++ [some (List.replicate s.singleCapacity 0)]
      buffers := s.buffers ++ [s.heap.length] } = writePos s := by
    obtain ⟨n, hn⟩ : ∃ n, s.buffers.length = n + 1 := ⟨s.buffers.length - 1, by omega⟩
    simp only [writePos, List.length_append, List.length_singleton, hn, Nat.add_sub_cancel, hw]
    rw [Nat.add_mul]; omega
  have hreg : ∀ p ∈ s.buffers,
      Heap.region (s.heap ++ [some (List.replicate s.singleCapacity 0)]) p = s.heap.region p :=
    fun p hp => Heap.region_append_left _ _ (hs.lt_heap hp)
  constructor
  · refine ⟨hs.cap_pos, hs.cap_lt, ?_, ?_, ?_, ?_, hs.reader_le, Nat.zero_le _, ?_, ?_, ?_⟩
    · show (s.buffers ++ [s.heap.length]).Nodup
      rw [List.nodup_append]
      refine ⟨hs.nodup, List.nodup_singleton _, ?_⟩
      intro a ha hb
      rw [List.mem_singleton] at hb
      subst hb
      exact absurd (hs.lt_heap ha) (Nat.lt_irrefl _)
    · intro p hp
      show ∃ seg, Heap.region (s.heap ++ _) p = some seg ∧ seg.length = s.singleCapacity
      rcases List.mem_append.mp hp with hp | hp
      · rw [hreg p hp]; exact hs.live p hp
      · rw [List.mem_singleton] at hp
        subst hp
        exact ⟨_, Heap.region_append_new _ _, List.length_replicate _ _⟩
    · show (s.buffers ++ [s.heap.length]).head? = some s.currentReadBuffer
      obtain ⟨tail, htail⟩ := List.head?_eq_some_iff.mp hs.front
      rw [htail]; rfl
    · show (s.buffers ++ [s.heap.length]).getLast? = some s.heap.length
      simp
    · rw [hwp]; exact hs.reader_le_pos
    · rw [hwp]; exact hs.readable
    · rw [hwp]; exact hs.pos_lt
  · simp only [contents]
    rw [hwp]
    show List.drop s.localReaderIndex (List.take (writePos s)
      (flatOf (s.heap ++ _) (s.buffers ++ [s.heap.length]))) = _
    rw [flatOf_append, flatOf_congr hreg, List.take_append_of_le_length]
    rw [hs.length_flat]
    exact hs.writePos_le

theorem PopBuffer_reader (s : ByteBufferImpl) (x : Nat) :
    ByteBufferImpl.PopBuffer { s with localReaderIndex := x } = ByteBufferImpl.PopBuffer s := by
  unfold ByteBufferImpl.PopBuffer
  rfl

theorem AppendBuffer_writer (s : ByteBufferImpl) (x : Nat) :
    ByteBufferImpl.AppendBuffer { s with localWriterIndex := x } =
      ByteBufferImpl.AppendBuffer s := by
  unfold ByteBufferImpl.AppendBuffer
  rfl

/-- Releasing the head segment once the reader has passed it keeps the readable bytes. -/
theorem WF.popBuffer {s : ByteBufferImpl} (hs : WF s)
    (hr : s.localReaderIndex = s.singleCapacity) (hn : 2 ≤ s.buffers.length) :
    ∃ s1, ByteBufferImpl.PopBuffer s = .ok () s1 ∧ WF s1 ∧ contents s1 = contents s ∧
      s1.readableBytes = s.readableBytes ∧ s1.singleCapacity = s.singleCapacity ∧
      s1.localReaderIndex = 0 ∧ s1.localWriterIndex = s.localWriterIndex ∧
      s1.buffers.length + 1 = s.buffers.length ∧
      writePos s1 + s.singleCapacity = writePos s := by
  obtain ⟨tail, seg, htail, hnot, hseg, hlen, hflat, hflen⟩ := hs.flat_front
  obtain ⟨q, rest, hrest⟩ : ∃ q rest, tail = q :: rest := by
    cases tail with
    | nil => rw [htail] at hn; simp at hn
    | cons q rest => exact ⟨q, rest, rfl⟩
  have hpop : ByteBufferImpl.PopBuffer s = .ok () { s with
      localReaderIndex := 0
      heap := s.heap.free s.currentReadBuffer
      buffers := tail
      currentReadBuffer := q } := by
    unfold ByteBufferImpl.PopBuffer
    rw [htail, hrest]
    simp only [hseg]
  have hreg : ∀ p ∈ tail,
      Heap.region (s.heap.free s.currentReadBuffer) p = s.heap.region p := by
    intro p hp
    apply Heap.region_set_ne
    rintro rfl
    exact hnot hp
  have hwp : writePos { s with
      localReaderIndex := 0
      heap := s.heap.free s.currentReadBuffer
      buffers := tail
      currentReadBuffer := q } + s.singleCapacity = writePos s := by
    simp only [writePos, htail, hrest, List.length_cons, Nat.add_sub_cancel]
    rw [Nat.add_mul]; omega
  have hback := hs.back
  have hnd := hs.nodup
  rw [htail] at hback hnd
  refine ⟨_, hpop, ?_, ?_, rfl, rfl, rfl, rfl, by simp [htail], hwp⟩
  · refine ⟨hs.cap_pos, hs.cap_lt, (List.nodup_cons.mp hnd).2, ?_, ?_, ?_, Nat.zero_le _,
      hs.writer_le, Nat.zero_le _, ?_, ?_⟩
    · intro p hp
      show ∃ seg, Heap.region (s.heap.free _) p = some seg ∧ seg.length = s.singleCapacity
      rw [hreg p hp]
      exact hs.live p (by rw [htail]; exact List.mem_cons_of_mem _ hp)
    · show tail.head? = some q
      rw [hrest]; rfl
    · show tail.getLast? = some s.currentWriteBuffer
      rw [hrest] at hback ⊢
      simpa [List.getLast?_cons_cons] using hback
    · have h1 := hs.readable
      have h2 := hs.reader_le_pos
      show s.readableBytes = _ - 0
      omega
    · have h1 := hs.pos_lt
      omega
  · simp only [contents]
    show List.drop 0 (List.take _ (flatOf (s.heap.free _) tail)) = _
    rw [flatOf_congr hreg, hflat, hr, ← hwp, List.drop_zero, ← hlen, Nat.add_comm,
      List.take_append, List.drop_left]

/-- Loading a range that lies in the head segment and in the readable bytes yields the next
readable bytes and moves the reader past them. -/
theorem WF.loadRange {s : ByteBufferImpl} (hs : WF s) (len : Nat)
    (hfit : s.localReaderIndex + len ≤ s.singleCapacity) (hlen : len ≤ s.readableBytes) :
    s.heap.loadRange s.currentReadBuffer s.localReaderIndex len
        = some ((contents s).take len) ∧
      WF { s with
        localReaderIndex := s.localReaderIndex + len
        readableBytes := s.readableBytes - len } ∧
      contents { s with
        localReaderIndex := s.localReaderIndex + len
        readableBytes := s.readableBytes - len } = (contents s).drop len := by
  obtain ⟨tail, seg, htail, hnot, hseg, hslen, hflat, hflen⟩ := hs.flat_front
  have h1 := hs.readable
  have h2 := hs.reader_le_pos
  refine ⟨?_, ?_, ?_⟩
  · simp only [Heap.loadRange, hseg]
    rw [if_pos (by omega)]
    simp only [contents, hflat]
    rw [List.drop_take, List.take_take, Nat.min_eq_left (by omega),
      List.drop_append_of_le_length (by omega), List.take_append_of_le_length]
    simp only [List.length_drop]; omega
  · exact ⟨hs.cap_pos, hs.cap_lt, hs.nodup, hs.live, hs.front, hs.back, hfit, hs.writer_le,
      by show s.localReaderIndex + len ≤ writePos s; omega,
      by show s.readableBytes - len = writePos s - (s.localReaderIndex + len); omega,
      hs.pos_lt⟩
  · simp only [contents]
    show List.drop (s.localReaderIndex + len) (List.take (writePos s) _) = _
    rw [List.drop_drop]

theorem Heap.store_eq_storeRange (h : Heap) (p i v : Nat) :
    h.store p i v = h.storeRange p i [v] := by
  unfold Heap.store Heap.storeRange
  cases h.region p with
  | none => rfl
  | some seg =>
    simp only [List.length_singleton]
    by_cases hi : i < seg.length
    · have hset : seg.set i v = seg.take i ++ [v] ++ seg.drop (i + 1) := by
        rw [List.set_eq_take_append_cons_drop (l := seg), if_pos hi]
        simp
      rw [if_pos hi, if_pos (by omega), hset]
    · rw [if_neg hi, if_neg (by omega)]

theorem Heap.load_of_loadRange {h : Heap} {p i b : Nat} {l : List Nat}
    (hl : h.loadRange p i 1 = some (b :: l)) : h.load p i = some b := by
  unfold Heap.loadRange at hl
  unfold Heap.load
  cases hreg : h.region p with
  | none => rw [hreg] at hl; cases hl
  | some seg =>
    rw [hreg] at hl
    simp only at hl ⊢
    split at hl
    · have h0 := congrArg (fun x => x[0]?) (Option.some.inj hl)
      simp only [List.getElem?_cons_zero] at h0
      rw [List.getElem?_take_of_lt (by omega), List.getElem?_drop] at h0
      simpa using h0
    · cases hl

theorem WF.tryRefreshWriterBuffer {s : ByteBufferImpl} (hs : WF s) :
    ∃ t, TryRefreshWriterBuffer s = .ok () t ∧ WF t ∧ contents t = contents s ∧
      t.localWriterIndex < t.singleCapacity ∧ t.singleCapacity = s.singleCapacity ∧
      t.readableBytes = s.readableBytes ∧ writePos t = writePos s := by
  unfold TryRefreshWriterBuffer
  by_cases hw : s.localWriterIndex ≥ s.singleCapacity
  · rw [if_pos hw]
    have hw2 : s.localWriterIndex = s.singleCapacity := Nat.le_antisymm hs.writer_le hw
    obtain ⟨h1, h2⟩ := hs.appendBuffer hw2
    refine ⟨_, rfl, h1, h2, hs.cap_pos, rfl, rfl, ?_⟩
    have e1 := h1.readable
    have e2 := hs.readable
    have e3 := h1.reader_le_pos
    have e4 := hs.reader_le_pos
    have e5 : ({ s with
      localWriterIndex := 0
      currentWriteBuffer := s.heap.length
      heap := s.heap ++ [some (List.replicate s.singleCapacity 0)]
      buffers := s.buffers ++ [s.heap.length] } : ByteBufferImpl).readableBytes
        = s.readableBytes := rfl
    have e6 : ({ s with
      localWriterIndex := 0
      currentWriteBuffer := s.heap.length
      heap := s.heap ++ [some (List.replicate s.singleCapacity 0)]
      buffers := s.buffers ++ [s.heap.length] } : ByteBufferImpl).localReaderIndex
        = s.localReaderIndex := rfl
    omega
  · rw [if_neg hw]
    exact ⟨s, rfl, hs, rfl, by omega, rfl, rfl, rfl⟩

theorem WF.two_le_buffers {s : ByteBufferImpl} (hs : WF s)
    (hr : s.localReaderIndex = s.singleCapacity) (hrb : 1 ≤ s.readableBytes) :
    2 ≤ s.buffers.length := by
  have h1 := hs.buffers_pos
  have h2 := hs.readable
  have h3 := hs.writer_le
  by_contra hlt
  have h4 : s.buffers.length = 1 := by omega
  simp only [writePos, h4] at h2
  omega

theorem WF.tryRefreshReaderBuffer {s : ByteBufferImpl} (hs : WF s)
    (hrb : 1 ≤ s.readableBytes) :
    ∃ t, TryRefreshReaderBuffer s = .ok () t ∧ WF t ∧ contents t = contents s ∧
      t.localReaderIndex < t.singleCapacity ∧ t.singleCapacity = s.singleCapacity ∧
      t.readableBytes = s.readableBytes ∧ writePos t ≤ writePos s := by
  unfold TryRefreshReaderBuffer
  by_cases hr : s.localReaderIndex ≥ s.singleCapacity
  · rw [if_pos hr]
    have hr2 : s.localReaderIndex = s.singleCapacity := Nat.le_antisymm hs.reader_le hr
    obtain ⟨t, e1, e2, e3, e4, e5, e6, e7, e8, e9⟩ :=
      hs.popBuffer hr2 (hs.two_le_buffers hr2 hrb)
    have := e2.cap_pos
    exact ⟨t, e1, e2, e3, by omega, e5, e4, by omega⟩
  · rw [if_neg hr]
    exact ⟨s, rfl, hs, rfl, by omega, rfl, rfl, Nat.le_refl _⟩

/-- The function `WriteByte` on a well-formed buffer appends the byte to the readable bytes. -/
theorem WF.writeByte {s : ByteBufferImpl} (hs : WF s) (input : Nat)
    (hpos : writePos s + 1 < SIZE_RANGE) :
    ∃ s1, ByteBufferImpl.WriteByte input s = .ok () s1 ∧ WF s1 ∧
      contents s1 = contents s ++ [input % 256] ∧
      s1.singleCapacity = s.singleCapacity ∧ writePos s1 = writePos s + 1 := by
  obtain ⟨t, e1, e2, e3, e4, e5, e6, e7⟩ := hs.tryRefreshWriterBuffer
  obtain ⟨h, f1, f2, f3⟩ := e2.storeRange [input % 256]
    (by simp only [List.length_singleton]; omega)
    (by simp only [List.length_singleton]; omega)
  have hmod : (t.readableBytes + 1) % SIZE_RANGE = t.readableBytes + 1 := by
    apply Nat.mod_eq_of_lt
    have := e2.readable
    omega
  refine ⟨_, ?_, f2, by rw [f3, e3], e5, ?_⟩
  · unfold ByteBufferImpl.WriteByte
    rw [e1]
    simp only [Res.bind, Heap.store_eq_storeRange, f1, hmod]
    rfl
  · rw [← e7]
    simp only [writePos, List.length_singleton]
    omega

/-- The function `ReadByteUnsafe` on a well-formed buffer with a readable byte returns the
first readable byte and removes it. -/
theorem WF.readByteUnsafe {s : ByteBufferImpl} (hs : WF s) (hrb : 1 ≤ s.readableBytes) :
    ∃ b s1, ByteBufferImpl.ReadByteUnsafe s = .ok b s1 ∧ WF s1 ∧
      contents s = b :: contents s1 ∧ s1.singleCapacity = s.singleCapacity ∧
      s1.readableBytes + 1 = s.readableBytes ∧ writePos s1 ≤ writePos s := by
  obtain ⟨t, e1, e2, e3, e4, e5, e6, e7⟩ := hs.tryRefreshReaderBuffer hrb
  obtain ⟨f1, f2, f3⟩ := e2.loadRange 1 (by omega) (by omega)
  have hlen := e2.length_contents
  obtain ⟨b, rest, hc⟩ : ∃ b rest, contents t = b :: rest := by
    cases hct : contents t with
    | nil => rw [hct] at hlen; simp at hlen; omega
    | cons b rest => exact ⟨b, rest, rfl⟩
  rw [hc] at f1 f3
  simp only [List.take_succ_cons, List.take_zero, List.drop_succ_cons, List.drop_zero] at f1 f3
  have hmod : (t.readableBytes + SIZE_RANGE - 1) % SIZE_RANGE = t.readableBytes - 1 := by
    have h1 := e2.readable
    have h2 := e2.pos_lt
    have h3 : t.readableBytes + SIZE_RANGE - 1 = (t.readableBytes - 1) + SIZE_RANGE := by omega
    rw [h3, Nat.add_mod_right]
    apply Nat.mod_eq_of_lt
    omega
  refine ⟨b, _, ?_, f2, by rw [← e3, hc, f3], e5, ?_, ?_⟩
  · unfold ByteBufferImpl.ReadByteUnsafe
    rw [e1]
    simp only [Res.bind, Heap.load_of_loadRange f1, hmod]
  · show t.readableBytes - 1 + 1 = s.readableBytes
    omega
  · exact e7

end

/-! ## Writing byte ranges -/

section

open ByteBufferImpl

/-- Filling the tail segment up to its end and appending a fresh segment. -/
theorem WF.storeRange_append {s : ByteBufferImpl} (hs : WF s) (bs : List Nat)
    (hfit : s.localWriterIndex + bs.length = s.singleCapacity)
    (hpos : writePos s + bs.length < SIZE_RANGE) :
    ∃ h, s.heap.storeRange s.currentWriteBuffer s.localWriterIndex bs = some h ∧
      ∀ rb w, rb = s.readableBytes + bs.length →
        ∃ t, AppendBuffer { s with heap := h, readableBytes := rb, localWriterIndex := w }
            = .ok () t ∧
          WF t ∧ contents t = contents s ++ bs ∧ t.localWriterIndex = 0 ∧
          t.singleCapacity = s.singleCapacity ∧ writePos t = writePos s + bs.length := by
  obtain ⟨h, e1, e2, e3⟩ := hs.storeRange bs (by omega) hpos
  refine ⟨h, e1, ?_⟩
  intro rb w hrb
  subst hrb
  obtain ⟨f1, f2⟩ := e2.appendBuffer hfit
  refine ⟨_, ?_, f1, by rw [f2, e3], rfl, rfl, ?_⟩
  · rfl
  · have hn := hs.buffers_pos
    obtain ⟨n, hn⟩ : ∃ n, s.buffers.length = n + 1 := ⟨s.buffers.length - 1, by omega⟩
    simp only [writePos, List.length_append, List.length_singleton, hn, Nat.add_sub_cancel]
    rw [Nat.add_mul]
    omega

/-- Copying the rest of the head segment out and releasing the segment. -/
theorem WF.loadRange_pop {s : ByteBufferImpl} (hs : WF s) (len : Nat)
    (hfit : s.localReaderIndex + len = s.singleCapacity) (hlen : len + 1 ≤ s.readableBytes) :
    s.heap.loadRange s.currentReadBuffer s.localReaderIndex len
        = some ((contents s).take len) ∧
      ∀ rb r, rb = s.readableBytes - len →
        ∃ t, PopBuffer { s with readableBytes := rb, localReaderIndex := r } = .ok () t ∧
          WF t ∧ contents t = (contents s).drop len ∧ t.localReaderIndex = 0 ∧
          t.singleCapacity = s.singleCapacity ∧ t.readableBytes = s.readableBytes - len ∧
          t.buffers.length + 1 = s.buffers.length ∧ writePos t ≤ writePos s := by
  obtain ⟨e1, e2, e3⟩ := hs.loadRange len (by omega) (by omega)
  refine ⟨e1, ?_⟩
  intro rb r hrb
  subst hrb
  obtain ⟨t, f1, f2, f3, f4, f5, f6, f7, f8, f9⟩ :=
    e2.popBuffer hfit (e2.two_le_buffers hfit (by show 1 ≤ s.readableBytes - len; omega))
  refine ⟨t, ?_, f2, by rw [f3, e3], f6, f5, f4, f8, ?_⟩
  · rw [← f1]
    exact (PopBuffer_reader { s with readableBytes := s.readableBytes - len } r).trans
      (PopBuffer_reader { s with readableBytes := s.readableBytes - len }
        (s.localReaderIndex + len)).symm
  · have g : writePos { s with
        localReaderIndex := s.localReaderIndex + len
        readableBytes := s.readableBytes - len } = writePos s := rfl
    omega

theorem WriteBytes_loop_spec (input : List Nat) (hin : input.length < SIZE_RANGE) :
    ∀ (fuel bytesIndex size : Nat) (s : ByteBufferImpl), WF s → s.localWriterIndex = 0 →
      bytesIndex + size = input.length → size ≤ fuel → writePos s + size < SIZE_RANGE →
      ∃ bi sz s1, WriteBytes.loop input fuel bytesIndex size s = .ok (bi, sz) s1 ∧ WF s1 ∧
        s1.localWriterIndex = 0 ∧ sz ≤ s1.singleCapacity ∧ bi + sz = input.length ∧
        contents s1 ++ input.drop bi = contents s ++ input.drop bytesIndex ∧
        s1.singleCapacity = s.singleCapacity ∧ writePos s1 + sz = writePos s + size := by
  intro fuel
  induction fuel with
  | zero =>
    intro bytesIndex size s hs hw hsum hfuel hpos
    have h0 : size = 0 := by omega
    subst h0
    exact ⟨bytesIndex, 0, s, by simp [WriteBytes.loop], hs, hw, Nat.zero_le _, hsum, rfl, rfl,
      rfl⟩
  | succ fuel ih =>
    intro bytesIndex size s hs hw hsum hfuel hpos
    unfold WriteBytes.loop
    by_cases hgt : size > s.singleCapacity
    · rw [if_pos hgt]
      have hclen : ((input.drop bytesIndex).take s.singleCapacity).length
          = s.singleCapacity := by
        simp only [List.length_take, List.length_drop]; omega
      obtain ⟨h, e1, e2⟩ := hs.storeRange_append
        ((input.drop bytesIndex).take s.singleCapacity) (by omega) (by omega)
      rw [e1]
      have hrbs := hs.readable
      have hmod : (s.readableBytes + s.singleCapacity) % SIZE_RANGE
          = s.readableBytes + ((input.drop bytesIndex).take s.singleCapacity).length := by
        rw [hclen]
        apply Nat.mod_eq_of_lt
        omega
      obtain ⟨t, f1, f2, f3, f4, f5, f6⟩ := e2 _ 0 hmod
      have hcp := hs.cap_pos
      have hbi : (bytesIndex + s.singleCapacity) % SIZE_RANGE
          = bytesIndex + s.singleCapacity := by
        apply Nat.mod_eq_of_lt
        omega
      obtain ⟨bi, sz, s1, g1, g2, g3, g4, g5, g6, g7, g8⟩ :=
        ih (bytesIndex + s.singleCapacity) (size - s.singleCapacity) t f2 f4 (by omega)
          (by omega) (by omega)
      refine ⟨bi, sz, s1, ?_, g2, g3, g4, g5, ?_, by rw [g7, f5], by omega⟩
      · simp only [f1, Res.bind, hbi, g1]
      · rw [g6, f3, List.append_assoc, ← List.drop_drop, List.take_append_drop]
    · rw [if_neg hgt]
      exact ⟨bytesIndex, size, s, rfl, hs, hw, by omega, hsum, rfl, rfl, rfl⟩

theorem WF.writeBytes_finish {s : ByteBufferImpl} (hs : WF s) (input : List Nat)
    (bytesIndex size : Nat) (hsum : bytesIndex + size = input.length)
    (hfit : s.localWriterIndex + size ≤ s.singleCapacity)
    (hpos : writePos s + size < SIZE_RANGE) :
    ∃ s1, WriteBytes.finish input bytesIndex size s = .ok () s1 ∧ WF s1 ∧
      contents s1 = contents s ++ input.drop bytesIndex ∧
      s1.singleCapacity = s.singleCapacity ∧ writePos s1 = writePos s + size := by
  have hl : ((input.drop bytesIndex).take size) = input.drop bytesIndex := by
    apply List.take_of_length_le
    simp only [List.length_drop]; omega
  have hlen : (input.drop bytesIndex).length = size := by
    simp only [List.length_drop]; omega
  obtain ⟨h, e1, e2, e3⟩ := hs.storeRange (input.drop bytesIndex) (by omega) (by omega)
  rw [hlen] at e2 e3
  have h1 := hs.readable
  have h2 := hs.cap_lt
  have m1 : (s.localWriterIndex + size) % SIZE_RANGE = s.localWriterIndex + size :=
    Nat.mod_eq_of_lt (by omega)
  have m2 : (s.readableBytes + size) % SIZE_RANGE = s.readableBytes + size :=
    Nat.mod_eq_of_lt (by omega)
  refine ⟨_, ?_, e2, e3, rfl, ?_⟩
  · unfold WriteBytes.finish
    rw [hl, e1, m1, m2]
  · simp only [writePos]; omega

/-- The function `WriteBytes` on a well-formed buffer appends the input to the readable bytes. -/
theorem WF.writeBytes {s : ByteBufferImpl} (hs : WF s) (input : List Nat)
    (hpos : writePos s + input.length < SIZE_RANGE) :
    ∃ s1, WriteBytes input s = .ok () s1 ∧ WF s1 ∧ contents s1 = contents s ++ input ∧
      s1.singleCapacity = s.singleCapacity ∧ writePos s1 = writePos s + input.length := by
  obtain ⟨t, e1, e2, e3, e4, e5, e6, e7⟩ := hs.tryRefreshWriterBuffer
  have hcl := e2.cap_lt
  unfold WriteBytes
  simp only [e1, Res.bind]
  have m1 : (t.localWriterIndex + input.length) % SIZE_RANGE
      = t.localWriterIndex + input.length := by
    apply Nat.mod_eq_of_lt
    simp only [writePos] at hpos e7
    omega
  rw [m1]
  by_cases hgt : t.localWriterIndex + input.length > t.singleCapacity
  · rw [if_pos hgt]
    have m2 : (t.singleCapacity + SIZE_RANGE - t.localWriterIndex) % SIZE_RANGE
        = t.singleCapacity - t.localWriterIndex := by
      have : t.singleCapacity + SIZE_RANGE - t.localWriterIndex
          = (t.singleCapacity - t.localWriterIndex) + SIZE_RANGE := by omega
      rw [this, Nat.add_mod_right]
      exact Nat.mod_eq_of_lt (by omega)
    rw [m2]
    have hclen : (input.take (t.singleCapacity - t.localWriterIndex)).length
        = t.singleCapacity - t.localWriterIndex := by
      simp only [List.length_take]; omega
    obtain ⟨h, f1, f2⟩ := e2.storeRange_append
      (input.take (t.singleCapacity - t.localWriterIndex)) (by omega) (by omega)
    rw [f1]
    have hrbs := e2.readable
    have m3 : (t.readableBytes + (t.singleCapacity - t.localWriterIndex)) % SIZE_RANGE
        = t.readableBytes + (input.take (t.singleCapacity - t.localWriterIndex)).length := by
      rw [hclen]
      apply Nat.mod_eq_of_lt
      omega
    obtain ⟨t2, g1, g2, g3, g4, g5, g6⟩ := f2 _ 0 m3
    simp only [g1]
    obtain ⟨bi, sz, s1, k1, k2, k3, k4, k5, k6, k7, k8⟩ :=
      WriteBytes_loop_spec input (by omega) (input.length - (t.singleCapacity - t.localWriterIndex))
        (t.singleCapacity - t.localWriterIndex)
        (input.length - (t.singleCapacity - t.localWriterIndex)) t2 g2 g4 (by omega)
        (Nat.le_refl _) (by omega)
    simp only [k1]
    obtain ⟨s2, l1, l2, l3, l4, l5⟩ := k2.writeBytes_finish input bi sz k5 (by omega) (by omega)
    refine ⟨s2, l1, l2, ?_, by rw [l4, k7, g5, e5], by omega⟩
    rw [l3, k6, g3, e3, List.append_assoc, List.take_append_drop]
  · rw [if_neg hgt]
    obtain ⟨s2, l1, l2, l3, l4, l5⟩ :=
      e2.writeBytes_finish input 0 input.length (by omega) (by omega) (by omega)
    exact ⟨s2, l1, l2, by rw [l3, e3, List.drop_zero], by rw [l4, e5], by omega⟩

end

/-! ## Reading byte ranges -/

section

open ByteBufferImpl

theorem copyInto_append (done rest chunk : List Nat) (h : chunk.length ≤ rest.length) :
    copyInto (done ++ rest) done.length chunk
      = some (done ++ chunk ++ rest.drop chunk.length) := by
  unfold copyInto
  rw [if_pos (by simp only [List.length_append]; omega), List.take_left, List.drop_append]

theorem copyInto_zero (output chunk : List Nat) (h : chunk.length ≤ output.length) :
    copyInto output 0 chunk = some (chunk ++ output.drop chunk.length) := by
  have := copyInto_append [] output chunk h
  simpa using this

theorem sub_mod_size {a b : Nat} (hb : b ≤ a) (ha : a < SIZE_RANGE) :
    (a + SIZE_RANGE - b) % SIZE_RANGE = a - b := by
  have : a + SIZE_RANGE - b = (a - b) + SIZE_RANGE := by omega
  rw [this, Nat.add_mod_right]
  exact Nat.mod_eq_of_lt (by omega)

theorem WF.readable_lt {s : ByteBufferImpl} (hs : WF s) : s.readableBytes < SIZE_RANGE := by
  have h1 := hs.readable
  have h2 := hs.pos_lt
  omega

theorem ReadBytes_loop_spec :
    ∀ (fuel : Nat) (done rest : List Nat) (bytesIndex size : Nat) (s : ByteBufferImpl),
      WF s → s.localReaderIndex = 0 → 1 ≤ size → size ≤ s.readableBytes →
      size ≤ rest.length → bytesIndex = done.length → done.length + size ≤ UINT32_RANGE →
      s.buffers.length ≤ fuel →
      ∃ sz s1, ReadBytes.loop fuel (done ++ rest) bytesIndex size s
          = .ok (done ++ (contents s).take (size - sz) ++ rest.drop (size - sz),
              bytesIndex + (size - sz), sz) s1 ∧
        WF s1 ∧ s1.localReaderIndex = 0 ∧ 1 ≤ sz ∧ sz ≤ size ∧ sz ≤ s1.singleCapacity ∧
        sz ≤ s1.readableBytes ∧ contents s1 = (contents s).drop (size - sz) ∧
        s1.singleCapacity = s.singleCapacity ∧ s1.readableBytes + (size - sz) = s.readableBytes ∧
        writePos s1 ≤ writePos s := by
  intro fuel
  induction fuel with
  | zero =>
    intro done rest bytesIndex size s hs _ _ _ _ _ _ hfuel
    have := hs.buffers_pos
    omega
  | succ fuel ih =>
    intro done rest bytesIndex size s hs hr h1 hrb hrest hbi h32 hfuel
    unfold ReadBytes.loop
    by_cases hgt : size > s.singleCapacity
    · rw [if_pos hgt]
      obtain ⟨e1, e2⟩ := hs.loadRange_pop s.singleCapacity (by omega) (by omega)
      rw [hr] at e1
      rw [e1]
      have hclen : ((contents s).take s.singleCapacity).length = s.singleCapacity := by
        simp only [List.length_take, hs.length_contents]; omega
      have hcopy := copyInto_append done rest ((contents s).take s.singleCapacity)
        (by omega)
      rw [hclen] at hcopy
      simp only [hbi, hcopy]
      obtain ⟨t, f1, f2, f3, f4, f5, f6, f7, f8⟩ :=
        e2 ((s.readableBytes + SIZE_RANGE - s.singleCapacity) % SIZE_RANGE) 0
          (sub_mod_size (by omega) hs.readable_lt)
      simp only [f1, Res.bind]
      have hm : (done.length + s.singleCapacity) % UINT32_RANGE
          = (done ++ (contents s).take s.singleCapacity).length := by
        rw [List.length_append, hclen]
        exact Nat.mod_eq_of_lt (by omega)
      rw [hm, List.append_assoc]
      obtain ⟨sz, s1, g1, g2, g3, g4, g5, g6, g7, g8, g9, g10, g11⟩ :=
        ih (done ++ (contents s).take s.singleCapacity) (rest.drop s.singleCapacity)
          ((done ++ (contents s).take s.singleCapacity).length) (size - s.singleCapacity) t
          f2 f4 (by omega) (by omega) (by simp only [List.length_drop]; omega) rfl
          (by rw [List.length_append, hclen]; omega) (by omega)
      obtain ⟨k, hk⟩ : ∃ k, size - s.singleCapacity - sz = k := ⟨_, rfl⟩
      have hk2 : size - sz = s.singleCapacity + k := by omega
      refine ⟨sz, s1, ?_, g2, g3, g4, by omega, g6, g7, ?_, by rw [g9, f5], by omega,
        by omega⟩
      · rw [← List.append_assoc, g1, hk, hk2, f3, List.take_add, List.drop_drop,
          List.length_append, hclen]
        simp only [List.append_assoc, Nat.add_assoc]
      · rw [g8, hk, hk2, f3, List.drop_drop]
    · rw [if_neg hgt]
      refine ⟨size, s, ?_, hs, hr, h1, Nat.le_refl _, by omega, hrb, ?_, rfl, by omega,
        Nat.le_refl _⟩
      · simp
      · simp

theorem WF.readBytes_finish {s : ByteBufferImpl} (hs : WF s) (done rest : List Nat)
    (size : Nat) (hfit : s.localReaderIndex + size ≤ s.singleCapacity)
    (hrb : size ≤ s.readableBytes) (hrest : size ≤ rest.length) :
    ∃ s1, ReadBytes.finish (done ++ rest) done.length size s
        = .ok (done ++ (contents s).take size ++ rest.drop size) s1 ∧
      WF s1 ∧ contents s1 = (contents s).drop size ∧
      s1.singleCapacity = s.singleCapacity ∧ s1.readableBytes + size = s.readableBytes ∧
      writePos s1 = writePos s := by
  obtain ⟨e1, e2, e3⟩ := hs.loadRange size hfit hrb
  have hclen : ((contents s).take size).length = size := by
    simp only [List.length_take, hs.length_contents]; omega
  have hcopy := copyInto_append done rest ((contents s).take size) (by omega)
  rw [hclen] at hcopy
  have h2 := hs.cap_lt
  have m1 : (s.localReaderIndex + size) % SIZE_RANGE = s.localReaderIndex + size :=
    Nat.mod_eq_of_lt (by omega)
  refine ⟨_, ?_, e2, e3, rfl, ?_, rfl⟩
  · unfold ReadBytes.finish
    rw [e1]
    simp only [hcopy, m1, sub_mod_size hrb hs.readable_lt]
  · show s.readableBytes - size + size = s.readableBytes
    omega

/-- A call of `ReadBytes` with a positive size within the readable bytes, on a well-formed
buffer, copies the next readable bytes to the front of the caller's array and removes them. -/
theorem WF.readBytes {s : ByteBufferImpl} (hs : WF s) (output : List Nat) (size : Nat)
    (h1 : 1 ≤ size) (hrb : size ≤ s.readableBytes) (hout : size ≤ output.length)
    (h32 : size ≤ UINT32_RANGE) :
    ∃ s1, ReadBytes output size s = .ok ((contents s).take size ++ output.drop size) s1 ∧
      WF s1 ∧ contents s1 = (contents s).drop size ∧
      s1.singleCapacity = s.singleCapacity ∧ s1.readableBytes + size = s.readableBytes ∧
      writePos s1 ≤ writePos s := by
  obtain ⟨t, e1, e2, e3, e4, e5, e6, e7⟩ := hs.tryRefreshReaderBuffer (by omega)
  have hcl := e2.cap_lt
  have hrd := e2.readable
  have hrp := e2.reader_le_pos
  have hpl := e2.pos_lt
  unfold ReadBytes
  rw [if_neg (by simp only [GetReadableBytes]; omega)]
  simp only [e1, Res.bind]
  have m1 : (t.localReaderIndex + size) % SIZE_RANGE = t.localReaderIndex + size :=
    Nat.mod_eq_of_lt (by omega)
  rw [m1]
  by_cases hgt : t.localReaderIndex + size > t.singleCapacity
  · rw [if_pos hgt]
    obtain ⟨c, hc⟩ : ∃ c, t.singleCapacity - t.localReaderIndex = c := ⟨_, rfl⟩
    obtain ⟨f1, f2⟩ := e2.loadRange_pop c (by omega) (by omega)
    have hclen : ((contents t).take c).length = c := by
      simp only [List.length_take, e2.length_contents]; omega
    have hcopy := copyInto_zero output ((contents t).take c) (by omega)
    rw [hclen] at hcopy
    have m2 : (t.singleCapacity + SIZE_RANGE - t.localReaderIndex) % SIZE_RANGE = c := by
      rw [← hc]; exact sub_mod_size (by omega) hcl
    rw [hc, f1]
    simp only [hcopy, m2]
    obtain ⟨t2, g1, g2, g3, g4, g5, g6, g7, g8⟩ :=
      f2 ((t.readableBytes + SIZE_RANGE - c) % SIZE_RANGE) 0
        (sub_mod_size (by omega) e2.readable_lt)
    simp only [g1]
    have m3 : c % UINT32_RANGE = ((contents t).take c).length := by
      rw [hclen]; exact Nat.mod_eq_of_lt (by omega)
    obtain ⟨sz, s3, k1, k2, k3, k4, k5, k6, k7, k8, k9, k10, k11⟩ :=
      ReadBytes_loop_spec t2.buffers.length ((contents t).take c) (output.drop c)
        (c % UINT32_RANGE) (size - c) t2 g2 g4 (by omega) (by omega)
        (by simp only [List.length_drop]; omega) m3 (by rw [hclen]; omega) (Nat.le_refl _)
    simp only [k1]
    obtain ⟨k, hk⟩ : ∃ k, size - c - sz = k := ⟨_, rfl⟩
    have hk2 : size = c + (k + sz) := by omega
    have hdl : ((contents t).take c ++ (contents t2).take k).length = c + k := by
      rw [List.length_append, hclen, List.length_take, g2.length_contents]; omega
    have m4 : c % UINT32_RANGE + k = ((contents t).take c ++ (contents t2).take k).length := by
      rw [hdl, Nat.mod_eq_of_lt (by omega)]
    rw [hk] at k1 k8 k10 ⊢
    rw [m4]
    obtain ⟨s4, l1, l2, l3, l4, l5, l6⟩ :=
      k2.readBytes_finish ((contents t).take c ++ (contents t2).take k)
        ((output.drop c).drop k) sz (by omega) k7
        (by simp only [List.length_drop]; omega)
    refine ⟨s4, ?_, l2, ?_, by rw [l4, k9, g5, e5], by omega, by omega⟩
    · rw [l1, k8, g3, ← e3]
      have : size = c + k + sz := by omega
      rw [this, List.take_add, List.take_add, List.drop_drop, List.drop_drop, List.drop_drop]
      simp only [List.append_assoc, Nat.add_assoc]
    · rw [l3, k8, g3, ← e3, List.drop_drop, List.drop_drop]
      congr 1
      omega
  · rw [if_neg hgt]
    obtain ⟨s4, l1, l2, l3, l4, l5, l6⟩ :=
      e2.readBytes_finish [] output size (by omega) (by omega) hout
    simp only [List.nil_append, List.length_nil] at l1
    exact ⟨s4, by rw [l1, e3], l2, by rw [l3, e3], by rw [l4, e5], by omega, by omega⟩

end

/-! ## Fresh buffers and reading in chunks -/

section

open ByteBufferImpl

theorem WF.ofCapacity {cap : Nat} (h1 : 1 ≤ cap) (h2 : cap < SIZE_RANGE) :
    WF (ofCapacity cap) := by
  refine ⟨h1, h2, by simp [ByteBufferImpl.ofCapacity], ?_, rfl, rfl, Nat.zero_le _,
    Nat.zero_le _, Nat.zero_le _, ?_, ?_⟩
  · intro p hp
    simp only [ByteBufferImpl.ofCapacity, List.mem_singleton] at hp
    subst hp
    exact ⟨List.replicate cap 0, rfl, List.length_replicate _ _⟩
  · simp [ByteBufferImpl.ofCapacity, writePos]
  · simp [ByteBufferImpl.ofCapacity, writePos, SIZE_RANGE]

theorem contents_ofCapacity (cap : Nat) : contents (ofCapacity cap) = [] := by
  simp [contents, ByteBufferImpl.ofCapacity, writePos]

theorem writePos_ofCapacity (cap : Nat) : writePos (ofCapacity cap) = 0 := by
  simp [ByteBufferImpl.ofCapacity, writePos]

/-- Reading a well-formed buffer back in positive chunks of at most `2^32` bytes each yields
consecutive pieces of the readable bytes. -/
theorem readChunks_spec :
    ∀ (chunks : List Nat) (s : ByteBufferImpl), WF s →
      (∀ c ∈ chunks, 1 ≤ c ∧ c ≤ UINT32_RANGE) → chunks.sum ≤ s.readableBytes →
      ∃ outs s1, readChunks chunks s = .ok outs s1 ∧ WF s1 ∧
        outs.flatten = (contents s).take chunks.sum ∧
        contents s1 = (contents s).drop chunks.sum ∧
        s1.readableBytes + chunks.sum = s.readableBytes := by
  intro chunks
  induction chunks with
  | nil =>
    intro s hs _ _
    exact ⟨[], s, rfl, hs, by simp, by simp, by simp⟩
  | cons c cs ih =>
    intro s hs hc hsum
    rw [List.sum_cons] at hsum
    obtain ⟨hc1, hc2⟩ := hc c (List.mem_cons_self _ _)
    obtain ⟨s1, e1, e2, e3, e4, e5, e6⟩ :=
      hs.readBytes (List.replicate c 0) c hc1 (by omega) (by simp) hc2
    obtain ⟨outs, s2, f1, f2, f3, f4, f5⟩ :=
      ih s1 e2 (fun d hd => hc d (List.mem_cons_of_mem _ hd)) (by omega)
    refine ⟨((contents s).take c ++ (List.replicate c 0).drop c) :: outs, s2, ?_, f2, ?_, ?_,
      by rw [List.sum_cons]; omega⟩
    · unfold readChunks ByteBuffer.ReadBytes
      simp only [e1, Res.bind, f1]
    · rw [List.flatten_cons, f3, e3, List.sum_cons, List.take_add]
      simp
    · rw [f4, e3, List.drop_drop, List.sum_cons]

/-- Writing a byte sequence into a fresh buffer and reading it back in positive chunks of at
most `2^32` bytes each reproduces the sequence, wherever the chunks fall with respect to the
segment boundaries. -/
theorem WriteBytes_readChunks_roundtrip (C : Nat) (hC : 1 ≤ C) (hC64 : C < SIZE_RANGE)
    (B : List Nat) (hB : B.length < SIZE_RANGE) (chunks : List Nat)
    (hchunks : ∀ c ∈ chunks, 1 ≤ c ∧ c ≤ UINT32_RANGE) (hsum : chunks.sum = B.length) :
    ∃ s1, WriteBytes B (ofCapacity C) = .ok () s1 ∧
      ∃ outs s2, readChunks chunks s1 = .ok outs s2 ∧ outs.flatten = B ∧
        s2.readableBytes = 0 := by
  obtain ⟨s1, e1, e2, e3, e4, e5⟩ := (WF.ofCapacity hC hC64).writeBytes B
    (by rw [writePos_ofCapacity]; omega)
  rw [contents_ofCapacity, List.nil_append] at e3
  have hlen := e2.length_contents
  rw [e3] at hlen
  obtain ⟨outs, s2, f1, f2, f3, f4, f5⟩ := readChunks_spec chunks s1 e2 hchunks (by omega)
  refine ⟨s1, e1, outs, s2, f1, ?_, by omega⟩
  rw [f3, e3, hsum, List.take_length]

end

/-! ## Accounting of readable bytes: writes -/

section

open ByteBufferImpl

theorem Res.bind_eq_ok {α β : Type} {x : Res α} {f : α → ByteBufferImpl → Res β} {b : β}
    {s1 : ByteBufferImpl} :
    x.bind f = .ok b s1 ↔ ∃ a t, x = .ok a t ∧ f a t = .ok b s1 := by
  cases x with
  | ok a t =>
    constructor
    · intro h; exact ⟨a, t, rfl, h⟩
    · rintro ⟨_, _, h1, h2⟩; cases h1; exact h2
  | raised e t =>
    constructor
    · intro h; cases h
    · rintro ⟨_, _, h1, _⟩; cases h1
  | undefined =>
    constructor
    · intro h; cases h
    · rintro ⟨_, _, h1, _⟩; cases h1

theorem Res.bind_eq_raised {α β : Type} {x : Res α} {f : α → ByteBufferImpl → Res β} {e : Exn}
    {s1 : ByteBufferImpl} :
    x.bind f = .raised e s1 ↔
      x = .raised e s1 ∨ ∃ a t, x = .ok a t ∧ f a t = .raised e s1 := by
  cases x with
  | ok a t =>
    constructor
    · intro h; exact Or.inr ⟨a, t, rfl, h⟩
    · rintro (h | ⟨_, _, h1, h2⟩)
      · cases h
      · cases h1; exact h2
  | raised e2 t =>
    constructor
    · intro h
      simp only [Res.bind] at h
      cases h
      exact Or.inl rfl
    · rintro (h | ⟨_, _, h1, _⟩)
      · cases h
        rfl
      · cases h1
  | undefined =>
    constructor
    · intro h; cases h
    · rintro (h | ⟨_, _, h1, _⟩)
      · cases h
      · cases h1

theorem writePos_eq (s : ByteBufferImpl) (n : Nat) (h : s.buffers.length = n + 1) :
    writePos s = n * s.singleCapacity + s.localWriterIndex := by
  simp [writePos, h]

theorem AppendBuffer_ok {s s1 : ByteBufferImpl} (h : AppendBuffer s = .ok () s1) :
    s1.buffers.length = s.buffers.length + 1 ∧ s1.singleCapacity = s.singleCapacity ∧
      s1.localReaderIndex = s.localReaderIndex ∧ s1.localWriterIndex = 0 ∧
      s1.readableBytes = s.readableBytes := by
  unfold AppendBuffer at h
  injection h with _ h
  subst h
  simp

theorem PopBuffer_ok {s s1 : ByteBufferImpl} (h : PopBuffer s = .ok () s1) :
    s1.buffers.length + 1 = s.buffers.length ∧ 1 ≤ s1.buffers.length ∧
      s1.singleCapacity = s.singleCapacity ∧ s1.localReaderIndex = 0 ∧
      s1.localWriterIndex = s.localWriterIndex ∧ s1.readableBytes = s.readableBytes := by
  unfold PopBuffer at h
  split at h
  · cases h
  · next p rest hb =>
    split at h
    · next seg q rest2 _ _ =>
      injection h with _ h
      subst h
      simp [hb]
    · cases h

theorem writePos_append {s s1 : ByteBufferImpl} (h : AppendBuffer s = .ok () s1)
    (hn : 1 ≤ s.buffers.length) :
    writePos s1 + s.localWriterIndex = writePos s + s.singleCapacity := by
  obtain ⟨h1, h2, _, h4, _⟩ := AppendBuffer_ok h
  obtain ⟨n, hn⟩ : ∃ n, s.buffers.length = n + 1 := ⟨s.buffers.length - 1, by omega⟩
  rw [writePos_eq s n hn, writePos_eq s1 (n + 1) (by omega), h2, h4, Nat.add_mul]
  omega

theorem writePos_pop {s s1 : ByteBufferImpl} (h : PopBuffer s = .ok () s1) :
    writePos s1 + s.singleCapacity = writePos s := by
  obtain ⟨h1, h2, h3, _, h5, _⟩ := PopBuffer_ok h
  obtain ⟨n, hn⟩ : ∃ n, s1.buffers.length = n + 1 := ⟨s1.buffers.length - 1, by omega⟩
  rw [writePos_eq s1 n hn, writePos_eq s (n + 1) (by omega), h3, h5, Nat.add_mul]
  omega

theorem Counted.count_tryRefreshWriterBuffer {s t : ByteBufferImpl} (hs : Counted s)
    (h : TryRefreshWriterBuffer s = .ok () t) :
    Counted t ∧ t.localWriterIndex < t.singleCapacity ∧ writePos t = writePos s ∧
      t.singleCapacity = s.singleCapacity ∧ t.localReaderIndex = s.localReaderIndex ∧
      t.readableBytes = s.readableBytes ∧ s.buffers.length ≤ t.buffers.length := by
  unfold TryRefreshWriterBuffer at h
  obtain ⟨c1, c2, c3, c4, c5, c6, c7⟩ := hs
  split at h
  · obtain ⟨h1, h2, h3, h4, h5⟩ := AppendBuffer_ok h
    have h6 := writePos_append h c3
    exact ⟨⟨by omega, by omega, by omega, by omega, by omega, by omega, by omega⟩,
      by omega, by omega, h2, h3, h5, by omega⟩
  · injection h with _ h
    subst h
    exact ⟨⟨c1, c2, c3, c4, c5, c6, c7⟩, by omega, rfl, rfl, rfl, rfl, Nat.le_refl _⟩

theorem Counted.count_tryRefreshReaderBuffer {s t : ByteBufferImpl} (hs : Counted s)
    (h : TryRefreshReaderBuffer s = .ok () t) :
    Counted t ∧ t.localReaderIndex < t.singleCapacity ∧ writePos t ≤ writePos s ∧
      t.singleCapacity = s.singleCapacity ∧ t.readableBytes = s.readableBytes ∧
      t.localWriterIndex = s.localWriterIndex := by
  unfold TryRefreshReaderBuffer at h
  obtain ⟨c1, c2, c3, c4, c5, c6, c7⟩ := hs
  split at h
  · obtain ⟨h1, h2, h3, h4, h5, h6⟩ := PopBuffer_ok h
    have h7 := writePos_pop h
    exact ⟨⟨by omega, by omega, by omega, by omega, by omega, by omega, by omega⟩,
      by omega, by omega, h3, h6, h5⟩
  · injection h with _ h
    subst h
    exact ⟨⟨c1, c2, c3, c4, c5, c6, c7⟩, by omega, Nat.le_refl _, rfl, rfl, rfl⟩

theorem Counted.count_writeByte {s s1 : ByteBufferImpl} (hs : Counted s) {input : Nat}
    (hpos : writePos s + 1 < SIZE_RANGE) (h : WriteByte input s = .ok () s1) :
    Counted s1 ∧ writePos s1 = writePos s + 1 ∧ s1.singleCapacity = s.singleCapacity ∧
      s1.localReaderIndex = s.localReaderIndex := by
  unfold WriteByte at h
  obtain ⟨_, t, ht, h⟩ := Res.bind_eq_ok.mp h
  obtain ⟨⟨c1, c2, c3, c4, c5, c6, c7⟩, t1, t2, t3, t4, t5, t6⟩ :=
    hs.count_tryRefreshWriterBuffer ht
  split at h
  · cases h
  · injection h with _ h
    have f1 : s1.buffers = t.buffers := by rw [← h]
    have f2 : s1.singleCapacity = t.singleCapacity := by rw [← h]
    have f3 : s1.localReaderIndex = t.localReaderIndex := by rw [← h]
    have f4 : s1.localWriterIndex = t.localWriterIndex + 1 := by rw [← h]
    have f5 : s1.readableBytes = (t.readableBytes + 1) % SIZE_RANGE := by rw [← h]
    have hm : (t.readableBytes + 1) % SIZE_RANGE = t.readableBytes + 1 :=
      Nat.mod_eq_of_lt (by omega)
    have hw : writePos s1 = writePos t + 1 := by
      simp only [writePos, f1, f2, f4]; omega
    exact ⟨⟨by omega, by omega, by rw [f1]; exact c3, by omega, by omega, by omega, by omega⟩,
      by omega, by omega, by omega⟩

theorem Counted.count_readByteUnsafe {s s1 : ByteBufferImpl} (hs : Counted s) {b : Nat}
    (hrb : 1 ≤ s.readableBytes) (h : ReadByteUnsafe s = .ok b s1) :
    Counted s1 ∧ writePos s1 ≤ writePos s ∧ s1.singleCapacity = s.singleCapacity ∧
      s1.readableBytes + 1 = s.readableBytes := by
  unfold ReadByteUnsafe at h
  obtain ⟨_, t, ht, h⟩ := Res.bind_eq_ok.mp h
  obtain ⟨⟨c1, c2, c3, c4, c5, c6, c7⟩, t1, t2, t3, t4, t5⟩ := hs.count_tryRefreshReaderBuffer ht
  split at h
  · cases h
  · injection h with _ h
    have f1 : s1.buffers = t.buffers := by rw [← h]
    have f2 : s1.singleCapacity = t.singleCapacity := by rw [← h]
    have f3 : s1.localReaderIndex = t.localReaderIndex + 1 := by rw [← h]
    have f4 : s1.localWriterIndex = t.localWriterIndex := by rw [← h]
    have f5 : s1.readableBytes = (t.readableBytes + SIZE_RANGE - 1) % SIZE_RANGE := by rw [← h]
    have hm : (t.readableBytes + SIZE_RANGE - 1) % SIZE_RANGE = t.readableBytes - 1 :=
      sub_mod_size (by omega) (by omega)
    have hw : writePos s1 = writePos t := by
      simp only [writePos, f1, f2, f4]
    exact ⟨⟨by omega, by omega, by rw [f1]; exact c3, by omega, by omega, by omega, by omega⟩,
      by omega, by omega, by omega⟩

theorem Counted.writeBytes_loop (input : List Nat) :
    ∀ (fuel bytesIndex size : Nat) (s : ByteBufferImpl) (r : Nat × Nat) (s1 : ByteBufferImpl),
      Counted s → s.localWriterIndex = 0 → writePos s + size < SIZE_RANGE →
      WriteBytes.loop input fuel bytesIndex size s = .ok r s1 →
      Counted s1 ∧ s1.localWriterIndex = 0 ∧ r.2 ≤ s1.singleCapacity ∧
        writePos s1 + r.2 = writePos s + size ∧ s1.singleCapacity = s.singleCapacity ∧
        s1.localReaderIndex = s.localReaderIndex := by
  intro fuel
  induction fuel with
  | zero =>
    intro bytesIndex size s r s1 hs hw hpos h
    unfold WriteBytes.loop at h
    split at h
    · cases h
    · injection h with h1 h2
      subst h1 h2
      exact ⟨hs, hw, by show size ≤ _; omega, rfl, rfl, rfl⟩
  | succ fuel ih =>
    intro bytesIndex size s r s1 hs hw hpos h
    unfold WriteBytes.loop at h
    split at h
    · next hgt =>
      split at h
      · cases h
      · next hp _ =>
        obtain ⟨_, t, ht, h⟩ := Res.bind_eq_ok.mp h
        obtain ⟨c1, c2, c3, c4, c5, c6, c7⟩ := hs
        obtain ⟨a1, a2, a3, a4, a5⟩ := AppendBuffer_ok ht
        have a6 := writePos_append ht c3
        dsimp only at a1 a2 a3 a4 a5 a6
        have hm : writePos { s with
            heap := hp
            readableBytes := (s.readableBytes + s.singleCapacity) % SIZE_RANGE
            localWriterIndex := 0 } = writePos s := by
          simp only [writePos, hw]
        rw [hm] at a6
        have hmod : (s.readableBytes + s.singleCapacity) % SIZE_RANGE
            = s.readableBytes + s.singleCapacity := Nat.mod_eq_of_lt (by omega)
        obtain ⟨g1, g2, g3, g4, g5, g6⟩ := ih _ _ t r s1
          ⟨by omega, by omega, by omega, by omega, by omega, by omega, by omega⟩ a4
          (by omega) h
        exact ⟨g1, g2, g3, by omega, by omega, by omega⟩
    · injection h with h1 h2
      subst h1 h2
      exact ⟨hs, hw, by show size ≤ _; omega, rfl, rfl, rfl⟩

theorem Counted.count_writeBytes_finish {s s1 : ByteBufferImpl} (hs : Counted s) {input : List Nat}
    {bytesIndex size : Nat} (hfit : s.localWriterIndex + size ≤ s.singleCapacity)
    (hpos : writePos s + size < SIZE_RANGE)
    (h : WriteBytes.finish input bytesIndex size s = .ok () s1) :
    Counted s1 ∧ writePos s1 = writePos s + size ∧ s1.singleCapacity = s.singleCapacity ∧
      s1.localReaderIndex = s.localReaderIndex := by
  unfold WriteBytes.finish at h
  obtain ⟨c1, c2, c3, c4, c5, c6, c7⟩ := hs
  split at h
  · cases h
  · injection h with _ h
    have f1 : s1.buffers = s.buffers := by rw [← h]
    have f2 : s1.singleCapacity = s.singleCapacity := by rw [← h]
    have f3 : s1.localReaderIndex = s.localReaderIndex := by rw [← h]
    have f4 : s1.localWriterIndex = (s.localWriterIndex + size) % SIZE_RANGE := by rw [← h]
    have f5 : s1.readableBytes = (s.readableBytes + size) % SIZE_RANGE := by rw [← h]
    have m1 : (s.localWriterIndex + size) % SIZE_RANGE = s.localWriterIndex + size :=
      Nat.mod_eq_of_lt (by omega)
    have m2 : (s.readableBytes + size) % SIZE_RANGE = s.readableBytes + size :=
      Nat.mod_eq_of_lt (by omega)
    have hw : writePos s1 = writePos s + size := by
      simp only [writePos, f1, f2, f4, m1]; omega
    exact ⟨⟨by omega, by omega, by rw [f1]; exact c3, by omega, by omega, by omega, by omega⟩,
      hw, f2, f3⟩

theorem Counted.count_writeBytes {s s1 : ByteBufferImpl} (hs : Counted s) {input : List Nat}
    (hpos : writePos s + input.length < SIZE_RANGE) (h : WriteBytes input s = .ok () s1) :
    Counted s1 ∧ writePos s1 = writePos s + input.length ∧
      s1.singleCapacity = s.singleCapacity ∧ s1.localReaderIndex = s.localReaderIndex := by
  unfold WriteBytes at h
  obtain ⟨_, t, ht, h⟩ := Res.bind_eq_ok.mp h
  obtain ⟨ct, t1, t2, t3, t4, t5, t6⟩ := hs.count_tryRefreshWriterBuffer ht
  dsimp only at h
  have hct := ct
  obtain ⟨c1, c2, c3, c4, c5, c6, c7⟩ := ct
  have m1 : (t.localWriterIndex + input.length) % SIZE_RANGE
      = t.localWriterIndex + input.length := by
    apply Nat.mod_eq_of_lt
    have := writePos_eq t (t.buffers.length - 1) (by omega)
    omega
  rw [m1] at h
  split at h
  · next hgt =>
    have m2 : (t.singleCapacity + SIZE_RANGE - t.localWriterIndex) % SIZE_RANGE
        = t.singleCapacity - t.localWriterIndex := sub_mod_size (by omega) c2
    rw [m2] at h
    split at h
    · cases h
    · next hp _ =>
      obtain ⟨_, t2', ht2, h⟩ := Res.bind_eq_ok.mp h
      obtain ⟨r, t3', ht3, h⟩ := Res.bind_eq_ok.mp h
      obtain ⟨a1, a2, a3, a4, a5⟩ := AppendBuffer_ok ht2
      have a6 := writePos_append ht2 c3
      dsimp only at a1 a2 a3 a4 a5 a6
      have hm : writePos { t with
          heap := hp
          readableBytes :=
            (t.readableBytes + (t.singleCapacity - t.localWriterIndex)) % SIZE_RANGE
          localWriterIndex := 0 } + t.localWriterIndex = writePos t := by
        simp only [writePos]; omega
      have hmod : (t.readableBytes + (t.singleCapacity - t.localWriterIndex)) % SIZE_RANGE
          = t.readableBytes + (t.singleCapacity - t.localWriterIndex) :=
        Nat.mod_eq_of_lt (by omega)
      obtain ⟨g1, g2, g3, g4, g5, g6⟩ := Counted.writeBytes_loop input _ _ _ t2' r t3'
        ⟨by omega, by omega, by omega, by omega, by omega, by omega, by omega⟩ a4
        (by omega) ht3
      obtain ⟨k1, k2, k3, k4⟩ := g1.count_writeBytes_finish (by omega) (by omega) h
      exact ⟨k1, by omega, by omega, by omega⟩
  · next hle =>
    obtain ⟨k1, k2, k3, k4⟩ := hct.count_writeBytes_finish (by omega) (by omega) h
    exact ⟨k1, by omega, by omega, by omega⟩

theorem Counted.writeBytesAndDelete {s s1 : ByteBufferImpl} (hs : Counted s)
    {input : List Nat} (hpos : writePos s + input.length < SIZE_RANGE)
    (h : WriteBytesAndDelete input s = .ok () s1) :
    Counted s1 ∧ writePos s1 ≤ writePos s + input.length ∧
      s1.singleCapacity = s.singleCapacity := by
  unfold WriteBytesAndDelete at h
  split at h
  · split at h
    · cases h
    · next p rest hb =>
      injection h with _ h
      obtain ⟨c1, c2, c3, c4, c5, c6, c7⟩ := hs
      have f1 : s1.buffers.length = s.buffers.length := by
        rw [← h]
        simp only [List.length_append, List.length_dropLast, List.length_singleton]
        omega
      have f2 : s1.singleCapacity = s.singleCapacity := by rw [← h]
      have f3 : s1.localReaderIndex = s.localReaderIndex := by rw [← h]
      have f4 : s1.localWriterIndex = s.localWriterIndex := by rw [← h]
      have f5 : s1.readableBytes = s.readableBytes := by rw [← h]
      have hw : writePos s1 = writePos s := by
        simp only [writePos, f1, f2, f4]
      exact ⟨⟨by omega, by omega, by omega, by omega, by omega, by omega, by omega⟩,
        by omega, f2⟩
  · obtain ⟨k1, k2, k3, _⟩ := hs.count_writeBytes hpos h
    exact ⟨k1, by omega, k3⟩

end

/-! ## Accounting of readable bytes: reads and runs -/

section

open ByteBufferImpl

theorem Counted.readBytes_loop :
    ∀ (fuel : Nat) (output : List Nat) (bytesIndex size : Nat) (s : ByteBufferImpl)
      (r : List Nat × Nat × Nat) (s1 : ByteBufferImpl),
      Counted s → s.localReaderIndex = 0 → size ≤ s.readableBytes →
      ReadBytes.loop fuel output bytesIndex size s = .ok r s1 →
      Counted s1 ∧ s1.localReaderIndex = 0 ∧ r.2.2 ≤ s1.singleCapacity ∧
        r.2.2 ≤ s1.readableBytes ∧ writePos s1 ≤ writePos s ∧
        s1.singleCapacity = s.singleCapacity := by
  intro fuel
  induction fuel with
  | zero =>
    intro output bytesIndex size s r s1 hs hr hrb h
    unfold ReadBytes.loop at h
    split at h
    · cases h
    · injection h with h1 h2
      subst h1 h2
      exact ⟨hs, hr, by show size ≤ _; omega, hrb, Nat.le_refl _, rfl⟩
  | succ fuel ih =>
    intro output bytesIndex size s r s1 hs hr hrb h
    unfold ReadBytes.loop at h
    split at h
    · next hgt =>
      split at h
      · cases h
      · split at h
        · cases h
        · obtain ⟨_, t, ht, h⟩ := Res.bind_eq_ok.mp h
          obtain ⟨c1, c2, c3, c4, c5, c6, c7⟩ := hs
          obtain ⟨a1, a2, a3, a4, a5, a6⟩ := PopBuffer_ok ht
          have a7 := writePos_pop ht
          dsimp only at a1 a2 a3 a4 a5 a6 a7
          have hm : writePos { s with
              readableBytes := (s.readableBytes + SIZE_RANGE - s.singleCapacity) % SIZE_RANGE
              localReaderIndex := 0 } = writePos s := rfl
          rw [hm] at a7
          have hmod : (s.readableBytes + SIZE_RANGE - s.singleCapacity) % SIZE_RANGE
              = s.readableBytes - s.singleCapacity := sub_mod_size (by omega) (by omega)
          obtain ⟨g1, g2, g3, g4, g5, g6⟩ := ih _ _ _ t r s1
            ⟨by omega, by omega, by omega, by omega, by omega, by omega, by omega⟩ a4
            (by omega) h
          exact ⟨g1, g2, g3, g4, by omega, by omega⟩
    · injection h with h1 h2
      subst h1 h2
      exact ⟨hs, hr, by show size ≤ _; omega, hrb, Nat.le_refl _, rfl⟩

theorem Counted.count_readBytes_finish {s s1 : ByteBufferImpl} (hs : Counted s)
    {output out1 : List Nat} {bytesIndex size : Nat}
    (hfit : s.localReaderIndex + size ≤ s.singleCapacity) (hrb : size ≤ s.readableBytes)
    (h : ReadBytes.finish output bytesIndex size s = .ok out1 s1) :
    Counted s1 ∧ writePos s1 = writePos s ∧ s1.singleCapacity = s.singleCapacity := by
  unfold ReadBytes.finish at h
  obtain ⟨c1, c2, c3, c4, c5, c6, c7⟩ := hs
  split at h
  · cases h
  · split at h
    · cases h
    · injection h with _ h
      have f1 : s1.buffers = s.buffers := by rw [← h]
      have f2 : s1.singleCapacity = s.singleCapacity := by rw [← h]
      have f3 : s1.localReaderIndex = (s.localReaderIndex + size) % SIZE_RANGE := by rw [← h]
      have f4 : s1.localWriterIndex = s.localWriterIndex := by rw [← h]
      have f5 : s1.readableBytes = (s.readableBytes + SIZE_RANGE - size) % SIZE_RANGE := by
        rw [← h]
      have m1 : (s.localReaderIndex + size) % SIZE_RANGE = s.localReaderIndex + size :=
        Nat.mod_eq_of_lt (by omega)
      have m2 : (s.readableBytes + SIZE_RANGE - size) % SIZE_RANGE = s.readableBytes - size :=
        sub_mod_size hrb (by omega)
      have hw : writePos s1 = writePos s := by
        simp only [writePos, f1, f2, f4]
      exact ⟨⟨by omega, by omega, by rw [f1]; exact c3, by omega, by omega, by omega,
        by omega⟩, hw, f2⟩

theorem Counted.count_readBytes {s s1 : ByteBufferImpl} (hs : Counted s)
    {output out1 : List Nat} {size : Nat}
    (h : ByteBufferImpl.ReadBytes output size s = .ok out1 s1) :
    Counted s1 ∧ writePos s1 ≤ writePos s ∧ s1.singleCapacity = s.singleCapacity := by
  unfold ByteBufferImpl.ReadBytes at h
  split at h
  · cases h
  · next hge =>
    simp only [GetReadableBytes, Nat.not_lt] at hge
    obtain ⟨_, t, ht, h⟩ := Res.bind_eq_ok.mp h
    obtain ⟨ct, t1, t2, t3, t4, t5⟩ := hs.count_tryRefreshReaderBuffer ht
    dsimp only at h
    have hct := ct
    obtain ⟨c1, c2, c3, c4, c5, c6, c7⟩ := ct
    have m1 : (t.localReaderIndex + size) % SIZE_RANGE = t.localReaderIndex + size :=
      Nat.mod_eq_of_lt (by omega)
    rw [m1] at h
    split at h
    · next hgt =>
      split at h
      · cases h
      · split at h
        · cases h
        · have m2 : (t.singleCapacity + SIZE_RANGE - t.localReaderIndex) % SIZE_RANGE
              = t.singleCapacity - t.localReaderIndex := sub_mod_size (by omega) c2
          rw [m2] at h
          obtain ⟨_, t2', ht2, h⟩ := Res.bind_eq_ok.mp h
          obtain ⟨r, t3', ht3, h⟩ := Res.bind_eq_ok.mp h
          obtain ⟨a1, a2, a3, a4, a5, a6⟩ := PopBuffer_ok ht2
          have a7 := writePos_pop ht2
          dsimp only at a1 a2 a3 a4 a5 a6 a7
          have hm : writePos { t with
              readableBytes := (t.readableBytes + SIZE_RANGE
                - (t.singleCapacity - t.localReaderIndex)) % SIZE_RANGE
              localReaderIndex := 0 } = writePos t := rfl
          rw [hm] at a7
          have hmod : (t.readableBytes + SIZE_RANGE
                - (t.singleCapacity - t.localReaderIndex)) % SIZE_RANGE
              = t.readableBytes - (t.singleCapacity - t.localReaderIndex) :=
            sub_mod_size (by omega) (by omega)
          obtain ⟨g1, g2, g3, g4, g5, g6⟩ := Counted.readBytes_loop _ _ _ _ t2' r t3'
            ⟨by omega, by omega, by omega, by omega, by omega, by omega, by omega⟩ a4
            (by omega) ht3
          obtain ⟨k1, k2, k3⟩ := g1.count_readBytes_finish (by omega) g4 h
          exact ⟨k1, by omega, by omega⟩
    · obtain ⟨k1, k2, k3⟩ := hct.count_readBytes_finish (by omega) (by omega) h
      exact ⟨k1, by omega, by omega⟩

theorem Counted.resetReaderIndex {s s1 : ByteBufferImpl} (hs : Counted s)
    (h : ResetReaderIndex s = .ok () s1) :
    Counted s1 ∧ writePos s1 = writePos s ∧ s1.singleCapacity = s.singleCapacity := by
  unfold ResetReaderIndex at h
  injection h with _ h
  obtain ⟨c1, c2, c3, c4, c5, c6, c7⟩ := hs
  have f1 : s1.buffers = s.buffers := by rw [← h]
  have f2 : s1.singleCapacity = s.singleCapacity := by rw [← h]
  have f3 : s1.localReaderIndex = 0 := by rw [← h]
  have f4 : s1.localWriterIndex = s.localWriterIndex := by rw [← h]
  have f5 : s1.readableBytes = ((s.buffers.length + SIZE_RANGE - 1) % SIZE_RANGE
      * s.singleCapacity + s.localWriterIndex) % SIZE_RANGE := by rw [← h]
  have hw : writePos s1 = writePos s := by
    simp only [writePos, f1, f2, f4]
  obtain ⟨n, hn⟩ : ∃ n, s.buffers.length = n + 1 := ⟨s.buffers.length - 1, by omega⟩
  have hp := writePos_eq s n hn
  have hle : n ≤ n * s.singleCapacity := Nat.le_mul_of_pos_right n c1
  have m1 : (s.buffers.length + SIZE_RANGE - 1) % SIZE_RANGE = n := by
    have e : n + 1 + SIZE_RANGE - 1 = n + SIZE_RANGE := by omega
    rw [hn, e, Nat.add_mod_right, Nat.mod_eq_of_lt (by omega)]
  rw [m1, ← hp, Nat.mod_eq_of_lt c7] at f5
  exact ⟨⟨by omega, by omega, by rw [f1]; exact c3, by omega, by omega, by omega, by omega⟩,
    hw, f2⟩

theorem Counted.count_ofCapacity {cap : Nat} (h1 : 1 ≤ cap) (h2 : cap < SIZE_RANGE) :
    Counted (ofCapacity cap) := by
  refine ⟨h1, h2, by simp [ByteBufferImpl.ofCapacity], Nat.zero_le _, Nat.zero_le _, ?_, ?_⟩
  · simp [ByteBufferImpl.ofCapacity, writePos]
  · simp [ByteBufferImpl.ofCapacity, writePos, SIZE_RANGE]

theorem Counted.segmentAccounting {s : ByteBufferImpl} (hs : Counted s) :
    SegmentAccounting s := by
  obtain ⟨c1, c2, c3, c4, c5, c6, c7⟩ := hs
  refine ⟨?_, ?_⟩
  · intro hnil
    rw [hnil] at c3
    simp at c3
  · obtain ⟨n, hn⟩ : ∃ n, s.buffers.length = n + 1 := ⟨s.buffers.length - 1, by omega⟩
    rw [writePos_eq s n hn] at c6
    rw [hn]
    push_cast
    have : ((s.readableBytes + s.localReaderIndex : Nat) : Int)
        = ((n * s.singleCapacity + s.localWriterIndex : Nat) : Int) := by rw [c6]
    push_cast at this
    linarith

/-- One plain operation keeps the numeric invariant. -/
theorem Counted.apply {s s1 : ByteBufferImpl} (hs : Counted s) (op : Op)
    (hplain : op.plain = true) (hpos : writePos s + op.written < SIZE_RANGE)
    (h : op.apply s = .ok () s1) :
    Counted s1 ∧ writePos s1 ≤ writePos s + op.written ∧
      s1.singleCapacity = s.singleCapacity := by
  cases op with
  | WriteByte input =>
    obtain ⟨k1, k2, k3, _⟩ := hs.count_writeByte hpos h
    exact ⟨k1, by simp only [Op.written]; omega, k3⟩
  | WriteBytes input =>
    obtain ⟨k1, k2, k3, _⟩ := hs.count_writeBytes hpos h
    exact ⟨k1, by simp only [Op.written]; omega, k3⟩
  | WriteBytesAndDelete input => exact hs.writeBytesAndDelete hpos h
  | ReadByte =>
    simp only [Op.apply] at h
    obtain ⟨b, t, ht, h⟩ := Res.bind_eq_ok.mp h
    injection h with _ h
    subst h
    unfold ByteBuffer.ReadByte at ht
    split at ht
    · cases ht
    · next hge =>
      simp only [GetReadableBytes, Nat.not_lt] at hge
      obtain ⟨k1, k2, k3, _⟩ := hs.count_readByteUnsafe hge ht
      exact ⟨k1, by omega, k3⟩
  | ReadBytes size =>
    simp only [Op.apply] at h
    obtain ⟨b, t, ht, h⟩ := Res.bind_eq_ok.mp h
    injection h with _ h
    subst h
    obtain ⟨k1, k2, k3⟩ := hs.count_readBytes ht
    exact ⟨k1, by omega, k3⟩
  | SkipReadBytes count => simp [Op.plain] at hplain
  | SkipWriteBytes count => simp [Op.plain] at hplain
  | ResetReaderIndex =>
    obtain ⟨k1, k2, k3⟩ := hs.resetReaderIndex h
    exact ⟨k1, by omega, k3⟩
  | ResetWriterIndex => simp [Op.plain] at hplain

theorem Counted.runOps :
    ∀ (ops : List Op) (s s1 : ByteBufferImpl), Counted s →
      (∀ op ∈ ops, op.plain = true) →
      writePos s + (ops.map Op.written).sum < SIZE_RANGE →
      runOps ops s = .ok () s1 → Counted s1 ∧ s1.singleCapacity = s.singleCapacity := by
  intro ops
  induction ops with
  | nil =>
    intro s s1 hs _ _ h
    injection h with _ h
    subst h
    exact ⟨hs, rfl⟩
  | cons op ops ih =>
    intro s s1 hs hplain hpos h
    simp only [List.map_cons, List.sum_cons] at hpos
    unfold Ship.runOps at h
    obtain ⟨_, t, ht, h⟩ := Res.bind_eq_ok.mp h
    obtain ⟨k1, k2, k3⟩ := hs.apply op (hplain op (List.mem_cons_self _ _)) (by omega) ht
    obtain ⟨g1, g2⟩ := ih t s1 k1 (fun o ho => hplain o (List.mem_cons_of_mem _ ho))
      (by omega) h
    exact ⟨g1, by omega⟩

end

/-! ## Reads that cannot throw -/

section

open ByteBufferImpl

theorem Res.noThrow_ok {α : Type} (a : α) (s : ByteBufferImpl) : (Res.ok a s).NoThrow := by
  intro e s1 h; cases h

theorem Res.noThrow_undefined {α : Type} : (Res.undefined : Res α).NoThrow := by
  intro e s1 h; cases h

theorem Res.NoThrow.bind {α β : Type} {x : Res α} {f : α → ByteBufferImpl → Res β}
    (hx : x.NoThrow) (hf : ∀ a t, (f a t).NoThrow) : (x.bind f).NoThrow := by
  intro e s1 h
  rcases Res.bind_eq_raised.mp h with h1 | ⟨a, t, _, h2⟩
  · exact hx e s1 h1
  · exact hf a t e s1 h2

theorem PopBuffer_noThrow (s : ByteBufferImpl) : (PopBuffer s).NoThrow := by
  unfold PopBuffer
  split
  · exact Res.noThrow_undefined
  · split
    · exact Res.noThrow_ok _ _
    · exact Res.noThrow_undefined

theorem TryRefreshReaderBuffer_noThrow (s : ByteBufferImpl) :
    (TryRefreshReaderBuffer s).NoThrow := by
  unfold TryRefreshReaderBuffer
  split
  · exact PopBuffer_noThrow s
  · exact Res.noThrow_ok _ _

theorem ReadByteUnsafe_noThrow (s : ByteBufferImpl) : (ReadByteUnsafe s).NoThrow := by
  unfold ReadByteUnsafe
  apply Res.NoThrow.bind (TryRefreshReaderBuffer_noThrow s)
  intro _ t
  dsimp only
  split
  · exact Res.noThrow_undefined
  · exact Res.noThrow_ok _ _

theorem ReadBytes_loop_noThrow :
    ∀ (fuel : Nat) (output : List Nat) (bytesIndex size : Nat) (s : ByteBufferImpl),
      (ReadBytes.loop fuel output bytesIndex size s).NoThrow := by
  intro fuel
  induction fuel with
  | zero =>
    intro output bytesIndex size s
    unfold ReadBytes.loop
    split
    · exact Res.noThrow_undefined
    · exact Res.noThrow_ok _ _
  | succ fuel ih =>
    intro output bytesIndex size s
    unfold ReadBytes.loop
    split
    · split
      · exact Res.noThrow_undefined
      · split
        · exact Res.noThrow_undefined
        · exact Res.NoThrow.bind (PopBuffer_noThrow _) (fun _ t => ih _ _ _ t)
    · exact Res.noThrow_ok _ _

theorem ReadBytes_finish_noThrow (output : List Nat) (bytesIndex size : Nat)
    (s : ByteBufferImpl) : (ReadBytes.finish output bytesIndex size s).NoThrow := by
  unfold ReadBytes.finish
  split
  · exact Res.noThrow_undefined
  · split
    · exact Res.noThrow_undefined
    · exact Res.noThrow_ok _ _

/-- A guarded read throws exactly its own exception, exactly when the guard fails, and with
the state it was called on. -/
theorem guarded_raised_iff {α : Type} (s : ByteBufferImpl) (width : Nat) (what : ReadTarget)
    (body : Res α) (hbody : body.NoThrow) (e : Exn) (s1 : ByteBufferImpl) :
    (if s.GetReadableBytes < width then .raised (.notEnoughReadable what) s else body)
        = .raised e s1 ↔
      s.readableBytes < width ∧ e = .notEnoughReadable what ∧ s1 = s := by
  by_cases hlt : s.GetReadableBytes < width
  · rw [if_pos hlt]
    constructor
    · intro h
      injection h with h1 h2
      exact ⟨hlt, h1.symm, h2.symm⟩
    · rintro ⟨_, h1, h2⟩
      rw [h1, h2]
  · rw [if_neg hlt]
    constructor
    · intro h
      exact absurd h (hbody e s1)
    · rintro ⟨h, _, _⟩
      exact absurd h hlt

end

/-! ## Bit masks -/

section

open ByteBufferImpl ByteBuffer

/-- A value of `W` bits has no bit in common with the mask of the bits `k..W-1` exactly when
it is below `2^k`. -/
theorem and_mask_eq_zero_iff (v mask low full k W : Nat) (hlow : low = 2 ^ k - 1)
    (hfull : full = 2 ^ W - 1) (hcover : mask ||| low = full) (hdisj : low &&& mask = 0)
    (hv : v < 2 ^ W) : v &&& mask = 0 ↔ v < 2 ^ k := by
  have hvl : v &&& low = v % 2 ^ k := by rw [hlow, Nat.and_pow_two_sub_one_eq_mod]
  have hvf : v &&& full = v := by
    rw [hfull, Nat.and_pow_two_sub_one_eq_mod, Nat.mod_eq_of_lt hv]
  constructor
  · intro h
    have h1 : v = v % 2 ^ k := by
      conv_lhs => rw [← hvf, ← hcover, Nat.and_or_distrib_left, h, Nat.zero_or, hvl]
    rw [h1]
    exact Nat.mod_lt _ (Nat.two_pow_pos k)
  · intro h
    have h1 : v = v &&& low := by rw [hvl, Nat.mod_eq_of_lt h]
    rw [h1, Nat.and_assoc, hdisj, Nat.and_zero]

theorem varint_mask_iff {v : Nat} (hv : v < 4294967296) :
    v &&& (UINT32_RANGE - 1 - 0x7F) = 0 ↔ v < 128 :=
  and_mask_eq_zero_iff v (UINT32_RANGE - 1 - 0x7F) 127 4294967295 7 32 (by decide) (by decide)
    (by decide) (by decide) hv

theorem varlong_mask_iff {v : Nat} (hv : v < 18446744073709551616) :
    v &&& (UINT64_RANGE - 1 - 0x7F) = 0 ↔ v < 128 :=
  and_mask_eq_zero_iff v (UINT64_RANGE - 1 - 0x7F) 127 18446744073709551615 7 64 (by decide)
    (by decide) (by decide) (by decide) hv

theorem continuation_byte (v : Nat) : ((v &&& 0x7F) ||| 0x80) % 256 = v % 128 + 128 := by
  have h1 : v &&& 0x7F = v % 128 := Nat.and_pow_two_sub_one_eq_mod v 7
  have h2 : v % 128 < 2 ^ 7 := Nat.mod_lt _ (by decide)
  have h3 := Nat.mul_add_lt_is_or h2 1
  rw [h1, Nat.or_comm]
  simp only [Nat.reducePow, Nat.mul_one] at h3
  rw [← h3]
  omega

theorem shift7 (v : Nat) : v >>> 7 = v / 128 := Nat.shiftRight_eq_div_pow v 7

end

/-! ## Groups of seven bits -/

section

open ByteBufferImpl ByteBuffer

theorem length_varGroups_le : ∀ (fuel v : Nat), (varGroups fuel v).length ≤ fuel := by
  intro fuel
  induction fuel with
  | zero => intro v; simp [varGroups]
  | succ fuel ih =>
    intro v
    unfold varGroups
    split
    · simp
    · have := ih (v / 128)
      simp only [List.length_cons]
      omega

theorem continuation_clear {u : Nat} (hu : u < 128) : u &&& 0x80 = 0 :=
  (and_mask_eq_zero_iff u 0x80 127 255 7 8 (by decide) (by decide) (by decide)
    (by decide) (by omega : u < 2 ^ 8)).mpr hu

theorem continuation_set (u : Nat) : (u % 128 + 128) &&& 0x80 ≠ 0 := by
  intro h
  have h1 := (and_mask_eq_zero_iff (u % 128 + 128) 0x80 127 255 7 8 (by decide) (by decide)
    (by decide) (by decide) (by omega : u % 128 + 128 < 2 ^ 8)).mp h
  omega

theorem low7_of_lt {u : Nat} (hu : u < 128) : u &&& 0x7F = u := by
  have := Nat.and_pow_two_sub_one_eq_mod u 7
  simp only [Nat.reducePow, Nat.add_one_sub_one] at this
  rw [this]
  omega

theorem low7_of_continuation (u : Nat) : (u % 128 + 128) &&& 0x7F = u % 128 := by
  have := Nat.and_pow_two_sub_one_eq_mod (u % 128 + 128) 7
  simp only [Nat.reducePow, Nat.add_one_sub_one] at this
  rw [this]
  omega

/-- Adding a group of seven bits above the bits decoded so far. -/
theorem decode_or (d g i M : Nat) (hd : d < 2 ^ (i * 7)) (hM : d + g * 2 ^ (i * 7) < M) :
    d ||| (g <<< (i * 7)) % M = d + g * 2 ^ (i * 7) := by
  have h1 := Nat.mul_add_lt_is_or hd g
  rw [Nat.shiftLeft_eq, Nat.mod_eq_of_lt (by omega), Nat.or_comm, Nat.mul_comm, ← h1]
  omega

theorem decode_next (d u i : Nat) (hd : d < 2 ^ (i * 7)) :
    d + u % 128 * 2 ^ (i * 7) < 2 ^ ((i + 1) * 7) ∧
      d + u % 128 * 2 ^ (i * 7) + u / 128 * 2 ^ ((i + 1) * 7) = d + u * 2 ^ (i * 7) := by
  have hp : 2 ^ ((i + 1) * 7) = 128 * 2 ^ (i * 7) := by
    rw [Nat.add_mul, Nat.pow_add]
    simp only [Nat.one_mul, Nat.reducePow]
    ring
  have hm : u % 128 * 2 ^ (i * 7) ≤ 127 * 2 ^ (i * 7) :=
    Nat.mul_le_mul_right _ (by omega)
  constructor
  · rw [hp]; omega
  · rw [hp]
    have hu : u = 128 * (u / 128) + u % 128 := (Nat.div_add_mod u 128).symm
    generalize 2 ^ (i * 7) = P at *
    generalize u / 128 = q at *
    generalize u % 128 = r at *
    subst hu
    ring

end

/-! ## Variable-length integers on a buffer -/

section

open ByteBufferImpl ByteBuffer

/-- The loop of `WriteVarInt` appends the groups of its argument. -/
theorem WriteVarInt_loop_spec :
    ∀ (fuel v : Nat) (s : ByteBufferImpl), WF s → v < 128 ^ (fuel + 1) → v < 4294967296 →
      writePos s + (fuel + 1) < SIZE_RANGE →
      ∃ s1, WriteVarInt.loop (fuel + 1) v s = .ok () s1 ∧ WF s1 ∧
        contents s1 = contents s ++ varGroups (fuel + 1) v ∧
        s1.singleCapacity = s.singleCapacity ∧
        writePos s1 = writePos s + (varGroups (fuel + 1) v).length := by
  intro fuel
  induction fuel with
  | zero =>
    intro v s hs hv _ hpos
    have hv2 : v < 128 := by simpa using hv
    obtain ⟨s1, e1, e2, e3, e4, e5⟩ := hs.writeByte v (by omega)
    refine ⟨s1, ?_, e2, ?_, e4, ?_⟩
    · unfold WriteVarInt.loop
      rw [if_pos ((varint_mask_iff (by omega)).mpr hv2), e1]
    · rw [e3]
      simp only [varGroups, if_pos hv2, Nat.mod_eq_of_lt (by omega : v < 256)]
    · simp only [varGroups, if_pos hv2, List.length_singleton, e5]
  | succ fuel ih =>
    intro v s hs hv hv32 hpos
    by_cases hv2 : v < 128
    · obtain ⟨s1, e1, e2, e3, e4, e5⟩ := hs.writeByte v (by omega)
      refine ⟨s1, ?_, e2, ?_, e4, ?_⟩
      · unfold WriteVarInt.loop
        rw [if_pos ((varint_mask_iff hv32).mpr hv2), e1]
      · rw [e3]
        unfold varGroups
        rw [if_pos hv2, Nat.mod_eq_of_lt (by omega : v < 256)]
      · unfold varGroups
        rw [if_pos hv2, List.length_singleton, e5]
    · obtain ⟨s1, e1, e2, e3, e4, e5⟩ := hs.writeByte ((v &&& 0x7F) ||| 0x80) (by omega)
      rw [continuation_byte] at e3
      have hdiv : v / 128 < 128 ^ (fuel + 1) := by
        rw [Nat.div_lt_iff_lt_mul (by decide)]
        rw [Nat.pow_succ] at hv
        exact hv
      obtain ⟨s2, f1, f2, f3, f4, f5⟩ := ih (v / 128) s1 e2 hdiv (by omega) (by omega)
      refine ⟨s2, ?_, f2, ?_, by rw [f4, e4], ?_⟩
      · unfold WriteVarInt.loop
        rw [if_neg (fun h => hv2 ((varint_mask_iff hv32).mp h)), e1]
        simp only [Res.bind, shift7, f1]
      · rw [f3, e3]
        conv_rhs => unfold varGroups
        rw [if_neg hv2]
        simp
      · conv_rhs => unfold varGroups
        rw [if_neg hv2, f5, e5, List.length_cons]
        omega

/-- The loop of `WriteVarLong` appends the groups of its argument. -/
theorem WriteVarLong_loop_spec :
    ∀ (fuel v : Nat) (s : ByteBufferImpl), WF s → v < 128 ^ (fuel + 1) →
      v < 18446744073709551616 → writePos s + (fuel + 1) < SIZE_RANGE →
      ∃ s1, WriteVarLong.loop (fuel + 1) v s = .ok () s1 ∧ WF s1 ∧
        contents s1 = contents s ++ varGroups (fuel + 1) v ∧
        s1.singleCapacity = s.singleCapacity ∧
        writePos s1 = writePos s + (varGroups (fuel + 1) v).length := by
  intro fuel
  induction fuel with
  | zero =>
    intro v s hs hv _ hpos
    have hv2 : v < 128 := by simpa using hv
    obtain ⟨s1, e1, e2, e3, e4, e5⟩ := hs.writeByte v (by omega)
    refine ⟨s1, ?_, e2, ?_, e4, ?_⟩
    · unfold WriteVarLong.loop
      rw [if_pos ((varlong_mask_iff (by omega)).mpr hv2), e1]
    · rw [e3]
      simp only [varGroups, if_pos hv2, Nat.mod_eq_of_lt (by omega : v < 256)]
    · simp only [varGroups, if_pos hv2, List.length_singleton, e5]
  | succ fuel ih =>
    intro v s hs hv hv64 hpos
    by_cases hv2 : v < 128
    · obtain ⟨s1, e1, e2, e3, e4, e5⟩ := hs.writeByte v (by omega)
      refine ⟨s1, ?_, e2, ?_, e4, ?_⟩
      · unfold WriteVarLong.loop
        rw [if_pos ((varlong_mask_iff hv64).mpr hv2), e1]
      · rw [e3]
        unfold varGroups
        rw [if_pos hv2, Nat.mod_eq_of_lt (by omega : v < 256)]
      · unfold varGroups
        rw [if_pos hv2, List.length_singleton, e5]
    · obtain ⟨s1, e1, e2, e3, e4, e5⟩ := hs.writeByte ((v &&& 0x7F) ||| 0x80) (by omega)
      rw [continuation_byte] at e3
      have hdiv : v / 128 < 128 ^ (fuel + 1) := by
        rw [Nat.div_lt_iff_lt_mul (by decide)]
        rw [Nat.pow_succ] at hv
        exact hv
      obtain ⟨s2, f1, f2, f3, f4, f5⟩ := ih (v / 128) s1 e2 hdiv (by omega) (by omega)
      refine ⟨s2, ?_, f2, ?_, by rw [f4, e4], ?_⟩
      · unfold WriteVarLong.loop
        rw [if_neg (fun h => hv2 ((varlong_mask_iff hv64).mp h)), e1]
        simp only [Res.bind, shift7, f1]
      · rw [f3, e3]
        conv_rhs => unfold varGroups
        rw [if_neg hv2]
        simp
      · conv_rhs => unfold varGroups
        rw [if_neg hv2, f5, e5, List.length_cons]
        omega

theorem WF.readable_pos_of_cons {s : ByteBufferImpl} (hs : WF s) {b : Nat} {l : List Nat}
    (hc : contents s = b :: l) : 1 ≤ s.readableBytes := by
  have := hs.length_contents
  rw [hc] at this
  simp only [List.length_cons] at this
  omega

/-- Reading the first readable byte, named. -/
theorem WF.readByteUnsafe_cons {s : ByteBufferImpl} (hs : WF s) {b : Nat} {l : List Nat}
    (hc : contents s = b :: l) :
    ∃ s1, ReadByteUnsafe s = .ok b s1 ∧ WF s1 ∧ contents s1 = l ∧
      s1.singleCapacity = s.singleCapacity ∧ s1.readableBytes + 1 = s.readableBytes ∧
      writePos s1 ≤ writePos s := by
  obtain ⟨b2, s1, e1, e2, e3, e4, e5, e6⟩ := hs.readByteUnsafe (hs.readable_pos_of_cons hc)
  rw [hc] at e3
  injection e3 with h1 h2
  subst h1
  exact ⟨s1, e1, e2, h2.symm, e4, e5, e6⟩

/-- The loop of `ReadVarInt` decodes the groups of a value that fits. -/
theorem ReadVarInt_loop_spec :
    ∀ (turns i d u : Nat) (s : ByteBufferImpl) (rest : List Nat), WF s →
      contents s = varGroups (turns + 1) u ++ rest → u < 128 ^ (turns + 1) →
      d < 2 ^ (i * 7) → d + u * 2 ^ (i * 7) < UINT32_RANGE →
      ∃ s1, ReadVarInt.loop (turns + 1) i d s = .ok (d + u * 2 ^ (i * 7)) s1 ∧ WF s1 ∧
        contents s1 = rest ∧ s1.singleCapacity = s.singleCapacity ∧
        s1.readableBytes + (varGroups (turns + 1) u).length = s.readableBytes ∧
        writePos s1 ≤ writePos s := by
  intro turns
  induction turns with
  | zero =>
    intro i d u s rest hs hc hu hd hM
    have hu2 : u < 128 := by simpa using hu
    simp only [varGroups, if_pos hu2, List.singleton_append] at hc
    obtain ⟨s1, e1, e2, e3, e4, e5, e6⟩ := hs.readByteUnsafe_cons hc
    refine ⟨s1, ?_, e2, e3, e4, ?_, e6⟩
    · unfold ReadVarInt.loop
      rw [if_neg (by
        have := hs.readable_pos_of_cons hc
        simp only [GetReadableBytes]; omega), e1]
      simp only [Res.bind, low7_of_lt hu2, decode_or d u i _ hd hM, continuation_clear hu2,
        if_true]
    · simp only [varGroups, if_pos hu2, List.length_singleton]
      exact e5
  | succ turns ih =>
    intro i d u s rest hs hc hu hd hM
    by_cases hu2 : u < 128
    · unfold varGroups at hc
      rw [if_pos hu2, List.singleton_append] at hc
      obtain ⟨s1, e1, e2, e3, e4, e5, e6⟩ := hs.readByteUnsafe_cons hc
      refine ⟨s1, ?_, e2, e3, e4, ?_, e6⟩
      · unfold ReadVarInt.loop
        rw [if_neg (by
          have := hs.readable_pos_of_cons hc
          simp only [GetReadableBytes]; omega), e1]
        simp only [Res.bind, low7_of_lt hu2, decode_or d u i _ hd hM,
          continuation_clear hu2, if_true]
      · unfold varGroups
        rw [if_pos hu2, List.length_singleton]
        exact e5
    · unfold varGroups at hc
      rw [if_neg hu2, List.cons_append] at hc
      obtain ⟨s1, e1, e2, e3, e4, e5, e6⟩ := hs.readByteUnsafe_cons hc
      obtain ⟨n1, n2⟩ := decode_next d u i hd
      have hle : u % 128 * 2 ^ (i * 7) ≤ u * 2 ^ (i * 7) :=
        Nat.mul_le_mul_right _ (Nat.mod_le _ _)
      have hdiv : u / 128 < 128 ^ (turns + 1) := by
        rw [Nat.div_lt_iff_lt_mul (by decide)]
        rw [Nat.pow_succ] at hu
        exact hu
      obtain ⟨s2, f1, f2, f3, f4, f5, f6⟩ :=
        ih (i + 1) (d + u % 128 * 2 ^ (i * 7)) (u / 128) s1 rest e2 e3 hdiv n1
          (by rw [n2]; exact hM)
      refine ⟨s2, ?_, f2, f3, by rw [f4, e4], ?_, by omega⟩
      · unfold ReadVarInt.loop
        rw [if_neg (by
          have := hs.readable_pos_of_cons hc
          simp only [GetReadableBytes]; omega), e1]
        simp only [Res.bind, low7_of_continuation,
          decode_or d (u % 128) i UINT32_RANGE hd (by omega), if_neg (continuation_set u), f1,
          n2]
      · conv_lhs => unfold varGroups
        rw [if_neg hu2, List.length_cons]
        omega

/-- The loop of `ReadVarLong` decodes the groups of a value that fits. -/
theorem ReadVarLong_loop_spec :
    ∀ (turns i d u : Nat) (s : ByteBufferImpl) (rest : List Nat), WF s →
      contents s = varGroups (turns + 1) u ++ rest → u < 128 ^ (turns + 1) →
      d < 2 ^ (i * 7) → d + u * 2 ^ (i * 7) < UINT64_RANGE →
      ∃ s1, ReadVarLong.loop (turns + 1) i d s = .ok (d + u * 2 ^ (i * 7)) s1 ∧ WF s1 ∧
        contents s1 = rest ∧ s1.singleCapacity = s.singleCapacity ∧
        s1.readableBytes + (varGroups (turns + 1) u).length = s.readableBytes ∧
        writePos s1 ≤ writePos s := by
  intro turns
  induction turns with
  | zero =>
    intro i d u s rest hs hc hu hd hM
    have hu2 : u < 128 := by simpa using hu
    simp only [varGroups, if_pos hu2, List.singleton_append] at hc
    obtain ⟨s1, e1, e2, e3, e4, e5, e6⟩ := hs.readByteUnsafe_cons hc
    refine ⟨s1, ?_, e2, e3, e4, ?_, e6⟩
    · unfold ReadVarLong.loop
      rw [e1]
      simp only [Res.bind, low7_of_lt hu2, decode_or d u i _ hd hM, continuation_clear hu2,
        if_true]
    · simp only [varGroups, if_pos hu2, List.length_singleton]
      exact e5
  | succ turns ih =>
    intro i d u s rest hs hc hu hd hM
    by_cases hu2 : u < 128
    · unfold varGroups at hc
      rw [if_pos hu2, List.singleton_append] at hc
      obtain ⟨s1, e1, e2, e3, e4, e5, e6⟩ := hs.readByteUnsafe_cons hc
      refine ⟨s1, ?_, e2, e3, e4, ?_, e6⟩
      · unfold ReadVarLong.loop
        rw [e1]
        simp only [Res.bind, low7_of_lt hu2, decode_or d u i _ hd hM,
          continuation_clear hu2, if_true]
      · unfold varGroups
        rw [if_pos hu2, List.length_singleton]
        exact e5
    · unfold varGroups at hc
      rw [if_neg hu2, List.cons_append] at hc
      obtain ⟨s1, e1, e2, e3, e4, e5, e6⟩ := hs.readByteUnsafe_cons hc
      obtain ⟨n1, n2⟩ := decode_next d u i hd
      have hle : u % 128 * 2 ^ (i * 7) ≤ u * 2 ^ (i * 7) :=
        Nat.mul_le_mul_right _ (Nat.mod_le _ _)
      have hdiv : u / 128 < 128 ^ (turns + 1) := by
        rw [Nat.div_lt_iff_lt_mul (by decide)]
        rw [Nat.pow_succ] at hu
        exact hu
      obtain ⟨s2, f1, f2, f3, f4, f5, f6⟩ :=
        ih (i + 1) (d + u % 128 * 2 ^ (i * 7)) (u / 128) s1 rest e2 e3 hdiv n1
          (by rw [n2]; exact hM)
      refine ⟨s2, ?_, f2, f3, by rw [f4, e4], ?_, by omega⟩
      · unfold ReadVarLong.loop
        rw [e1]
        simp only [Res.bind, low7_of_continuation,
          decode_or d (u % 128) i UINT64_RANGE hd (by omega), if_neg (continuation_set u), f1,
          n2]
      · conv_lhs => unfold varGroups
        rw [if_neg hu2, List.length_cons]
        omega

end

/-! ## LEB128 and scanning -/

section

open ByteBufferImpl ByteBuffer

theorem varGroups_lt {fuel v : Nat} (hv : v < 128) : varGroups (fuel + 1) v = [v] := by
  unfold varGroups
  rw [if_pos hv]

theorem varGroups_ge {fuel v : Nat} (hv : ¬ v < 128) :
    varGroups (fuel + 1) v = (v % 128 + 128) :: varGroups fuel (v / 128) := by
  conv_lhs => unfold varGroups
  rw [if_neg hv]

/-- The groups written for a value are its LEB128 encoding. -/
theorem varGroups_isLEB128 :
    ∀ (fuel v : Nat), v < 128 ^ (fuel + 1) → IsLEB128 v (varGroups (fuel + 1) v) := by
  intro fuel
  induction fuel with
  | zero =>
    intro v hv
    have hv2 : v < 128 := by simpa using hv
    rw [varGroups_lt hv2]
    refine ⟨by simp only [lebValue]; omega, by simp; omega, by simp, v, rfl, hv2, fun _ => rfl⟩
  | succ fuel ih =>
    intro v hv
    by_cases hv2 : v < 128
    · rw [varGroups_lt hv2]
      refine ⟨by simp only [lebValue]; omega, by simp; omega, by simp, v, rfl, hv2,
        fun _ => rfl⟩
    · rw [varGroups_ge hv2]
      have hdiv : v / 128 < 128 ^ (fuel + 1) := by
        rw [Nat.div_lt_iff_lt_mul (by decide)]
        rw [Nat.pow_succ] at hv
        exact hv
      obtain ⟨h1, h2, h3, l, h4, h5, h6⟩ := ih (v / 128) hdiv
      obtain ⟨c, cs, hcs⟩ : ∃ c cs, varGroups (fuel + 1) (v / 128) = c :: cs := by
        cases hg : varGroups (fuel + 1) (v / 128) with
        | nil => rw [hg] at h4; cases h4
        | cons c cs => exact ⟨c, cs, rfl⟩
      rw [hcs] at h1 h2 h3 h4 h6 ⊢
      refine ⟨?_, ?_, ?_, l, ?_, h5, ?_⟩
      · simp only [lebValue] at h1 ⊢
        omega
      · intro b hb
        rcases List.mem_cons.mp hb with hb | hb
        · omega
        · exact h2 b hb
      · intro b hb
        rw [List.dropLast_cons₂] at hb
        rcases List.mem_cons.mp hb with hb | hb
        · omega
        · exact h3 b hb
      · rw [List.getLast?_cons_cons]
        exact h4
      · intro hl
        have hlen := h6 hl
        have hnil : cs = [] := by
          simp only [List.length_cons] at hlen
          exact List.length_eq_zero.mp (by omega)
        subst hnil
        simp only [List.getLast?_singleton, Option.some.injEq] at h4
        simp only [lebValue] at h1
        omega

theorem scan_exhausted_iff :
    ∀ (turns : Nat) (cs : List Nat),
      scan turns cs = .exhausted ↔ cs.length < turns ∧ ∀ b ∈ cs, b &&& 0x80 ≠ 0 := by
  intro turns
  induction turns with
  | zero => intro cs; simp [scan]
  | succ turns ih =>
    intro cs
    cases cs with
    | nil => simp [scan]
    | cons b bs =>
      unfold scan
      by_cases hb : b &&& 0x80 = 0
      · rw [if_pos hb]
        simp [hb]
      · rw [if_neg hb, ih bs]
        simp [hb]

theorem scan_overlong_iff :
    ∀ (turns : Nat) (cs : List Nat),
      scan turns cs = .overlong ↔ turns ≤ cs.length ∧ ∀ b ∈ cs.take turns, b &&& 0x80 ≠ 0 := by
  intro turns
  induction turns with
  | zero => intro cs; simp [scan]
  | succ turns ih =>
    intro cs
    cases cs with
    | nil => simp [scan]
    | cons b bs =>
      unfold scan
      by_cases hb : b &&& 0x80 = 0
      · rw [if_pos hb]
        simp [hb]
      · rw [if_neg hb, ih bs]
        simp [hb]

/-- The loop of `ReadVarInt` ends the way the scan of the readable bytes says. -/
theorem ReadVarInt_loop_scan :
    ∀ (turns i d : Nat) (s : ByteBufferImpl), WF s →
      (scan turns (contents s) = .terminated → ∃ v s1, ReadVarInt.loop turns i d s = .ok v s1) ∧
      (scan turns (contents s) = .exhausted →
        ∃ s1, ReadVarInt.loop turns i d s = .raised .incompleteVarInt s1) ∧
      (scan turns (contents s) = .overlong →
        ∃ s1, ReadVarInt.loop turns i d s = .raised .invalidVarInt s1) := by
  intro turns
  induction turns with
  | zero =>
    intro i d s hs
    refine ⟨?_, ?_, ?_⟩
    · intro h; simp [scan] at h
    · intro h; simp [scan] at h
    · intro _; exact ⟨s, rfl⟩
  | succ turns ih =>
    intro i d s hs
    cases hc : contents s with
    | nil =>
      have hrb : s.readableBytes = 0 := by
        have := hs.length_contents
        rw [hc] at this
        simpa using this.symm
      refine ⟨?_, ?_, ?_⟩
      · intro h; simp [scan] at h
      · intro _
        refine ⟨s, ?_⟩
        unfold ReadVarInt.loop
        rw [if_pos (by simp only [GetReadableBytes]; omega)]
      · intro h; simp [scan] at h
    | cons b bs =>
      obtain ⟨s1, e1, e2, e3, e4, e5, e6⟩ := hs.readByteUnsafe_cons hc
      have hrb := hs.readable_pos_of_cons hc
      have hloop : ReadVarInt.loop (turns + 1) i d s =
          if b &&& 0x80 = 0 then
            .ok (d ||| ((b &&& 0x7F) <<< (i * 7)) % UINT32_RANGE) s1
          else ReadVarInt.loop turns (i + 1)
            (d ||| ((b &&& 0x7F) <<< (i * 7)) % UINT32_RANGE) s1 := by
        conv_lhs => unfold ReadVarInt.loop
        rw [if_neg (by simp only [GetReadableBytes]; omega), e1]
        simp only [Res.bind]
      rw [hloop]
      unfold scan
      by_cases hb : b &&& 0x80 = 0
      · rw [if_pos hb, if_pos hb]
        refine ⟨fun _ => ⟨_, _, rfl⟩, ?_, ?_⟩
        · intro h; cases h
        · intro h; cases h
      · rw [if_neg hb, if_neg hb, ← e3]
        exact ih _ _ s1 e2

end

/-! ## Encoded lengths -/

section

open ByteBufferImpl ByteBuffer

theorem VarIntBytes_eq {v : Nat} (hv : v < 4294967296) :
    VarIntBytes v =
      if v < 128 then 1 else if v < 16384 then 2 else if v < 2097152 then 3
      else if v < 268435456 then 4 else 5 := by
  have m1 := and_mask_eq_zero_iff v ((0xFFFFFFFF <<< 7) % UINT32_RANGE) 127
    4294967295 7 32 (by decide) (by decide) (by decide) (by decide) hv
  have m2 := and_mask_eq_zero_iff v ((0xFFFFFFFF <<< 14) % UINT32_RANGE) 16383
    4294967295 14 32 (by decide) (by decide) (by decide) (by decide) hv
  have m3 := and_mask_eq_zero_iff v ((0xFFFFFFFF <<< 21) % UINT32_RANGE) 2097151
    4294967295 21 32 (by decide) (by decide) (by decide) (by decide) hv
  have m4 := and_mask_eq_zero_iff v ((0xFFFFFFFF <<< 28) % UINT32_RANGE) 268435455
    4294967295 28 32 (by decide) (by decide) (by decide) (by decide) hv
  unfold VarIntBytes
  simp only [m1, m2, m3, m4, Nat.reducePow]

theorem varGroups_length_pos (fuel v : Nat) : 1 ≤ (varGroups (fuel + 1) v).length := by
  unfold varGroups
  split <;> simp

/-- The number of groups is at most `k` exactly for the values below `128^k`. -/
theorem length_varGroups_le_iff :
    ∀ (fuel v k : Nat), 1 ≤ k → k ≤ fuel → v < 128 ^ fuel →
      ((varGroups fuel v).length ≤ k ↔ v < 128 ^ k) := by
  intro fuel
  induction fuel with
  | zero => intro v k h1 h2; omega
  | succ fuel ih =>
    intro v k h1 h2 hv
    have hk : (128 : Nat) ^ k = 128 * 128 ^ (k - 1) := by
      obtain ⟨j, rfl⟩ : ∃ j, k = j + 1 := ⟨k - 1, by omega⟩
      rw [Nat.add_sub_cancel, Nat.pow_succ, Nat.mul_comm]
    have hpos : 1 ≤ 128 ^ (k - 1) := Nat.one_le_two_pow.trans (Nat.pow_le_pow_left (by decide) _)
    by_cases hv2 : v < 128
    · rw [varGroups_lt hv2]
      simp only [List.length_singleton]
      constructor
      · intro _; rw [hk]; omega
      · intro _; exact h1
    · rw [varGroups_ge hv2, List.length_cons]
      cases fuel with
      | zero => simp at hv; omega
      | succ fuel =>
        have hdiv : v / 128 < 128 ^ (fuel + 1) := by
          rw [Nat.div_lt_iff_lt_mul (by decide)]
          rw [Nat.pow_succ] at hv
          exact hv
        have hp := varGroups_length_pos fuel (v / 128)
        by_cases hk1 : k = 1
        · subst hk1
          simp only [Nat.pow_one]
          omega
        · have hi := ih (v / 128) (k - 1) (by omega) (by omega) hdiv
          have e : v / 128 < 128 ^ (k - 1) ↔ v < 128 * 128 ^ (k - 1) := by
            rw [Nat.div_lt_iff_lt_mul (by decide), Nat.mul_comm]
          rw [hk, ← e]
          constructor
          · intro h; exact hi.mp (by omega)
          · intro h; have := hi.mpr h; omega

theorem length_varGroups_five {v : Nat} (hv : v < 4294967296) :
    (varGroups 5 v).length =
      if v < 128 then 1 else if v < 16384 then 2 else if v < 2097152 then 3
      else if v < 268435456 then 4 else 5 := by
  have hv5 : v < 128 ^ 5 := by norm_num; omega
  have h0 := length_varGroups_le 5 v
  have h0' : 1 ≤ (varGroups 5 v).length := varGroups_length_pos 4 v
  have h1 := length_varGroups_le_iff 5 v 1 (by decide) (by decide) hv5
  have h2 := length_varGroups_le_iff 5 v 2 (by decide) (by decide) hv5
  have h3 := length_varGroups_le_iff 5 v 3 (by decide) (by decide) hv5
  have h4 := length_varGroups_le_iff 5 v 4 (by decide) (by decide) hv5
  norm_num at h1 h2 h3 h4
  split_ifs <;> omega

theorem VarLongBytes_eq {v : Nat} (hv : v < 18446744073709551616) :
    VarLongBytes v =
      if v < 128 then 1 else if v < 16384 then 2 else if v < 2097152 then 3
      else if v < 268435456 then 4 else if v < 34359738368 then 5
      else if v < 4398046511104 then 6 else if v < 562949953421312 then 7
      else if v < 72057594037927936 then 8 else if v < 9223372036854775808 then 9
      else 10 := by
  have m1 := and_mask_eq_zero_iff v ((0xFFFFFFFFFFFFFFFF <<< 7) % UINT64_RANGE) 127
    18446744073709551615 7 64 (by decide) (by decide) (by decide) (by decide) hv
  have m2 := and_mask_eq_zero_iff v ((0xFFFFFFFFFFFFFFFF <<< 14) % UINT64_RANGE) 16383
    18446744073709551615 14 64 (by decide) (by decide) (by decide) (by decide) hv
  have m3 := and_mask_eq_zero_iff v ((0xFFFFFFFFFFFFFFFF <<< 21) % UINT64_RANGE) 2097151
    18446744073709551615 21 64 (by decide) (by decide) (by decide) (by decide) hv
  have m4 := and_mask_eq_zero_iff v ((0xFFFFFFFFFFFFFFFF <<< 28) % UINT64_RANGE) 268435455
    18446744073709551615 28 64 (by decide) (by decide) (by decide) (by decide) hv
  have m5 := and_mask_eq_zero_iff v ((0xFFFFFFFFFFFFFFFF <<< 35) % UINT64_RANGE) 34359738367
    18446744073709551615 35 64 (by decide) (by decide) (by decide) (by decide) hv
  have m6 := and_mask_eq_zero_iff v ((0xFFFFFFFFFFFFFFFF <<< 42) % UINT64_RANGE) 4398046511103
    18446744073709551615 42 64 (by decide) (by decide) (by decide) (by decide) hv
  have m7 := and_mask_eq_zero_iff v ((0xFFFFFFFFFFFFFFFF <<< 49) % UINT64_RANGE) 562949953421311
    18446744073709551615 49 64 (by decide) (by decide) (by decide) (by decide) hv
  have m8 := and_mask_eq_zero_iff v ((0xFFFFFFFFFFFFFFFF <<< 56) % UINT64_RANGE) 72057594037927935
    18446744073709551615 56 64 (by decide) (by decide) (by decide) (by decide) hv
  have m9 := and_mask_eq_zero_iff v ((0xFFFFFFFFFFFFFFFF <<< 63) % UINT64_RANGE) 9223372036854775807
    18446744073709551615 63 64 (by decide) (by decide) (by decide) (by decide) hv
  unfold VarLongBytes
  simp only [m1, m2, m3, m4, m5, m6, m7, m8, m9, Nat.reducePow]

theorem length_varGroups_ten {v : Nat} (hv : v < 18446744073709551616) :
    (varGroups 10 v).length =
      if v < 128 then 1 else if v < 16384 then 2 else if v < 2097152 then 3
      else if v < 268435456 then 4 else if v < 34359738368 then 5
      else if v < 4398046511104 then 6 else if v < 562949953421312 then 7
      else if v < 72057594037927936 then 8 else if v < 9223372036854775808 then 9
      else 10 := by
  have hv10 : v < 128 ^ 10 := by norm_num; omega
  have h0 := length_varGroups_le 10 v
  have h0' : 1 ≤ (varGroups 10 v).length := varGroups_length_pos 9 v
  have h1 := length_varGroups_le_iff 10 v 1 (by decide) (by decide) hv10
  have h2 := length_varGroups_le_iff 10 v 2 (by decide) (by decide) hv10
  have h3 := length_varGroups_le_iff 10 v 3 (by decide) (by decide) hv10
  have h4 := length_varGroups_le_iff 10 v 4 (by decide) (by decide) hv10
  have h5 := length_varGroups_le_iff 10 v 5 (by decide) (by decide) hv10
  have h6 := length_varGroups_le_iff 10 v 6 (by decide) (by decide) hv10
  have h7 := length_varGroups_le_iff 10 v 7 (by decide) (by decide) hv10
  have h8 := length_varGroups_le_iff 10 v 8 (by decide) (by decide) hv10
  have h9 := length_varGroups_le_iff 10 v 9 (by decide) (by decide) hv10
  norm_num at h1 h2 h3 h4 h5 h6 h7 h8 h9
  split_ifs <;> omega

theorem testBit_63_iff {v : Nat} (hv : v < 18446744073709551616) :
    v.testBit 63 = true ↔ 9223372036854775808 ≤ v := by
  rw [Nat.testBit_to_div_mod]
  simp only [Nat.reducePow, decide_eq_true_eq]
  omega

end

/-! ## Uniqueness of the LEB128 encoding -/

section

open ByteBufferImpl ByteBuffer

theorem lebValue_pos : ∀ (bs : List Nat) (l : Nat), bs.getLast? = some l → 1 ≤ l % 128 →
    1 ≤ lebValue bs := by
  intro bs
  induction bs with
  | nil => intro l h; cases h
  | cons b rest ih =>
    intro l h hl
    cases rest with
    | nil =>
      simp only [List.getLast?_singleton, Option.some.injEq] at h
      subst h
      simp only [lebValue]
      omega
    | cons c cs =>
      rw [List.getLast?_cons_cons] at h
      have := ih l h hl
      simp only [lebValue] at this ⊢
      omega

theorem IsLEB128.singleton {v b : Nat} (h : IsLEB128 v [b]) : b = v ∧ v < 128 := by
  obtain ⟨h1, _, _, l, h4, h5, _⟩ := h
  simp only [List.getLast?_singleton, Option.some.injEq] at h4
  subst h4
  simp only [lebValue] at h1
  omega

theorem IsLEB128.cons_cons {v b c : Nat} {cs : List Nat} (h : IsLEB128 v (b :: c :: cs)) :
    b = v % 128 + 128 ∧ 128 ≤ v ∧ IsLEB128 (v / 128) (c :: cs) := by
  obtain ⟨h1, h2, h3, l, h4, h5, h6⟩ := h
  rw [List.getLast?_cons_cons] at h4
  have hl0 : l ≠ 0 := by
    intro hl
    have := h6 hl
    simp at this
  have hb1 : 128 ≤ b := h3 b (by rw [List.dropLast_cons₂]; exact List.mem_cons_self _ _)
  have hb2 : b < 256 := h2 b (List.mem_cons_self _ _)
  have hpos := lebValue_pos (c :: cs) l h4 (by omega)
  have hv : v = b % 128 + 128 * lebValue (c :: cs) := by
    rw [← h1]
    rfl
  refine ⟨by omega, by omega, by omega, ?_, ?_, l, h4, h5, fun hl => absurd hl hl0⟩
  · intro x hx
    exact h2 x (List.mem_cons_of_mem _ hx)
  · intro x hx
    exact h3 x (by rw [List.dropLast_cons₂]; exact List.mem_cons_of_mem _ hx)

/-- The LEB128 encoding of a value is unique. -/
theorem IsLEB128.unique : ∀ (bs bs2 : List Nat) (v : Nat), IsLEB128 v bs → IsLEB128 v bs2 →
    bs = bs2 := by
  intro bs
  induction bs with
  | nil =>
    intro bs2 v h
    obtain ⟨_, _, _, l, h4, _⟩ := h
    cases h4
  | cons b rest ih =>
    intro bs2 v h h2
    cases bs2 with
    | nil =>
      obtain ⟨_, _, _, l, h4, _⟩ := h2
      cases h4
    | cons b2 rest2 =>
      cases rest with
      | nil =>
        obtain ⟨e1, e2⟩ := h.singleton
        cases rest2 with
        | nil =>
          obtain ⟨f1, _⟩ := h2.singleton
          rw [e1, f1]
        | cons c2 cs2 =>
          obtain ⟨_, f2, _⟩ := h2.cons_cons
          omega
      | cons c cs =>
        obtain ⟨e1, e2, e3⟩ := h.cons_cons
        cases rest2 with
        | nil =>
          obtain ⟨_, f2⟩ := h2.singleton
          omega
        | cons c2 cs2 =>
          obtain ⟨f1, _, f3⟩ := h2.cons_cons
          rw [e1, f1, ih (c2 :: cs2) (v / 128) e3 f3]

end

/-! ## Segmented round trip -/

section

open ByteBufferImpl ByteBuffer

theorem ReadBytes_loop_done (fuel : Nat) (output : List Nat) (bytesIndex size : Nat)
    (s : ByteBufferImpl) (h : ¬ size > s.singleCapacity) :
    ReadBytes.loop fuel output bytesIndex size s = .ok (output, bytesIndex, size) s := by
  cases fuel with
  | zero => unfold ReadBytes.loop; rw [if_neg h]
  | succ fuel => unfold ReadBytes.loop; rw [if_neg h]

/-- A single `ReadBytes` whose first piece has a length that is a multiple of `2^32`: the
32-bit output offset is back at `0` for the last piece, which lands on the first byte of the
caller's array. -/
theorem ReadBytes_offset_wraps (C : Nat) (hmod : C % UINT32_RANGE = 0) (h1 : 1 ≤ C)
    (h2 : C + 1 < SIZE_RANGE) (B : List Nat) (hlen : B.length = C + 1) :
    ∃ s1 out s2, WriteBytes B (ofCapacity C) = .ok () s1 ∧
      ByteBuffer.ReadBytes (C + 1) s1 = .ok out s2 ∧ out.head? = B[C]? := by
  obtain ⟨s1, e1, e2, e3, e4, e5⟩ := (WF.ofCapacity h1 (by omega)).writeBytes B
    (by rw [writePos_ofCapacity]; omega)
  rw [contents_ofCapacity, List.nil_append] at e3
  obtain ⟨_, _, _, hr⟩ := (Counted.count_ofCapacity h1 (by omega)).count_writeBytes
    (by rw [writePos_ofCapacity]; omega) e1
  have hr0 : s1.localReaderIndex = 0 := hr
  have hcap : s1.singleCapacity = C := e4
  have hrb : s1.readableBytes = C + 1 := by
    rw [← e2.length_contents, e3, hlen]
  obtain ⟨f1, f2⟩ := e2.loadRange_pop C (by omega) (by omega)
  rw [hr0, e3] at f1
  have hclen : (B.take C).length = C := by
    rw [List.length_take, hlen]; omega
  have hcopy := copyInto_zero (List.replicate (C + 1) 0) (B.take C)
    (by rw [hclen, List.length_replicate]; omega)
  rw [hclen] at hcopy
  obtain ⟨t2, g1, g2, g3, g4, g5, g6, g7, g8⟩ :=
    f2 ((s1.readableBytes + SIZE_RANGE - C) % SIZE_RANGE) 0
      (sub_mod_size (by omega) e2.readable_lt)
  rw [e3] at g3
  obtain ⟨s4, l1, l2, l3, l4, l5, l6⟩ :=
    g2.readBytes_finish [] (B.take C ++ (List.replicate (C + 1) 0).drop C) 1 (by omega)
      (by omega) (by
        rw [List.length_append, hclen]; omega)
  rw [List.nil_append, List.nil_append, List.length_nil, g3] at l1
  refine ⟨s1, (B.drop C).take 1 ++ (B.take C ++ (List.replicate (C + 1) 0).drop C).drop 1,
    s4, e1, ?_, ?_⟩
  · unfold ByteBuffer.ReadBytes ByteBufferImpl.ReadBytes
    rw [if_neg (by simp only [GetReadableBytes]; omega)]
    have ht : TryRefreshReaderBuffer s1 = .ok () s1 := by
      unfold TryRefreshReaderBuffer
      rw [if_neg (by omega)]
    rw [ht]
    simp only [Res.bind]
    rw [hr0, hcap, Nat.zero_add, Nat.mod_eq_of_lt h2, if_pos (by omega), Nat.sub_zero, f1]
    simp only [hcopy, Nat.sub_zero]
    have m1 : (C + SIZE_RANGE) % SIZE_RANGE = C := by
      rw [Nat.add_mod_right, Nat.mod_eq_of_lt (by omega)]
    rw [hcap] at g1
    rw [m1, g1]
    simp only [hmod, Nat.add_sub_cancel_left]
    rw [ReadBytes_loop_done _ _ _ _ _ (by omega)]
    exact l1
  · rw [List.head?_append_of_ne_nil]
    · rw [List.head?_take, if_neg (by decide), List.head?_drop]
    · intro hnil
      have := congrArg List.length hnil
      rw [List.length_take, List.length_drop, hlen] at this
      simp at this

/-- C1 (failing input): with segment capacity `2^32`, the `2^32 + 1` bytes `0, ..., 0, 1` are
written and read back as one chunk of `2^32 + 1` bytes; the chunk read is not the sequence
written, because the last byte lands at offset `0` of the output. -/
theorem C1_large_chunk_differs :
    ∃ s1 outs s2,
      WriteBytes (List.replicate 4294967296 0 ++ [1]) (ofCapacity 4294967296) = .ok () s1 ∧
      readChunks [4294967297] s1 = .ok outs s2 ∧
      outs.flatten ≠ List.replicate 4294967296 0 ++ [1] := by
  have hlen : (List.replicate 4294967296 0 ++ [1]).length = 4294967296 + 1 := by
    rw [List.length_append, List.length_replicate, List.length_singleton]
  have hne : List.replicate 4294967296 0 ≠ ([] : List Nat) := by
    intro h
    have h2 := congrArg List.length h
    rw [List.length_replicate, List.length_nil] at h2
    exact absurd h2 (by decide)
  obtain ⟨s1, out, s2, e1, e2, e3⟩ := ReadBytes_offset_wraps 4294967296 (by decide)
    (by decide) (by decide) (List.replicate 4294967296 0 ++ [1]) hlen
  rw [List.getElem?_append_right (by rw [List.length_replicate]), List.length_replicate,
    Nat.sub_self] at e3
  refine ⟨s1, [out], s2, e1, ?_, ?_⟩
  · unfold readChunks
    rw [e2]
    rfl
  · intro h
    rw [List.flatten_cons, List.flatten_nil, List.append_nil] at h
    rw [h, List.head?_append_of_ne_nil _ hne, List.head?_replicate, if_neg (by decide)] at e3
    exact absurd (Option.some.inj e3) (by decide)

end

/-! ## Readable-byte accounting and underflow -/

section

open ByteBufferImpl ByteBuffer

/-- C2 (as stated, refuted): the accounting equation fails after a skip of the writer, after
a skip of the reader, and after a reset of the writer index. -/
theorem C2_accounting_fails :
    (¬ ∀ s1, runOps [.WriteByte 7, .SkipWriteBytes 1] (ofCapacity 4) = .ok () s1 →
        SegmentAccounting s1) ∧
    (¬ ∀ s1, runOps [.WriteBytes [1, 2, 3], .ReadByte, .SkipReadBytes 1] (ofCapacity 4)
        = .ok () s1 → SegmentAccounting s1) ∧
    (¬ ∀ s1, runOps [.WriteBytes [1, 2, 3, 4, 5], .ResetWriterIndex] (ofCapacity 4)
        = .ok () s1 → SegmentAccounting s1) := by
  refine ⟨?_, ?_, ?_⟩
  · intro h
    have h1 := h _ rfl
    revert h1
    decide
  · intro h
    have h1 := h _ rfl
    revert h1
    decide
  · intro h
    have h1 := h _ rfl
    revert h1
    decide

/-- C2 (amended): from a fresh buffer of capacity `C ≥ 1`, after every sequence of `WriteByte`,
`WriteBytes`, `WriteBytesAndDelete`, `ReadByte`, `ReadBytes` and `ResetReaderIndex` calls that
all return normally and write fewer than `2^64` bytes in total, at least one segment is held
and `readableBytes = (number of segments - 1) * C + writerIndex - readerIndex`. -/
theorem C2_accounting (C : Nat) (hC : 1 ≤ C) (hC64 : C < SIZE_RANGE) (ops : List Op)
    (hplain : ∀ op ∈ ops, op.plain = true)
    (hwritten : (ops.map Op.written).sum < SIZE_RANGE) (s1 : ByteBufferImpl)
    (hrun : runOps ops (ofCapacity C) = .ok () s1) :
    SegmentAccounting s1 ∧ s1.singleCapacity = C := by
  obtain ⟨h1, h2⟩ := Counted.runOps ops (ofCapacity C) s1 (Counted.count_ofCapacity hC hC64) hplain
    (by rw [writePos_ofCapacity]; omega) hrun
  exact ⟨h1.segmentAccounting, h2⟩

theorem C2_accounting_witness :
    ∃ s1, runOps [.WriteBytesAndDelete [7, 7, 7, 7], .WriteBytes [1, 2, 3, 4, 5, 6],
        .ReadBytes 5, .WriteByte 9, .ResetReaderIndex, .ReadByte] (ofCapacity 4)
          = .ok () s1 ∧
      SegmentAccounting s1 ∧ s1.singleCapacity = 4 :=
  ⟨_, rfl, C2_accounting 4 (by decide) (by decide)
    [.WriteBytesAndDelete [7, 7, 7, 7], .WriteBytes [1, 2, 3, 4, 5, 6], .ReadBytes 5,
      .WriteByte 9, .ResetReaderIndex, .ReadByte]
    (by decide) (by decide) _ rfl⟩

/-- C3: every bounds-checked read (`ReadBoolean`, `ReadByte`, `ReadShort`, `ReadMedium`,
`ReadInt`, `ReadLong`, `ReadBytes(output, n)`) throws exactly when the readable-byte count is
below its width; the exception is the read's "not enough readable bytes" exception, and the
state at the throw is the state the read was called on. -/
theorem C3_underflow (s : ByteBufferImpl) (e : Exn) (s1 : ByteBufferImpl) :
    (ReadBoolean s = .raised e s1 ↔
      s.readableBytes < 1 ∧ e = .notEnoughReadable .boolean ∧ s1 = s) ∧
    (ReadByte s = .raised e s1 ↔
      s.readableBytes < 1 ∧ e = .notEnoughReadable .byte ∧ s1 = s) ∧
    (ReadShort s = .raised e s1 ↔
      s.readableBytes < 2 ∧ e = .notEnoughReadable .short ∧ s1 = s) ∧
    (ReadMedium s = .raised e s1 ↔
      s.readableBytes < 3 ∧ e = .notEnoughReadable .medium ∧ s1 = s) ∧
    (ReadInt s = .raised e s1 ↔
      s.readableBytes < 4 ∧ e = .notEnoughReadable .int ∧ s1 = s) ∧
    (ReadLong s = .raised e s1 ↔
      s.readableBytes < 8 ∧ e = .notEnoughReadable .long ∧ s1 = s) ∧
    (∀ (output : List Nat) (n : Nat), ByteBufferImpl.ReadBytes output n s = .raised e s1 ↔
      s.readableBytes < n ∧ e = .notEnoughReadable .byteArray ∧ s1 = s) := by
  have rb := ReadByteUnsafe_noThrow
  have ok : ∀ {α : Type} (a : α) (t : ByteBufferImpl), (Res.ok a t).NoThrow :=
    fun a t => Res.noThrow_ok a t
  refine ⟨?_, ?_, ?_, ?_, ?_, ?_, ?_⟩
  · exact guarded_raised_iff s 1 .boolean _ ((rb s).bind fun _ _ => ok _ _) e s1
  · exact guarded_raised_iff s 1 .byte _ (rb s) e s1
  · exact guarded_raised_iff s 2 .short _
      ((rb s).bind fun _ t1 => (rb t1).bind fun _ _ => ok _ _) e s1
  · exact guarded_raised_iff s 3 .medium _
      ((rb s).bind fun _ t1 => (rb t1).bind fun _ t2 => (rb t2).bind fun _ _ => ok _ _) e s1
  · exact guarded_raised_iff s 4 .int _
      ((rb s).bind fun _ t1 => (rb t1).bind fun _ t2 => (rb t2).bind fun _ t3 =>
        (rb t3).bind fun _ _ => ok _ _) e s1
  · exact guarded_raised_iff s 8 .long _
      ((rb s).bind fun _ t1 => (rb t1).bind fun _ t2 => (rb t2).bind fun _ t3 =>
        (rb t3).bind fun _ t4 => (rb t4).bind fun _ t5 => (rb t5).bind fun _ t6 =>
        (rb t6).bind fun _ t7 => (rb t7).bind fun _ _ => ok _ _) e s1
  · intro output n
    refine guarded_raised_iff s n .byteArray _ ?_ e s1
    apply Res.NoThrow.bind (TryRefreshReaderBuffer_noThrow s)
    intro _ t
    dsimp only
    split
    · split
      · exact Res.noThrow_undefined
      · split
        · exact Res.noThrow_undefined
        · exact Res.NoThrow.bind (PopBuffer_noThrow _) fun _ t2 =>
            Res.NoThrow.bind (ReadBytes_loop_noThrow _ _ _ _ t2) fun r t3 =>
              ReadBytes_finish_noThrow _ _ _ t3
    · exact ReadBytes_finish_noThrow _ _ _ t

end

/-! ## VarInt -/

section

open ByteBufferImpl ByteBuffer

theorem WF.contents_nil {s : ByteBufferImpl} (hs : WF s) (h : s.readableBytes = 0) :
    contents s = [] := by
  apply List.length_eq_zero.mp
  rw [hs.length_contents, h]

/-- The function `WriteVarInt` on a well-formed buffer appends the groups of its argument. -/
theorem WF.writeVarInt {s : ByteBufferImpl} (hs : WF s) (hpos : writePos s + 5 < SIZE_RANGE)
    {v : Nat} (hv : v < UINT32_RANGE) :
    ∃ s1, WriteVarInt v s = .ok () s1 ∧ WF s1 ∧ contents s1 = contents s ++ varGroups 5 v ∧
      s1.readableBytes = s.readableBytes + (varGroups 5 v).length := by
  have hv' : v < 4294967296 := hv
  obtain ⟨s1, e1, e2, e3, e4, e5⟩ :=
    WriteVarInt_loop_spec 4 v s hs (by norm_num; omega) hv' hpos
  refine ⟨s1, e1, e2, e3, ?_⟩
  have := congrArg List.length e3
  rw [e2.length_contents, List.length_append, hs.length_contents] at this
  exact this

/-- The function `WriteVarLong` on a well-formed buffer appends the groups of its argument. -/
theorem WF.writeVarLong {s : ByteBufferImpl} (hs : WF s) (hpos : writePos s + 10 < SIZE_RANGE)
    {v : Nat} (hv : v < UINT64_RANGE) :
    ∃ s1, WriteVarLong v s = .ok () s1 ∧ WF s1 ∧ contents s1 = contents s ++ varGroups 10 v ∧
      s1.readableBytes = s.readableBytes + (varGroups 10 v).length := by
  have hv' : v < 18446744073709551616 := hv
  obtain ⟨s1, e1, e2, e3, e4, e5⟩ :=
    WriteVarLong_loop_spec 9 v s hs (by norm_num; omega) hv' hpos
  refine ⟨s1, e1, e2, e3, ?_⟩
  have := congrArg List.length e3
  rw [e2.length_contents, List.length_append, hs.length_contents] at this
  exact this

/-- C4: on a well-formed buffer, `WriteVarInt(v)` for a 32-bit `v` appends bytes such that
`ReadVarInt`, on any well-formed buffer whose readable bytes start with them, returns `v` and
consumes exactly those bytes; so on a buffer without unread bytes the write followed by
`ReadVarInt` returns `v` and the readable-byte count is back at its value before the write. -/
theorem C4_varint_roundtrip (s : ByteBufferImpl) (hs : WF s)
    (hpos : writePos s + 5 < SIZE_RANGE) (v : Nat) (hv : v < UINT32_RANGE) :
    ∃ s1 bs, WriteVarInt v s = .ok () s1 ∧ WF s1 ∧ contents s1 = contents s ++ bs ∧
      s1.readableBytes = s.readableBytes + bs.length ∧
      (∀ t rest, WF t → contents t = bs ++ rest →
        ∃ t1, ReadVarInt t = .ok v t1 ∧ contents t1 = rest ∧
          t1.readableBytes + bs.length = t.readableBytes) ∧
      (s.readableBytes = 0 →
        ∃ s2, ReadVarInt s1 = .ok v s2 ∧ s2.readableBytes = s.readableBytes) := by
  have hv' : v < 4294967296 := hv
  obtain ⟨s1, e1, e2, e3, e4⟩ := hs.writeVarInt hpos hv
  have hread : ∀ t rest, WF t → contents t = varGroups 5 v ++ rest →
      ∃ t1, ReadVarInt t = .ok v t1 ∧ contents t1 = rest ∧
        t1.readableBytes + (varGroups 5 v).length = t.readableBytes := by
    intro t rest ht hc
    obtain ⟨t1, f1, f2, f3, f4, f5, f6⟩ :=
      ReadVarInt_loop_spec 4 0 0 v t rest ht hc (by norm_num; omega) (by norm_num)
        (by simpa using hv)
    exact ⟨t1, by simpa [ReadVarInt] using f1, f3, f5⟩
  refine ⟨s1, varGroups 5 v, e1, e2, e3, e4, hread, ?_⟩
  intro hempty
  rw [hs.contents_nil hempty, List.nil_append] at e3
  obtain ⟨s2, g1, g2, g3⟩ := hread s1 [] e2 (by rw [e3, List.append_nil])
  exact ⟨s2, g1, by omega⟩

theorem C4_varint_roundtrip_witness :
    WF (ofCapacity 4) ∧ (4294967295 : Nat) < UINT32_RANGE ∧
      ∃ s1 s2, WriteVarInt 4294967295 (ofCapacity 4) = .ok () s1 ∧
        ReadVarInt s1 = .ok 4294967295 s2 ∧
        s2.readableBytes = (ofCapacity 4).readableBytes := by
  obtain ⟨s1, bs, h1, _, _, _, _, h6⟩ :=
    C4_varint_roundtrip (ofCapacity 4) (WF.ofCapacity (by decide) (by decide)) (by decide)
      4294967295 (by decide)
  obtain ⟨s2, h7, h8⟩ := h6 rfl
  exact ⟨WF.ofCapacity (by decide) (by decide), by decide, s1, s2, h1, h7, h8⟩

/-- C5: on a well-formed buffer, `WriteVarInt(v)` for a 32-bit `v` appends exactly the LEB128
encoding of `v` (seven value bits per byte, least significant group first, high bit set on
every byte except the last, no trailing zero group), which is the only byte sequence of that
form; 300 gives `[0xAC, 0x02]`, 1 gives `[0x01]` and 127 gives `[0x7F]`. -/
theorem C5_varint_leb128 (s : ByteBufferImpl) (hs : WF s)
    (hpos : writePos s + 5 < SIZE_RANGE) (v : Nat) (hv : v < UINT32_RANGE) :
    ∃ s1 bs, WriteVarInt v s = .ok () s1 ∧ contents s1 = contents s ++ bs ∧ IsLEB128 v bs ∧
      (∀ bs2, IsLEB128 v bs2 → bs2 = bs) ∧
      (v = 300 → bs = [0xAC, 0x02]) ∧ (v = 1 → bs = [0x01]) ∧ (v = 127 → bs = [0x7F]) := by
  have hv' : v < 4294967296 := hv
  obtain ⟨s1, e1, e2, e3, e4⟩ := hs.writeVarInt hpos hv
  have hleb := varGroups_isLEB128 4 v (by norm_num; omega)
  refine ⟨s1, varGroups 5 v, e1, e3, hleb, fun bs2 h2 => IsLEB128.unique bs2 _ v h2 hleb,
    ?_, ?_, ?_⟩
  · rintro rfl; decide
  · rintro rfl; decide
  · rintro rfl; decide

theorem C5_varint_leb128_witness :
    WF (ofCapacity 4) ∧
      ∃ s1 bs, WriteVarInt 300 (ofCapacity 4) = .ok () s1 ∧
        contents s1 = contents (ofCapacity 4) ++ bs ∧ IsLEB128 300 bs ∧
        (∀ bs2, IsLEB128 300 bs2 → bs2 = bs) ∧
        ((300 : Nat) = 300 → bs = [0xAC, 0x02]) ∧ ((300 : Nat) = 1 → bs = [0x01]) ∧
        ((300 : Nat) = 127 → bs = [0x7F]) :=
  ⟨WF.ofCapacity (by decide) (by decide),
    C5_varint_leb128 (ofCapacity 4) (WF.ofCapacity (by decide) (by decide)) (by decide) 300
      (by decide)⟩

/-- C6: on a well-formed buffer, `WriteVarInt(v)` for a 32-bit `v` appends `VarIntBytes(v)`
bytes, a number between 1 and 5; at the boundaries 0, 127, 128, 16383, 16384, 2097151,
2097152, 268435455, 268435456 and 4294967295 it is 1, 1, 2, 2, 3, 3, 4, 4, 5 and 5. -/
theorem C6_varint_length (s : ByteBufferImpl) (hs : WF s)
    (hpos : writePos s + 5 < SIZE_RANGE) (v : Nat) (hv : v < UINT32_RANGE) :
    (∃ s1 bs, WriteVarInt v s = .ok () s1 ∧ contents s1 = contents s ++ bs ∧
      bs.length = VarIntBytes v ∧ s1.readableBytes = s.readableBytes + VarIntBytes v) ∧
    1 ≤ VarIntBytes v ∧ VarIntBytes v ≤ 5 ∧
    VarIntBytes 0 = 1 ∧ VarIntBytes 127 = 1 ∧ VarIntBytes 128 = 2 ∧ VarIntBytes 16383 = 2 ∧
    VarIntBytes 16384 = 3 ∧ VarIntBytes 2097151 = 3 ∧ VarIntBytes 2097152 = 4 ∧
    VarIntBytes 268435455 = 4 ∧ VarIntBytes 268435456 = 5 ∧ VarIntBytes 4294967295 = 5 := by
  have hv' : v < 4294967296 := hv
  obtain ⟨s1, e1, e2, e3, e4⟩ := hs.writeVarInt hpos hv
  have hlen : (varGroups 5 v).length = VarIntBytes v := by
    rw [length_varGroups_five hv', VarIntBytes_eq hv']
  have h1 : 1 ≤ (varGroups 5 v).length := varGroups_length_pos 4 v
  have h5 := length_varGroups_le 5 v
  refine ⟨⟨s1, varGroups 5 v, e1, e3, hlen, by rw [e4, hlen]⟩, by omega, by omega, ?_⟩
  decide

theorem C6_varint_length_witness :
    WF (ofCapacity 4) ∧
      ∃ s1 bs, WriteVarInt 2097152 (ofCapacity 4) = .ok () s1 ∧
        contents s1 = contents (ofCapacity 4) ++ bs ∧ bs.length = VarIntBytes 2097152 ∧
        s1.readableBytes = (ofCapacity 4).readableBytes + VarIntBytes 2097152 :=
  ⟨WF.ofCapacity (by decide) (by decide),
    (C6_varint_length (ofCapacity 4) (WF.ofCapacity (by decide) (by decide)) (by decide)
      2097152 (by decide)).1⟩

end

/-! ## VarInt errors, VarLong and fixed-width integers -/

section

open ByteBufferImpl ByteBuffer

/-- C7: on a well-formed buffer, `ReadVarInt` throws `IncompleteVarIntException` exactly when
fewer than 5 bytes are readable and all of them carry the continuation bit `0x80`; it throws
the "Invalid VarInt" exception exactly when the first 5 readable bytes all carry the bit; in
every other case it returns a value. -/
theorem C7_varint_errors (s : ByteBufferImpl) (hs : WF s) :
    ((∃ s1, ReadVarInt s = .raised .incompleteVarInt s1) ↔
      s.readableBytes < 5 ∧ ∀ b ∈ contents s, b &&& 0x80 ≠ 0) ∧
    ((∃ s1, ReadVarInt s = .raised .invalidVarInt s1) ↔
      5 ≤ s.readableBytes ∧ ∀ b ∈ (contents s).take 5, b &&& 0x80 ≠ 0) ∧
    (¬ (s.readableBytes < 5 ∧ ∀ b ∈ contents s, b &&& 0x80 ≠ 0) →
      ¬ (5 ≤ s.readableBytes ∧ ∀ b ∈ (contents s).take 5, b &&& 0x80 ≠ 0) →
      ∃ v s1, ReadVarInt s = .ok v s1) := by
  obtain ⟨h1, h2, h3⟩ := ReadVarInt_loop_scan 5 0 0 s hs
  have e1 := scan_exhausted_iff 5 (contents s)
  have e2 := scan_overlong_iff 5 (contents s)
  rw [hs.length_contents] at e1 e2
  rw [← e1, ← e2]
  unfold ReadVarInt
  cases hscan : scan 5 (contents s) with
  | terminated =>
    obtain ⟨v, s1, hv⟩ := h1 hscan
    refine ⟨⟨?_, fun h => by cases h⟩, ⟨?_, fun h => by cases h⟩, fun _ _ => ⟨v, s1, hv⟩⟩
    · rintro ⟨s2, h⟩; rw [hv] at h; cases h
    · rintro ⟨s2, h⟩; rw [hv] at h; cases h
  | exhausted =>
    obtain ⟨s1, hv⟩ := h2 hscan
    refine ⟨⟨fun _ => rfl, fun _ => ⟨s1, hv⟩⟩, ⟨?_, fun h => by cases h⟩,
      fun h => absurd rfl h⟩
    rintro ⟨s2, h⟩; rw [hv] at h; cases h
  | overlong =>
    obtain ⟨s1, hv⟩ := h3 hscan
    refine ⟨⟨?_, fun h => by cases h⟩, ⟨fun _ => rfl, fun _ => ⟨s1, hv⟩⟩,
      fun _ h => absurd rfl h⟩
    rintro ⟨s2, h⟩; rw [hv] at h; cases h

theorem C7_varint_errors_witness :
    WF (ofCapacity 4) ∧
      ((∃ s1, ReadVarInt (ofCapacity 4) = .raised .incompleteVarInt s1) ↔
        (ofCapacity 4).readableBytes < 5 ∧ ∀ b ∈ contents (ofCapacity 4), b &&& 0x80 ≠ 0) :=
  ⟨WF.ofCapacity (by decide) (by decide),
    (C7_varint_errors (ofCapacity 4) (WF.ofCapacity (by decide) (by decide))).1⟩

/-- C8: on a well-formed buffer, `WriteVarLong(v)` for a 64-bit `v` appends bytes such that
`ReadVarLong`, on any well-formed buffer whose readable bytes start with them, returns `v` and
consumes exactly those bytes; so on a buffer without unread bytes the write followed by
`ReadVarLong` returns `v` and the readable-byte count is back at its value before the
write. -/
theorem C8_varlong_roundtrip (s : ByteBufferImpl) (hs : WF s)
    (hpos : writePos s + 10 < SIZE_RANGE) (v : Nat) (hv : v < UINT64_RANGE) :
    ∃ s1 bs, WriteVarLong v s = .ok () s1 ∧ WF s1 ∧ contents s1 = contents s ++ bs ∧
      s1.readableBytes = s.readableBytes + bs.length ∧
      (∀ t rest, WF t → contents t = bs ++ rest →
        ∃ t1, ReadVarLong t = .ok v t1 ∧ contents t1 = rest ∧
          t1.readableBytes + bs.length = t.readableBytes) ∧
      (s.readableBytes = 0 →
        ∃ s2, ReadVarLong s1 = .ok v s2 ∧ s2.readableBytes = s.readableBytes) := by
  have hv' : v < 18446744073709551616 := hv
  obtain ⟨s1, e1, e2, e3, e4⟩ := hs.writeVarLong hpos hv
  have hread : ∀ t rest, WF t → contents t = varGroups 10 v ++ rest →
      ∃ t1, ReadVarLong t = .ok v t1 ∧ contents t1 = rest ∧
        t1.readableBytes + (varGroups 10 v).length = t.readableBytes := by
    intro t rest ht hc
    obtain ⟨t1, f1, f2, f3, f4, f5, f6⟩ :=
      ReadVarLong_loop_spec 9 0 0 v t rest ht hc (by norm_num; omega) (by norm_num)
        (by simpa using hv)
    exact ⟨t1, by simpa [ReadVarLong] using f1, f3, f5⟩
  refine ⟨s1, varGroups 10 v, e1, e2, e3, e4, hread, ?_⟩
  intro hempty
  rw [hs.contents_nil hempty, List.nil_append] at e3
  obtain ⟨s2, g1, g2, g3⟩ := hread s1 [] e2 (by rw [e3, List.append_nil])
  exact ⟨s2, g1, by omega⟩

theorem C8_varlong_roundtrip_witness :
    WF (ofCapacity 4) ∧ (18446744073709551615 : Nat) < UINT64_RANGE ∧
      ∃ s1 s2, WriteVarLong 18446744073709551615 (ofCapacity 4) = .ok () s1 ∧
        ReadVarLong s1 = .ok 18446744073709551615 s2 ∧
        s2.readableBytes = (ofCapacity 4).readableBytes := by
  obtain ⟨s1, bs, h1, _, _, _, _, h6⟩ :=
    C8_varlong_roundtrip (ofCapacity 4) (WF.ofCapacity (by decide) (by decide)) (by decide)
      18446744073709551615 (by decide)
  obtain ⟨s2, h7, h8⟩ := h6 rfl
  exact ⟨WF.ofCapacity (by decide) (by decide), by decide, s1, s2, h1, h7, h8⟩

/-- C9: on a well-formed buffer, `WriteVarLong(v)` for a 64-bit `v` appends `VarLongBytes(v)`
bytes, at most 10, and 10 exactly when bit 63 of `v` is set. -/
theorem C9_varlong_length (s : ByteBufferImpl) (hs : WF s)
    (hpos : writePos s + 10 < SIZE_RANGE) (v : Nat) (hv : v < UINT64_RANGE) :
    (∃ s1 bs, WriteVarLong v s = .ok () s1 ∧ contents s1 = contents s ++ bs ∧
      bs.length = VarLongBytes v ∧ s1.readableBytes = s.readableBytes + VarLongBytes v) ∧
    VarLongBytes v ≤ 10 ∧ (VarLongBytes v = 10 ↔ v.testBit 63 = true) := by
  have hv' : v < 18446744073709551616 := hv
  obtain ⟨s1, e1, e2, e3, e4⟩ := hs.writeVarLong hpos hv
  have hlen : (varGroups 10 v).length = VarLongBytes v := by
    rw [length_varGroups_ten hv', VarLongBytes_eq hv']
  have h10 := length_varGroups_le 10 v
  refine ⟨⟨s1, varGroups 10 v, e1, e3, hlen, by rw [e4, hlen]⟩, by omega, ?_⟩
  rw [testBit_63_iff hv', VarLongBytes_eq hv']
  split_ifs <;> omega

theorem C9_varlong_length_witness :
    WF (ofCapacity 4) ∧
      (VarLongBytes 9223372036854775808 = 10 ↔
        (9223372036854775808 : Nat).testBit 63 = true) :=
  ⟨WF.ofCapacity (by decide) (by decide),
    (C9_varlong_length (ofCapacity 4) (WF.ofCapacity (by decide) (by decide)) (by decide)
      9223372036854775808 (by decide)).2.2⟩

theorem WF.readable_of_contents {s s1 : ByteBufferImpl} (hs : WF s) (hs1 : WF s1)
    {bs : List Nat} (h : contents s1 = contents s ++ bs) :
    s1.readableBytes = s.readableBytes + bs.length := by
  have := congrArg List.length h
  rw [hs1.length_contents, List.length_append, hs.length_contents] at this
  exact this

/-- C10: on a well-formed buffer, `WriteShort`, `WriteMedium`, `WriteInt` and `WriteLong`
append exactly 2, 3, 4 and 8 bytes, most significant byte first: for width `w`, byte `i` is
`(v >> 8 * (w - 1 - i)) mod 256`. -/
theorem C10_big_endian (s : ByteBufferImpl) (hs : WF s) (hpos : writePos s + 8 < SIZE_RANGE)
    (v : Nat) :
    (∃ s1, WriteShort v s = .ok () s1 ∧ contents s1 = contents s ++ bigEndian 2 v ∧
      s1.readableBytes = s.readableBytes + 2) ∧
    (∃ s1, WriteMedium v s = .ok () s1 ∧ contents s1 = contents s ++ bigEndian 3 v ∧
      s1.readableBytes = s.readableBytes + 3) ∧
    (∃ s1, WriteInt v s = .ok () s1 ∧ contents s1 = contents s ++ bigEndian 4 v ∧
      s1.readableBytes = s.readableBytes + 4) ∧
    (∃ s1, WriteLong v s = .ok () s1 ∧ contents s1 = contents s ++ bigEndian 8 v ∧
      s1.readableBytes = s.readableBytes + 8) := by
  refine ⟨?_, ?_, ?_, ?_⟩
  · obtain ⟨t1, a1, b1, c1, _, p1⟩ := hs.writeByte (v >>> 8) (by omega)
    obtain ⟨t2, a2, b2, c2, _, p2⟩ := b1.writeByte v (by omega)
    have hc : contents t2 = contents s ++ bigEndian 2 v := by
      rw [c2, c1, List.append_assoc]; rfl
    refine ⟨t2, ?_, hc, hs.readable_of_contents b2 hc⟩
    simp only [WriteShort, a1, Res.bind, a2]
  · obtain ⟨t1, a1, b1, c1, _, p1⟩ := hs.writeByte (v >>> 16) (by omega)
    obtain ⟨t2, a2, b2, c2, _, p2⟩ := b1.writeByte (v >>> 8) (by omega)
    obtain ⟨t3, a3, b3, c3, _, p3⟩ := b2.writeByte v (by omega)
    have hc : contents t3 = contents s ++ bigEndian 3 v := by
      rw [c3, c2, c1]; simp only [List.append_assoc]; rfl
    refine ⟨t3, ?_, hc, hs.readable_of_contents b3 hc⟩
    simp only [WriteMedium, a1, Res.bind, a2, a3]
  · obtain ⟨t1, a1, b1, c1, _, p1⟩ := hs.writeByte (v >>> 24) (by omega)
    obtain ⟨t2, a2, b2, c2, _, p2⟩ := b1.writeByte (v >>> 16) (by omega)
    obtain ⟨t3, a3, b3, c3, _, p3⟩ := b2.writeByte (v >>> 8) (by omega)
    obtain ⟨t4, a4, b4, c4, _, p4⟩ := b3.writeByte v (by omega)
    have hc : contents t4 = contents s ++ bigEndian 4 v := by
      rw [c4, c3, c2, c1]; simp only [List.append_assoc]; rfl
    refine ⟨t4, ?_, hc, hs.readable_of_contents b4 hc⟩
    simp only [WriteInt, a1, Res.bind, a2, a3, a4]
  · obtain ⟨t1, a1, b1, c1, _, p1⟩ := hs.writeByte (v >>> 56) (by omega)
    obtain ⟨t2, a2, b2, c2, _, p2⟩ := b1.writeByte (v >>> 48) (by omega)
    obtain ⟨t3, a3, b3, c3, _, p3⟩ := b2.writeByte (v >>> 40) (by omega)
    obtain ⟨t4, a4, b4, c4, _, p4⟩ := b3.writeByte (v >>> 32) (by omega)
    obtain ⟨t5, a5, b5, c5, _, p5⟩ := b4.writeByte (v >>> 24) (by omega)
    obtain ⟨t6, a6, b6, c6, _, p6⟩ := b5.writeByte (v >>> 16) (by omega)
    obtain ⟨t7, a7, b7, c7, _, p7⟩ := b6.writeByte (v >>> 8) (by omega)
    obtain ⟨t8, a8, b8, c8, _, p8⟩ := b7.writeByte v (by omega)
    have hc : contents t8 = contents s ++ bigEndian 8 v := by
      rw [c8, c7, c6, c5, c4, c3, c2, c1]; simp only [List.append_assoc]; rfl
    refine ⟨t8, ?_, hc, hs.readable_of_contents b8 hc⟩
    simp only [WriteLong, a1, Res.bind, a2, a3, a4, a5, a6, a7, a8]

theorem C10_big_endian_witness :
    WF (ofCapacity 4) ∧
      ∃ s1, WriteInt 0x01020304 (ofCapacity 4) = .ok () s1 ∧
        contents s1 = contents (ofCapacity 4) ++ bigEndian 4 0x01020304 ∧
        s1.readableBytes = (ofCapacity 4).readableBytes + 4 :=
  ⟨WF.ofCapacity (by decide) (by decide),
    (C10_big_endian (ofCapacity 4) (WF.ofCapacity (by decide) (by decide)) (by decide)
      0x01020304).2.2.1⟩

end

/-! ## Fixed-width round trips -/

section

open ByteBufferImpl ByteBuffer

/-- A bitwise or of a multiple of `2^k` with a value below `2^k` is their sum. -/
theorem or_eq_add (k x y : Nat) (hx : x % 2 ^ k = 0) (hy : y < 2 ^ k) : x ||| y = x + y := by
  obtain ⟨q, rfl⟩ := Nat.dvd_of_mod_eq_zero hx
  exact (Nat.mul_add_lt_is_or hy q).symm

theorem join2 (b1 b2 : Nat) (h2 : b2 < 256) : b1 <<< 8 ||| b2 = b1 * 256 + b2 := by
  rw [or_eq_add 8 _ _ (by rw [Nat.shiftLeft_eq]; omega) (by omega), Nat.shiftLeft_eq]

theorem join3 (b1 b2 b3 : Nat) (h2 : b2 < 256) (h3 : b3 < 256) :
    b1 <<< 16 ||| b2 <<< 8 ||| b3 = (b1 * 256 + b2) * 256 + b3 := by
  simp only [Nat.shiftLeft_eq]
  rw [or_eq_add 16 (b1 * 2 ^ 16) (b2 * 2 ^ 8) (by omega) (by omega),
    or_eq_add 8 _ b3 (by omega) (by omega)]
  omega

theorem join4 (b1 b2 b3 b4 : Nat) (h2 : b2 < 256) (h3 : b3 < 256) (h4 : b4 < 256) :
    b1 <<< 24 ||| b2 <<< 16 ||| b3 <<< 8 ||| b4 = ((b1 * 256 + b2) * 256 + b3) * 256 + b4 := by
  simp only [Nat.shiftLeft_eq]
  rw [or_eq_add 24 (b1 * 2 ^ 24) (b2 * 2 ^ 16) (by omega) (by omega),
    or_eq_add 16 _ (b3 * 2 ^ 8) (by omega) (by omega), or_eq_add 8 _ b4 (by omega) (by omega)]
  omega

theorem join8 (b1 b2 b3 b4 b5 b6 b7 b8 : Nat) (h2 : b2 < 256) (h3 : b3 < 256) (h4 : b4 < 256)
    (h5 : b5 < 256) (h6 : b6 < 256) (h7 : b7 < 256) (h8 : b8 < 256) :
    b1 <<< 56 ||| b2 <<< 48 ||| b3 <<< 40 ||| b4 <<< 32 ||| b5 <<< 24 ||| b6 <<< 16
        ||| b7 <<< 8 ||| b8
      = ((((((b1 * 256 + b2) * 256 + b3) * 256 + b4) * 256 + b5) * 256 + b6) * 256 + b7) * 256
        + b8 := by
  simp only [Nat.shiftLeft_eq]
  rw [or_eq_add 56 (b1 * 2 ^ 56) (b2 * 2 ^ 48) (by omega) (by omega),
    or_eq_add 48 _ (b3 * 2 ^ 40) (by omega) (by omega),
    or_eq_add 40 _ (b4 * 2 ^ 32) (by omega) (by omega),
    or_eq_add 32 _ (b5 * 2 ^ 24) (by omega) (by omega),
    or_eq_add 24 _ (b6 * 2 ^ 16) (by omega) (by omega),
    or_eq_add 16 _ (b7 * 2 ^ 8) (by omega) (by omega), or_eq_add 8 _ b8 (by omega) (by omega)]
  omega

theorem bigEndian_two (v : Nat) : bigEndian 2 v = [v / 256 % 256, v % 256] := by
  simp [bigEndian, List.range_succ, Nat.shiftRight_eq_div_pow]

theorem bigEndian_three (v : Nat) : bigEndian 3 v = [v / 65536 % 256, v / 256 % 256, v % 256] := by
  simp [bigEndian, List.range_succ, Nat.shiftRight_eq_div_pow]

theorem bigEndian_four (v : Nat) :
    bigEndian 4 v = [v / 16777216 % 256, v / 65536 % 256, v / 256 % 256, v % 256] := by
  simp [bigEndian, List.range_succ, Nat.shiftRight_eq_div_pow]

theorem bigEndian_eight (v : Nat) :
    bigEndian 8 v = [v / 72057594037927936 % 256, v / 281474976710656 % 256,
      v / 1099511627776 % 256, v / 4294967296 % 256, v / 16777216 % 256, v / 65536 % 256,
      v / 256 % 256, v % 256] := by
  simp [bigEndian, List.range_succ, Nat.shiftRight_eq_div_pow]

theorem RoundTrips.intro {α : Type} {write : ByteBufferImpl → Res Unit}
    {read : ByteBufferImpl → Res α} {v : α} {s s1 : ByteBufferImpl} (hs : WF s) (bs : List Nat)
    (hw : write s = .ok () s1) (hs1 : WF s1) (hc : contents s1 = contents s ++ bs)
    (hr : ∀ t rest, WF t → contents t = bs ++ rest →
      ∃ t1, read t = .ok v t1 ∧ WF t1 ∧ contents t1 = rest ∧
        t1.readableBytes + bs.length = t.readableBytes) :
    RoundTrips write read v s := by
  have hrb := hs.readable_of_contents hs1 hc
  refine ⟨s1, bs, hw, hs1, hc, hrb, hr, ?_⟩
  intro hempty
  rw [hs.contents_nil hempty, List.nil_append] at hc
  obtain ⟨s2, g1, _, _, g3⟩ := hr s1 [] hs1 (by rw [hc, List.append_nil])
  exact ⟨s2, g1, by omega⟩

theorem WF.writeBoolean {s : ByteBufferImpl} (hs : WF s) (hpos : writePos s + 1 < SIZE_RANGE)
    (b : Bool) :
    ∃ s1, WriteBoolean b s = .ok () s1 ∧ WF s1 ∧
      contents s1 = contents s ++ [if b then 1 else 0] ∧
      s1.singleCapacity = s.singleCapacity ∧ writePos s1 = writePos s + 1 := by
  obtain ⟨t1, a1, b1, c1, d1, p1⟩ := hs.writeByte (if b then 1 else 0) hpos
  refine ⟨t1, a1, b1, ?_, d1, p1⟩
  rw [c1]
  cases b <;> rfl

theorem WF.writeShort {s : ByteBufferImpl} (hs : WF s) (hpos : writePos s + 2 < SIZE_RANGE)
    (v : Nat) :
    ∃ s1, WriteShort v s = .ok () s1 ∧ WF s1 ∧ contents s1 = contents s ++ bigEndian 2 v ∧
      s1.singleCapacity = s.singleCapacity ∧ writePos s1 = writePos s + 2 := by
  obtain ⟨t1, a1, b1, c1, d1, p1⟩ := hs.writeByte (v >>> 8) (by omega)
  obtain ⟨t2, a2, b2, c2, d2, p2⟩ := b1.writeByte v (by omega)
  refine ⟨t2, ?_, b2, ?_, by omega, by omega⟩
  · simp only [WriteShort, a1, Res.bind, a2]
  · rw [c2, c1, List.append_assoc]; rfl

theorem WF.writeMedium {s : ByteBufferImpl} (hs : WF s) (hpos : writePos s + 3 < SIZE_RANGE)
    (v : Nat) :
    ∃ s1, WriteMedium v s = .ok () s1 ∧ WF s1 ∧ contents s1 = contents s ++ bigEndian 3 v ∧
      s1.singleCapacity = s.singleCapacity ∧ writePos s1 = writePos s + 3 := by
  obtain ⟨t1, a1, b1, c1, d1, p1⟩ := hs.writeByte (v >>> 16) (by omega)
  obtain ⟨t2, a2, b2, c2, d2, p2⟩ := b1.writeByte (v >>> 8) (by omega)
  obtain ⟨t3, a3, b3, c3, d3, p3⟩ := b2.writeByte v (by omega)
  refine ⟨t3, ?_, b3, ?_, by omega, by omega⟩
  · simp only [WriteMedium, a1, Res.bind, a2, a3]
  · rw [c3, c2, c1]; simp only [List.append_assoc]; rfl

theorem WF.writeInt {s : ByteBufferImpl} (hs : WF s) (hpos : writePos s + 4 < SIZE_RANGE)
    (v : Nat) :
    ∃ s1, WriteInt v s = .ok () s1 ∧ WF s1 ∧ contents s1 = contents s ++ bigEndian 4 v ∧
      s1.singleCapacity = s.singleCapacity ∧ writePos s1 = writePos s + 4 := by
  obtain ⟨t1, a1, b1, c1, d1, p1⟩ := hs.writeByte (v >>> 24) (by omega)
  obtain ⟨t2, a2, b2, c2, d2, p2⟩ := b1.writeByte (v >>> 16) (by omega)
  obtain ⟨t3, a3, b3, c3, d3, p3⟩ := b2.writeByte (v >>> 8) (by omega)
  obtain ⟨t4, a4, b4, c4, d4, p4⟩ := b3.writeByte v (by omega)
  refine ⟨t4, ?_, b4, ?_, by omega, by omega⟩
  · simp only [WriteInt, a1, Res.bind, a2, a3, a4]
  · rw [c4, c3, c2, c1]; simp only [List.append_assoc]; rfl

theorem WF.writeLong {s : ByteBufferImpl} (hs : WF s) (hpos : writePos s + 8 < SIZE_RANGE)
    (v : Nat) :
    ∃ s1, WriteLong v s = .ok () s1 ∧ WF s1 ∧ contents s1 = contents s ++ bigEndian 8 v ∧
      s1.singleCapacity = s.singleCapacity ∧ writePos s1 = writePos s + 8 := by
  obtain ⟨t1, a1, b1, c1, d1, p1⟩ := hs.writeByte (v >>> 56) (by omega)
  obtain ⟨t2, a2, b2, c2, d2, p2⟩ := b1.writeByte (v >>> 48) (by omega)
  obtain ⟨t3, a3, b3, c3, d3, p3⟩ := b2.writeByte (v >>> 40) (by omega)
  obtain ⟨t4, a4, b4, c4, d4, p4⟩ := b3.writeByte (v >>> 32) (by omega)
  obtain ⟨t5, a5, b5, c5, d5, p5⟩ := b4.writeByte (v >>> 24) (by omega)
  obtain ⟨t6, a6, b6, c6, d6, p6⟩ := b5.writeByte (v >>> 16) (by omega)
  obtain ⟨t7, a7, b7, c7, d7, p7⟩ := b6.writeByte (v >>> 8) (by omega)
  obtain ⟨t8, a8, b8, c8, d8, p8⟩ := b7.writeByte v (by omega)
  refine ⟨t8, ?_, b8, ?_, by omega, by omega⟩
  · simp only [WriteLong, a1, Res.bind, a2, a3, a4, a5, a6, a7, a8]
  · rw [c8, c7, c6, c5, c4, c3, c2, c1]; simp only [List.append_assoc]; rfl

theorem WF.readBoolean {s : ByteBufferImpl} (hs : WF s) {b : Nat} {l : List Nat}
    (hc : contents s = b :: l) :
    ∃ s1, ReadBoolean s = .ok (b != 0) s1 ∧ WF s1 ∧ contents s1 = l ∧
      s1.singleCapacity = s.singleCapacity ∧ s1.readableBytes + 1 = s.readableBytes ∧
      writePos s1 ≤ writePos s := by
  obtain ⟨t1, a1, b1, c1, d1, r1, p1⟩ := hs.readByteUnsafe_cons hc
  refine ⟨t1, ?_, b1, c1, d1, r1, p1⟩
  unfold ReadBoolean
  rw [if_neg (by simp only [GetReadableBytes]; omega), a1]
  rfl

theorem WF.readShort {s : ByteBufferImpl} (hs : WF s) {b1 b2 : Nat} {l : List Nat}
    (hc : contents s = b1 :: b2 :: l) :
    ∃ s1, ReadShort s = .ok ((b1 <<< 8 ||| b2) % 65536) s1 ∧ WF s1 ∧ contents s1 = l ∧
      s1.singleCapacity = s.singleCapacity ∧ s1.readableBytes + 2 = s.readableBytes ∧
      writePos s1 ≤ writePos s := by
  obtain ⟨t1, a1, w1, c1, d1, r1, p1⟩ := hs.readByteUnsafe_cons hc
  obtain ⟨t2, a2, w2, c2, d2, r2, p2⟩ := w1.readByteUnsafe_cons c1
  refine ⟨t2, ?_, w2, c2, by omega, by omega, by omega⟩
  unfold ReadShort
  rw [if_neg (by simp only [GetReadableBytes]; omega)]
  simp only [a1, Res.bind, a2]

theorem WF.readMedium {s : ByteBufferImpl} (hs : WF s) {b1 b2 b3 : Nat} {l : List Nat}
    (hc : contents s = b1 :: b2 :: b3 :: l) :
    ∃ s1, ReadMedium s = .ok ((b1 <<< 16 ||| b2 <<< 8 ||| b3) % UINT32_RANGE) s1 ∧ WF s1 ∧
      contents s1 = l ∧
      s1.singleCapacity = s.singleCapacity ∧ s1.readableBytes + 3 = s.readableBytes ∧
      writePos s1 ≤ writePos s := by
  obtain ⟨t1, a1, w1, c1, d1, r1, p1⟩ := hs.readByteUnsafe_cons hc
  obtain ⟨t2, a2, w2, c2, d2, r2, p2⟩ := w1.readByteUnsafe_cons c1
  obtain ⟨t3, a3, w3, c3, d3, r3, p3⟩ := w2.readByteUnsafe_cons c2
  refine ⟨t3, ?_, w3, c3, by omega, by omega, by omega⟩
  unfold ReadMedium
  rw [if_neg (by simp only [GetReadableBytes]; omega)]
  simp only [a1, Res.bind, a2, a3]

theorem WF.readInt {s : ByteBufferImpl} (hs : WF s) {b1 b2 b3 b4 : Nat} {l : List Nat}
    (hc : contents s = b1 :: b2 :: b3 :: b4 :: l) :
    ∃ s1, ReadInt s = .ok ((b1 <<< 24 ||| b2 <<< 16 ||| b3 <<< 8 ||| b4) % UINT32_RANGE) s1 ∧
      WF s1 ∧ contents s1 = l ∧
      s1.singleCapacity = s.singleCapacity ∧ s1.readableBytes + 4 = s.readableBytes ∧
      writePos s1 ≤ writePos s := by
  obtain ⟨t1, a1, w1, c1, d1, r1, p1⟩ := hs.readByteUnsafe_cons hc
  obtain ⟨t2, a2, w2, c2, d2, r2, p2⟩ := w1.readByteUnsafe_cons c1
  obtain ⟨t3, a3, w3, c3, d3, r3, p3⟩ := w2.readByteUnsafe_cons c2
  obtain ⟨t4, a4, w4, c4, d4, r4, p4⟩ := w3.readByteUnsafe_cons c3
  refine ⟨t4, ?_, w4, c4, by omega, by omega, by omega⟩
  unfold ReadInt
  rw [if_neg (by simp only [GetReadableBytes]; omega)]
  simp only [a1, Res.bind, a2, a3, a4]

theorem WF.readLong {s : ByteBufferImpl} (hs : WF s) {b1 b2 b3 b4 b5 b6 b7 b8 : Nat}
    {l : List Nat} (hc : contents s = b1 :: b2 :: b3 :: b4 :: b5 :: b6 :: b7 :: b8 :: l) :
    ∃ s1, ReadLong s = .ok ((b1 <<< 56 ||| b2 <<< 48 ||| b3 <<< 40 ||| b4 <<< 32
        ||| b5 <<< 24 ||| b6 <<< 16 ||| b7 <<< 8 ||| b8) % UINT64_RANGE) s1 ∧
      WF s1 ∧ contents s1 = l ∧
      s1.singleCapacity = s.singleCapacity ∧ s1.readableBytes + 8 = s.readableBytes ∧
      writePos s1 ≤ writePos s := by
  obtain ⟨t1, a1, w1, c1, d1, r1, p1⟩ := hs.readByteUnsafe_cons hc
  obtain ⟨t2, a2, w2, c2, d2, r2, p2⟩ := w1.readByteUnsafe_cons c1
  obtain ⟨t3, a3, w3, c3, d3, r3, p3⟩ := w2.readByteUnsafe_cons c2
  obtain ⟨t4, a4, w4, c4, d4, r4, p4⟩ := w3.readByteUnsafe_cons c3
  obtain ⟨t5, a5, w5, c5, d5, r5, p5⟩ := w4.readByteUnsafe_cons c4
  obtain ⟨t6, a6, w6, c6, d6, r6, p6⟩ := w5.readByteUnsafe_cons c5
  obtain ⟨t7, a7, w7, c7, d7, r7, p7⟩ := w6.readByteUnsafe_cons c6
  obtain ⟨t8, a8, w8, c8, d8, r8, p8⟩ := w7.readByteUnsafe_cons c7
  refine ⟨t8, ?_, w8, c8, by omega, by omega, by omega⟩
  unfold ReadLong
  rw [if_neg (by simp only [GetReadableBytes]; omega)]
  simp only [a1, Res.bind, a2, a3, a4, a5, a6, a7, a8]

/-- Reading back the big-endian bytes of a 16-bit value. -/
theorem WF.readShort_bigEndian {s : ByteBufferImpl} (hs : WF s) {v : Nat} (hv : v < 65536)
    {l : List Nat} (hc : contents s = bigEndian 2 v ++ l) :
    ∃ s1, ReadShort s = .ok v s1 ∧ WF s1 ∧ contents s1 = l ∧
      s1.singleCapacity = s.singleCapacity ∧ s1.readableBytes + 2 = s.readableBytes ∧
      writePos s1 ≤ writePos s := by
  rw [bigEndian_two] at hc
  obtain ⟨s1, a, r⟩ := hs.readShort hc
  rw [join2 _ _ (by omega)] at a
  refine ⟨s1, ?_, r⟩
  rw [a]
  congr 1
  omega

theorem WF.readMedium_bigEndian {s : ByteBufferImpl} (hs : WF s) {v : Nat} (hv : v < 16777216)
    {l : List Nat} (hc : contents s = bigEndian 3 v ++ l) :
    ∃ s1, ReadMedium s = .ok v s1 ∧ WF s1 ∧ contents s1 = l ∧
      s1.singleCapacity = s.singleCapacity ∧ s1.readableBytes + 3 = s.readableBytes ∧
      writePos s1 ≤ writePos s := by
  rw [bigEndian_three] at hc
  obtain ⟨s1, a, r⟩ := hs.readMedium hc
  rw [join3 _ _ _ (by omega) (by omega)] at a
  refine ⟨s1, ?_, r⟩
  rw [a]
  congr 1
  simp only [UINT32_RANGE]
  omega

theorem WF.readInt_bigEndian {s : ByteBufferImpl} (hs : WF s) {v : Nat} (hv : v < 4294967296)
    {l : List Nat} (hc : contents s = bigEndian 4 v ++ l) :
    ∃ s1, ReadInt s = .ok v s1 ∧ WF s1 ∧ contents s1 = l ∧
      s1.singleCapacity = s.singleCapacity ∧ s1.readableBytes + 4 = s.readableBytes ∧
      writePos s1 ≤ writePos s := by
  rw [bigEndian_four] at hc
  obtain ⟨s1, a, r⟩ := hs.readInt hc
  rw [join4 _ _ _ _ (by omega) (by omega) (by omega)] at a
  refine ⟨s1, ?_, r⟩
  rw [a]
  congr 1
  simp only [UINT32_RANGE]
  omega

theorem WF.readLong_bigEndian {s : ByteBufferImpl} (hs : WF s) {v : Nat}
    (hv : v < 18446744073709551616) {l : List Nat} (hc : contents s = bigEndian 8 v ++ l) :
    ∃ s1, ReadLong s = .ok v s1 ∧ WF s1 ∧ contents s1 = l ∧
      s1.singleCapacity = s.singleCapacity ∧ s1.readableBytes + 8 = s.readableBytes ∧
      writePos s1 ≤ writePos s := by
  rw [bigEndian_eight] at hc
  obtain ⟨s1, a, r⟩ := hs.readLong hc
  rw [join8 _ _ _ _ _ _ _ _ (by omega) (by omega) (by omega) (by omega) (by omega) (by omega)
    (by omega)] at a
  refine ⟨s1, ?_, r⟩
  rw [a]
  congr 1
  simp only [UINT64_RANGE]
  omega

/-- C11: on a well-formed buffer, each fixed-width write appends bytes from which the matching
read, on any well-formed buffer whose readable bytes begin with them, returns the value
written and consumes exactly those bytes; on a buffer without unread bytes the read right
after the write returns the value. This holds for every `bool`, every 16-bit value with
`WriteShort`/`ReadShort`, every value below `2^24` with `WriteMedium`/`ReadMedium`, every
32-bit value with `WriteInt`/`ReadInt` and every 64-bit value with `WriteLong`/`ReadLong`. -/
theorem C11_fixed_roundtrip (s : ByteBufferImpl) (hs : WF s)
    (hpos : writePos s + 8 < SIZE_RANGE) :
    (∀ b : Bool, RoundTrips (WriteBoolean b) ReadBoolean b s) ∧
    (∀ v, v < 2 ^ 16 → RoundTrips (WriteShort v) ReadShort v s) ∧
    (∀ v, v < 2 ^ 24 → RoundTrips (WriteMedium v) ReadMedium v s) ∧
    (∀ v, v < 2 ^ 32 → RoundTrips (WriteInt v) ReadInt v s) ∧
    (∀ v, v < 2 ^ 64 → RoundTrips (WriteLong v) ReadLong v s) := by
  refine ⟨?_, ?_, ?_, ?_, ?_⟩
  · intro b
    obtain ⟨s1, a1, w1, c1, _, _⟩ := hs.writeBoolean (by omega) b
    refine RoundTrips.intro hs _ a1 w1 c1 ?_
    intro t rest ht hc
    obtain ⟨t1, e1, e2, e3, _, e5, _⟩ := ht.readBoolean hc
    refine ⟨t1, ?_, e2, e3, e5⟩
    rw [e1]
    cases b <;> rfl
  · intro v hv
    obtain ⟨s1, a1, w1, c1, _, _⟩ := hs.writeShort (by omega) v
    refine RoundTrips.intro hs _ a1 w1 c1 ?_
    intro t rest ht hc
    obtain ⟨t1, e1, e2, e3, _, e5, _⟩ := ht.readShort_bigEndian (by omega) hc
    exact ⟨t1, e1, e2, e3, e5⟩
  · intro v hv
    obtain ⟨s1, a1, w1, c1, _, _⟩ := hs.writeMedium (by omega) v
    refine RoundTrips.intro hs _ a1 w1 c1 ?_
    intro t rest ht hc
    obtain ⟨t1, e1, e2, e3, _, e5, _⟩ := ht.readMedium_bigEndian (by omega) hc
    exact ⟨t1, e1, e2, e3, e5⟩
  · intro v hv
    obtain ⟨s1, a1, w1, c1, _, _⟩ := hs.writeInt (by omega) v
    refine RoundTrips.intro hs _ a1 w1 c1 ?_
    intro t rest ht hc
    obtain ⟨t1, e1, e2, e3, _, e5, _⟩ := ht.readInt_bigEndian (by omega) hc
    exact ⟨t1, e1, e2, e3, e5⟩
  · intro v hv
    obtain ⟨s1, a1, w1, c1, _, _⟩ := hs.writeLong (by omega) v
    refine RoundTrips.intro hs _ a1 w1 c1 ?_
    intro t rest ht hc
    obtain ⟨t1, e1, e2, e3, _, e5, _⟩ := ht.readLong_bigEndian (by omega) hc
    exact ⟨t1, e1, e2, e3, e5⟩

theorem C11_fixed_roundtrip_witness :
    WF (ofCapacity 3) ∧ writePos (ofCapacity 3) + 8 < SIZE_RANGE ∧
      RoundTrips (WriteLong 0xFEDCBA9876543210) ReadLong 0xFEDCBA9876543210 (ofCapacity 3) :=
  ⟨WF.ofCapacity (by decide) (by decide), by decide,
    (C11_fixed_roundtrip (ofCapacity 3) (WF.ofCapacity (by decide) (by decide))
      (by decide)).2.2.2.2 0xFEDCBA9876543210 (by norm_num)⟩

end

/-! ## Strings -/

section

open ByteBufferImpl ByteBuffer

theorem copyInto_length {output chunk out : List Nat} {off : Nat}
    (h : copyInto output off chunk = some out) : out.length = output.length := by
  unfold copyInto at h
  split at h
  · injection h with h
    rw [← h]
    simp only [List.length_append, List.length_take, List.length_drop]
    omega
  · cases h

theorem ReadBytes_loop_length :
    ∀ (fuel : Nat) (output : List Nat) (bytesIndex size : Nat) (s : ByteBufferImpl)
      (r : List Nat × Nat × Nat) (s1 : ByteBufferImpl),
      ReadBytes.loop fuel output bytesIndex size s = .ok r s1 → r.1.length = output.length := by
  intro fuel
  induction fuel with
  | zero =>
    intro output bytesIndex size s r s1 h
    unfold ReadBytes.loop at h
    split at h
    · cases h
    · injection h with h1 _
      rw [← h1]
  | succ fuel ih =>
    intro output bytesIndex size s r s1 h
    unfold ReadBytes.loop at h
    split at h
    · split at h
      · cases h
      · split at h
        · cases h
        · next output1 hcopy =>
          obtain ⟨_, t, _, h2⟩ := Res.bind_eq_ok.mp h
          rw [ih _ _ _ _ _ _ h2, copyInto_length hcopy]
    · injection h with h1 _
      rw [← h1]

theorem ReadBytes_finish_length {output out : List Nat} {bytesIndex size : Nat}
    {s s1 : ByteBufferImpl} (h : ReadBytes.finish output bytesIndex size s = .ok out s1) :
    out.length = output.length := by
  unfold ReadBytes.finish at h
  split at h
  · cases h
  · split at h
    · cases h
    · next output1 hcopy =>
      injection h with h1 _
      rw [← h1, copyInto_length hcopy]

/-- The member function `ReadBytes` leaves the length of the caller's array as it is. -/
theorem ReadBytes_length {output out : List Nat} {size : Nat} {s s1 : ByteBufferImpl}
    (h : ByteBufferImpl.ReadBytes output size s = .ok out s1) : out.length = output.length := by
  unfold ByteBufferImpl.ReadBytes at h
  split at h
  · cases h
  · obtain ⟨_, t, _, h2⟩ := Res.bind_eq_ok.mp h
    split at h2
    · split at h2
      · cases h2
      · split at h2
        · cases h2
        · next output1 hcopy =>
          obtain ⟨_, t2, _, h3⟩ := Res.bind_eq_ok.mp h2
          obtain ⟨r, t3, h4, h5⟩ := Res.bind_eq_ok.mp h3
          rw [ReadBytes_finish_length h5, ReadBytes_loop_length _ _ _ _ _ _ _ h4,
            copyInto_length hcopy]
    · exact ReadBytes_finish_length h2

theorem cString_length : ∀ (l r : List Nat), cString l = some r → r.length < l.length := by
  intro l
  induction l with
  | nil => intro r h; cases h
  | cons b bs ih =>
    intro r h
    unfold cString at h
    split at h
    · injection h with h
      rw [← h]
      simp
    · cases hc : cString bs with
      | none => rw [hc] at h; cases h
      | some r2 =>
        rw [hc] at h
        injection h with h
        rw [← h]
        have := ih r2 hc
        simp only [List.length_cons]
        omega

/-- The function `WriteString` on a well-formed buffer appends the groups of the length, then
the bytes. -/
theorem WF.writeString {s : ByteBufferImpl} (hs : WF s) (str : List Nat)
    (hlen : str.length < UINT32_RANGE) (hpos : writePos s + 5 + str.length < SIZE_RANGE) :
    ∃ s1, WriteString str s = .ok () s1 ∧ WF s1 ∧
      contents s1 = contents s ++ varGroups 5 str.length ++ str := by
  have hlen2 : str.length < 4294967296 := hlen
  obtain ⟨t, e1, e2, e3, e4, e5⟩ :=
    WriteVarInt_loop_spec 4 str.length s hs (by norm_num; omega) hlen2 (by omega)
  have hl := length_varGroups_le 5 str.length
  have e6 : writePos t = writePos s + (varGroups 5 str.length).length := e5
  obtain ⟨s1, f1, f2, f3, f4, f5⟩ := e2.writeBytes str (by omega)
  refine ⟨s1, ?_, f2, by rw [f3, e3]⟩
  unfold WriteString WriteVarInt
  rw [Nat.mod_eq_of_lt hlen, e1]
  exact f1

/-- The function `ReadVarInt` on the groups of a 32-bit value. -/
theorem WF.readVarInt {t : ByteBufferImpl} (ht : WF t) {v : Nat} (hv : v < UINT32_RANGE)
    {rest : List Nat} (hc : contents t = varGroups 5 v ++ rest) :
    ∃ t1, ReadVarInt t = .ok v t1 ∧ WF t1 ∧ contents t1 = rest ∧
      t1.singleCapacity = t.singleCapacity ∧
      t1.readableBytes + (varGroups 5 v).length = t.readableBytes := by
  have hv2 : v < 4294967296 := hv
  obtain ⟨t1, f1, f2, f3, f4, f5, f6⟩ :=
    ReadVarInt_loop_spec 4 0 0 v t rest ht hc (by norm_num; omega) (by norm_num)
      (by simpa using hv)
  exact ⟨t1, by simpa [ReadVarInt] using f1, f2, f3, f4, f5⟩

/-- What `ReadString` makes of a string written by `WriteString`: the bytes before its first
zero byte, and no defined result for a string without one. -/
theorem WF.readString_written {t : ByteBufferImpl} (ht : WF t) (str : List Nat)
    (hlen : str.length < UINT32_RANGE) (max_size : Nat) (hmax : str.length ≤ max_size)
    (hc : contents t = varGroups 5 str.length ++ str) :
    (∀ r, cString str = some r →
      ∃ t2, ReadString max_size t = .ok r t2 ∧ t2.readableBytes = 0) ∧
    (cString str = none → ReadString max_size t = .undefined) := by
  obtain ⟨t1, a1, a2, a3, a4, a5⟩ := ht.readVarInt hlen hc
  have hrb1 : t1.readableBytes = str.length := by rw [← a2.length_contents, a3]
  unfold ReadString
  rw [a1]
  simp only [Res.bind]
  rw [if_neg (by omega)]
  by_cases h0 : str.length = 0
  · have hnil : str = [] := List.length_eq_zero.mp h0
    subst hnil
    refine ⟨fun r hr => (by cases hr), fun _ => ?_⟩
    cases hrd : ByteBuffer.ReadBytes ([] : List Nat).length t1 with
    | undefined => rfl
    | raised e t2 => exact absurd hrd (by
        unfold ByteBuffer.ReadBytes ByteBufferImpl.ReadBytes
        rw [if_neg (by simp [GetReadableBytes])]
        exact Res.NoThrow.bind (TryRefreshReaderBuffer_noThrow _) (fun _ u => by
          split
          · split
            · exact Res.noThrow_undefined
            · split
              · exact Res.noThrow_undefined
              · exact Res.NoThrow.bind (PopBuffer_noThrow _) (fun _ u2 =>
                  Res.NoThrow.bind (ReadBytes_loop_noThrow _ _ _ _ _) (fun _ u3 =>
                    ReadBytes_finish_noThrow _ _ _ _))
          · exact ReadBytes_finish_noThrow _ _ _ _) e t2)
    | ok out t2 =>
      have hl := ReadBytes_length hrd
      rw [List.length_replicate] at hl
      have : out = [] := List.length_eq_zero.mp hl
      subst this
      rfl
  · obtain ⟨t2, b1, b2, b3, b4, b5, b6⟩ := a2.readBytes (List.replicate str.length 0) str.length
      (by omega) (by omega) (by rw [List.length_replicate]) (by omega)
    rw [a3, List.take_length, List.drop_of_length_le (by rw [List.length_replicate]),
      List.append_nil] at b1
    unfold ByteBuffer.ReadBytes
    rw [b1]
    refine ⟨fun r hr => ⟨t2, (by simp only [hr]), (by omega)⟩, fun hn => (by simp only [hn])⟩

/-- C12 (failing inputs): a string written by `WriteString` to a well-formed buffer without
unread bytes is never what `ReadString` returns, whatever the string: a string with a zero byte
comes back cut before its first zero byte (with all bytes written consumed), and for a string
without a zero byte the construction of the result reads past the array, so there is no defined
result. -/
theorem C12_string_truncated (s : ByteBufferImpl) (hs : WF s) (hempty : s.readableBytes = 0)
    (str : List Nat) (hlen : str.length < UINT32_RANGE)
    (hpos : writePos s + 5 + str.length < SIZE_RANGE) (max_size : Nat)
    (hmax : str.length ≤ max_size) :
    ∃ s1, WriteString str s = .ok () s1 ∧
      (∀ s2, ReadString max_size s1 ≠ .ok str s2) ∧
      (∀ r, cString str = some r →
        ∃ s2, ReadString max_size s1 = .ok r s2 ∧ s2.readableBytes = 0) ∧
      (cString str = none → ReadString max_size s1 = .undefined) := by
  obtain ⟨s1, e1, e2, e3⟩ := hs.writeString str hlen hpos
  rw [hs.contents_nil hempty, List.nil_append] at e3
  obtain ⟨g1, g2⟩ := e2.readString_written str hlen max_size hmax e3
  refine ⟨s1, e1, ?_, g1, g2⟩
  intro s2 h
  cases hc : cString str with
  | none => rw [g2 hc] at h; cases h
  | some r =>
    obtain ⟨s3, h3, _⟩ := g1 r hc
    rw [h3] at h
    injection h with h4 _
    have := cString_length str r hc
    rw [h4] at this
    omega

theorem C12_string_truncated_witness :
    WF (ofCapacity 16) ∧ cString [97, 0, 98] = some [97] ∧
      ∃ s1, WriteString [97, 0, 98] (ofCapacity 16) = .ok () s1 ∧
        ∃ s2, ReadString 65536 s1 = .ok [97] s2 ∧ s2.readableBytes = 0 := by
  obtain ⟨s1, h1, _, h3, _⟩ :=
    C12_string_truncated (ofCapacity 16) (WF.ofCapacity (by decide) (by decide)) rfl
      [97, 0, 98] (by decide) (by decide) 65536 (by decide)
  exact ⟨WF.ofCapacity (by decide) (by decide), rfl, s1, h1, h3 [97] rfl⟩

theorem ReadVarInt_loop_terminated :
    ∀ (pre : List Nat) (turns i d : Nat) (s : ByteBufferImpl) (payload : List Nat), WF s →
      contents s = pre ++ payload → pre.length ≤ turns →
      (∀ b ∈ pre.dropLast, b &&& 0x80 ≠ 0) →
      (∃ l, pre.getLast? = some l ∧ l &&& 0x80 = 0) →
      ∃ v s1, ReadVarInt.loop turns i d s = .ok v s1 ∧ WF s1 ∧ contents s1 = payload ∧
        s1.readableBytes + pre.length = s.readableBytes := by
  intro pre
  induction pre with
  | nil =>
    intro turns i d s payload _ _ _ _ hl
    obtain ⟨l, h, _⟩ := hl
    cases h
  | cons b bs ih =>
    intro turns i d s payload hs hc hlen hcont hlast
    rw [List.cons_append] at hc
    obtain ⟨k, rfl⟩ : ∃ k, turns = k + 1 := ⟨turns - 1, by simp at hlen; omega⟩
    obtain ⟨s1, a1, a2, a3, a4, a5, a6⟩ := hs.readByteUnsafe_cons hc
    have hrb := hs.readable_pos_of_cons hc
    unfold ReadVarInt.loop
    rw [if_neg (by simp only [GetReadableBytes]; omega), a1]
    simp only [Res.bind]
    by_cases hb : b &&& 0x80 = 0
    · rw [if_pos hb]
      have hbs : bs = [] := by
        cases bs with
        | nil => rfl
        | cons c cs =>
          exact absurd hb (hcont b (by simp [List.dropLast]))
      subst hbs
      exact ⟨_, s1, rfl, a2, by simpa using a3, by simpa using a5⟩
    · rw [if_neg hb]
      cases bs with
      | nil =>
        obtain ⟨l, h1, h2⟩ := hlast
        simp at h1
        subst h1
        exact absurd h2 hb
      | cons c cs =>
        obtain ⟨v, s2, b1, b2, b3, b4⟩ := ih k (i + 1) _ s1 payload a2 a3
          (by simp at hlen ⊢; omega)
          (fun x hx => hcont x (by simp [List.dropLast] at hx ⊢; exact Or.inr hx))
          (by simpa using hlast)
        exact ⟨v, s2, b1, b2, b3, by simp only [List.length_cons] at b4 ⊢; omega⟩

theorem IsLEB128.eq_varGroups {v : Nat} (hv : v < UINT32_RANGE) {pre : List Nat}
    (h : IsLEB128 v pre) : pre = varGroups 5 v := by
  have hv2 : v < 4294967296 := hv
  exact IsLEB128.unique pre _ v h (varGroups_isLEB128 4 v (by norm_num; omega))

/-- C13: on a well-formed buffer whose readable bytes are a terminated VarInt followed by
any payload, `ReadVarInt` returns a length `L` and leaves exactly the payload, the
readable-byte count lower by the length of the prefix; for every `max_size < L`,
`ReadString(max_size)` throws `InvalidArgumentException` with `L`, in that state. When the
prefix is the LEB128 encoding of a 32-bit value, `L` is that value. -/
theorem C13_string_too_long (t : ByteBufferImpl) (ht : WF t) (pre payload : List Nat)
    (hc : contents t = pre ++ payload) (hpre : IsVarInt pre) :
    ∃ L t1, ReadVarInt t = .ok L t1 ∧ WF t1 ∧ contents t1 = payload ∧
      t1.readableBytes + pre.length = t.readableBytes ∧
      (∀ max_size, max_size < L → ReadString max_size t = .raised (.invalidArgument L) t1) ∧
      (∀ v, v < UINT32_RANGE → IsLEB128 v pre → L = v) := by
  obtain ⟨h1, h2, h3⟩ := hpre
  obtain ⟨L, t1, a1, a2, a3, a4⟩ :=
    ReadVarInt_loop_terminated pre 5 0 0 t payload ht hc h1 h2 h3
  have a5 : ReadVarInt t = .ok L t1 := a1
  refine ⟨L, t1, a5, a2, a3, a4, ?_, ?_⟩
  · intro max_size hmax
    unfold ReadString
    rw [a5]
    simp only [Res.bind]
    rw [if_pos hmax]
  · intro v hv hleb
    rw [hleb.eq_varGroups hv] at hc
    obtain ⟨t2, b1, _⟩ := ht.readVarInt hv hc
    rw [a5] at b1
    injection b1

theorem C13_string_too_long_witness :
    ∃ s1, WriteString [97, 98, 99] (ofCapacity 16) = .ok () s1 ∧ IsVarInt [3] ∧
      ∃ t1, ReadString 2 s1 = .raised (.invalidArgument 3) t1 ∧ contents t1 = [97, 98, 99] ∧
        t1.readableBytes + 1 = s1.readableBytes := by
  have hv : IsVarInt [3] := ⟨by decide, by simp, 3, rfl, by decide⟩
  have hw : WF (ofCapacity 16) := WF.ofCapacity (by decide) (by decide)
  obtain ⟨s1, e1, e2, e3⟩ := hw.writeString [97, 98, 99] (by decide) (by decide)
  have hc : contents s1 = [3] ++ [97, 98, 99] := by rw [e3]; rfl
  obtain ⟨L, t1, a1, a2, a3, a4, a5, a6⟩ := C13_string_too_long s1 e2 [3] [97, 98, 99] hc hv
  have hL : L = 3 := a6 3 (by decide) (by
    refine ⟨rfl, by simp, by simp, 3, rfl, by decide, by simp⟩)
  subst hL
  exact ⟨s1, e1, hv, t1, a5 2 (by decide), a3, a4⟩

end

/-! ## Byte arrays -/

section

open ByteBufferImpl ByteBuffer

/-- The function `ByteBuffer::ReadBytes(size)` on a well-formed buffer returns the next `size`
readable bytes, for `size` between `1` and `2^32`. -/
theorem WF.readBytes_fresh {t : ByteBufferImpl} (ht : WF t) (size : Nat) (h1 : 1 ≤ size)
    (hrb : size ≤ t.readableBytes) (h32 : size ≤ UINT32_RANGE) :
    ∃ t1, ByteBuffer.ReadBytes size t = .ok ((contents t).take size) t1 ∧ WF t1 ∧
      contents t1 = (contents t).drop size ∧ t1.readableBytes + size = t.readableBytes := by
  obtain ⟨t1, b1, b2, b3, _, b5, _⟩ := ht.readBytes (List.replicate size 0) size h1 hrb
    (by rw [List.length_replicate]) h32
  rw [List.drop_of_length_le (by rw [List.length_replicate]), List.append_nil] at b1
  exact ⟨t1, b1, b2, b3, b5⟩

/-- The function `WriteByteArray` on well-formed buffers moves the readable bytes of the source
behind the groups of their number. -/
theorem WF.writeByteArray {s input : ByteBufferImpl} (hs : WF s) (hin : WF input)
    (writeBuffer : List Nat) (h1 : 1 ≤ input.readableBytes)
    (h32 : input.readableBytes < UINT32_RANGE)
    (hbuf : input.readableBytes ≤ writeBuffer.length)
    (hpos : writePos s + 5 + input.readableBytes < SIZE_RANGE) :
    ∃ input1 s1, WriteByteArray writeBuffer input s = .ok input1 s1 ∧ WF s1 ∧
      contents s1 = contents s ++ varGroups 5 input.readableBytes ++ contents input ∧
      input1.readableBytes = 0 := by
  have h32b : input.readableBytes < 4294967296 := h32
  obtain ⟨t, e1, e2, e3, e4, e5⟩ :=
    WriteVarInt_loop_spec 4 input.readableBytes s hs (by norm_num; omega) h32b (by omega)
  have hl := length_varGroups_le 5 input.readableBytes
  have e6 : writePos t = writePos s + (varGroups 5 input.readableBytes).length := e5
  obtain ⟨input1, r1, r2, r3, r4, r5, r6⟩ := hin.readBytes writeBuffer input.readableBytes h1
    (Nat.le_refl _) hbuf (by omega)
  have hlen := hin.length_contents
  have htake : ((contents input).take input.readableBytes
      ++ writeBuffer.drop input.readableBytes).take input.readableBytes = contents input := by
    rw [← hlen, List.take_length, List.take_left]
  obtain ⟨s1, f1, f2, f3, f4, f5⟩ := e2.writeBytes (contents input) (by omega)
  refine ⟨input1, s1, ?_, f2, by rw [f3, e3], by omega⟩
  unfold WriteByteArray WriteVarInt WriteBytesFrom
  simp only [GetReadableBytes]
  rw [Nat.mod_eq_of_lt h32, e1]
  simp only [Res.bind, r1]
  rw [if_pos (by
    simp only [List.length_append, List.length_take, List.length_drop]; omega), htake, f1]

/-- C14 (failing inputs): for a well-formed source holding `n ≥ 1` readable bytes `B` (with `n`
at most `max_size` and at most the size of the thread-local array), `WriteByteArray` into a
well-formed buffer without unread bytes followed by `ReadByteArray(max_size)` returns a new
buffer whose only segment holds `B` but whose readable-byte count is `0`, not `n`: reading `n`
bytes from it throws for lack of readable bytes. -/
theorem C14_byte_array_unreadable (s input : ByteBufferImpl) (hs : WF s)
    (hempty : s.readableBytes = 0) (hin : WF input) (writeBuffer : List Nat) (max_size : Nat)
    (h1 : 1 ≤ input.readableBytes) (h32 : input.readableBytes < UINT32_RANGE)
    (hbuf : input.readableBytes ≤ writeBuffer.length) (hmax : input.readableBytes ≤ max_size)
    (hpos : writePos s + 5 + input.readableBytes < SIZE_RANGE) :
    ∃ input1 s1 s2 result, WriteByteArray writeBuffer input s = .ok input1 s1 ∧
      ReadByteArray max_size s1 = .ok result s2 ∧
      result = ofRegion (contents input) input.readableBytes ∧
      result.readableBytes = 0 ∧
      ByteBuffer.ReadBytes input.readableBytes result
        = .raised (.notEnoughReadable .byteArray) result := by
  obtain ⟨input1, s1, e1, e2, e3, _⟩ := hs.writeByteArray hin writeBuffer h1 h32 hbuf hpos
  rw [hs.contents_nil hempty, List.nil_append] at e3
  obtain ⟨t1, a1, a2, a3, a4, a5⟩ := e2.readVarInt h32 e3
  have hrb1 : t1.readableBytes = input.readableBytes := by
    rw [← a2.length_contents, a3, hin.length_contents]
  obtain ⟨t2, b1, b2, b3, b4⟩ := a2.readBytes_fresh input.readableBytes h1 (by omega)
    (by omega)
  rw [a3, ← hin.length_contents, List.take_length] at b1
  refine ⟨input1, s1, t2, _, e1, ?_, rfl, rfl, ?_⟩
  · unfold ReadByteArray
    rw [a1]
    simp only [Res.bind]
    rw [if_neg (by omega), ← hin.length_contents, b1]
  · unfold ByteBuffer.ReadBytes ByteBufferImpl.ReadBytes
    rw [if_pos (by simp only [GetReadableBytes, ofRegion]; omega)]

theorem C14_byte_array_unreadable_witness :
    ∃ input, WriteBytes [7, 8, 9] (ofCapacity 4) = .ok () input ∧ contents input = [7, 8, 9] ∧
      ∃ input1 s1 s2, WriteByteArray (List.replicate 64 0) input (ofCapacity 16)
          = .ok input1 s1 ∧
        ReadByteArray 65536 s1 = .ok (ofRegion [7, 8, 9] 3) s2 ∧
        (ofRegion [7, 8, 9] 3).readableBytes = 0 ∧
        ByteBuffer.ReadBytes 3 (ofRegion [7, 8, 9] 3)
          = .raised (.notEnoughReadable .byteArray) (ofRegion [7, 8, 9] 3) := by
  have hw4 : WF (ofCapacity 4) := WF.ofCapacity (by decide) (by decide)
  obtain ⟨input, e1, e2, e3, e4, e5⟩ := hw4.writeBytes [7, 8, 9] (by decide)
  have hc : contents input = [7, 8, 9] := e3
  have hrb : input.readableBytes = 3 := by rw [← e2.length_contents, hc]; rfl
  obtain ⟨input1, s1, s2, result, a1, a2, a3, a4, a5⟩ :=
    C14_byte_array_unreadable (ofCapacity 16) input (WF.ofCapacity (by decide) (by decide))
      rfl e2 (List.replicate 64 0) 65536 (by omega) (by rw [hrb]; decide)
      (by rw [hrb]; decide) (by omega) (by rw [hrb]; decide)
  rw [hc, hrb] at a3
  subst a3
  rw [hrb] at a5
  exact ⟨input, e1, hc, input1, s1, s2, a1, a2, a4, a5⟩

end

/-! ## 128-bit identifiers -/

section

open ByteBufferImpl ByteBuffer

/-- Two 32-bit halves joined the way `ReadUUIDIntArray` joins them. -/
theorem join_halves (v : Nat) (hv : v < 18446744073709551616) :
    ((v >>> 32 % UINT32_RANGE) <<< 32) % UINT64_RANGE ||| (v % UINT32_RANGE &&& 0xFFFFFFFF)
      = v := by
  have hmask : v % UINT32_RANGE &&& 0xFFFFFFFF = v % UINT32_RANGE % 2 ^ 32 :=
    Nat.and_pow_two_sub_one_eq_mod _ 32
  rw [hmask]
  simp only [Nat.shiftLeft_eq, Nat.shiftRight_eq_div_pow, UINT32_RANGE, UINT64_RANGE]
  rw [or_eq_add 32 _ _ (by omega) (by omega)]
  omega

theorem WF.writeUUID {s : ByteBufferImpl} (hs : WF s) (hpos : writePos s + 16 < SIZE_RANGE)
    (u : UUID) :
    ∃ s1, WriteUUID u s = .ok () s1 ∧ WF s1 ∧
      contents s1
        = contents s ++ (bigEndian 8 u.mostSignificant ++ bigEndian 8 u.leastSignificant) := by
  obtain ⟨t1, a1, b1, c1, d1, p1⟩ := hs.writeLong (by omega) u.mostSignificant
  obtain ⟨t2, a2, b2, c2, d2, p2⟩ := b1.writeLong (by omega) u.leastSignificant
  refine ⟨t2, ?_, b2, by rw [c2, c1, List.append_assoc]⟩
  simp only [WriteUUID, a1, Res.bind, a2]

theorem WF.writeUUIDIntArray {s : ByteBufferImpl} (hs : WF s)
    (hpos : writePos s + 16 < SIZE_RANGE) (u : UUID) :
    ∃ s1, WriteUUIDIntArray u s = .ok () s1 ∧ WF s1 ∧
      contents s1
        = contents s ++ (bigEndian 4 (u.mostSignificant >>> 32 % UINT32_RANGE)
          ++ (bigEndian 4 (u.mostSignificant % UINT32_RANGE)
          ++ (bigEndian 4 (u.leastSignificant >>> 32 % UINT32_RANGE)
          ++ bigEndian 4 (u.leastSignificant % UINT32_RANGE)))) := by
  obtain ⟨t1, a1, b1, c1, d1, p1⟩ := hs.writeInt (by omega)
    (u.mostSignificant >>> 32 % UINT32_RANGE)
  obtain ⟨t2, a2, b2, c2, d2, p2⟩ := b1.writeInt (by omega) (u.mostSignificant % UINT32_RANGE)
  obtain ⟨t3, a3, b3, c3, d3, p3⟩ := b2.writeInt (by omega)
    (u.leastSignificant >>> 32 % UINT32_RANGE)
  obtain ⟨t4, a4, b4, c4, d4, p4⟩ := b3.writeInt (by omega) (u.leastSignificant % UINT32_RANGE)
  refine ⟨t4, ?_, b4, by rw [c4, c3, c2, c1]; simp only [List.append_assoc]⟩
  simp only [WriteUUIDIntArray, a1, Res.bind, a2, a3, a4]

theorem u32_lt (v : Nat) : v % UINT32_RANGE < 4294967296 := Nat.mod_lt _ (by decide)

/-- C15: on a well-formed buffer, for every identifier of two 64-bit halves, `WriteUUID`
appends the big-endian bytes of the most significant half, then of the least significant
half, and `WriteUUIDIntArray` appends the four big-endian quarters in the order MSB-high,
MSB-low, LSB-high, LSB-low; from either form the matching read (`ReadUUID`,
`ReadUUIDIntArray`), on any well-formed buffer beginning with those bytes, returns the same
pair and consumes exactly those bytes. -/
theorem C15_uuid_roundtrip (s : ByteBufferImpl) (hs : WF s)
    (hpos : writePos s + 16 < SIZE_RANGE) (u : UUID) (hm : u.mostSignificant < 2 ^ 64)
    (hl : u.leastSignificant < 2 ^ 64) :
    RoundTrips (WriteUUID u) ReadUUID u s ∧
    RoundTrips (WriteUUIDIntArray u) ReadUUIDIntArray u s ∧
    (∃ s1, WriteUUID u s = .ok () s1 ∧
      contents s1
        = contents s ++ (bigEndian 8 u.mostSignificant ++ bigEndian 8 u.leastSignificant)) ∧
    (∃ s1, WriteUUIDIntArray u s = .ok () s1 ∧
      contents s1
        = contents s ++ (bigEndian 4 (u.mostSignificant / 2 ^ 32)
          ++ (bigEndian 4 (u.mostSignificant % 2 ^ 32)
          ++ (bigEndian 4 (u.leastSignificant / 2 ^ 32)
          ++ bigEndian 4 (u.leastSignificant % 2 ^ 32))))) := by
  obtain ⟨s1, a1, w1, c1⟩ := hs.writeUUID hpos u
  obtain ⟨s2, a2, w2, c2⟩ := hs.writeUUIDIntArray hpos u
  refine ⟨?_, ?_, ⟨s1, a1, c1⟩, ⟨s2, a2, ?_⟩⟩
  · refine RoundTrips.intro hs _ a1 w1 c1 ?_
    intro t rest ht hc
    rw [List.append_assoc] at hc
    obtain ⟨t1, e1, e2, e3, _, e5, _⟩ := ht.readLong_bigEndian (by omega) hc
    obtain ⟨t2, f1, f2, f3, _, f5, _⟩ := e2.readLong_bigEndian (by omega) e3
    refine ⟨t2, ?_, f2, f3, ?_⟩
    · simp only [ReadUUID, e1, Res.bind, f1]
    · simp only [List.length_append, bigEndian, List.length_map, List.length_range]
      omega
  · refine RoundTrips.intro hs _ a2 w2 c2 ?_
    intro t rest ht hc
    simp only [List.append_assoc] at hc
    obtain ⟨t1, e1, e2, e3, _, e5, _⟩ := ht.readInt_bigEndian (u32_lt _) hc
    obtain ⟨t2, f1, f2, f3, _, f5, _⟩ := e2.readInt_bigEndian (u32_lt _) e3
    obtain ⟨t3, g1, g2, g3, _, g5, _⟩ := f2.readInt_bigEndian (u32_lt _) f3
    obtain ⟨t4, k1, k2, k3, _, k5, _⟩ := g2.readInt_bigEndian (u32_lt _) g3
    refine ⟨t4, ?_, k2, k3, ?_⟩
    · simp only [ReadUUIDIntArray, e1, Res.bind, f1, g1, k1]
      rw [join_halves _ (by omega), join_halves _ (by omega)]
    · simp only [List.length_append, bigEndian, List.length_map, List.length_range]
      omega
  · rw [c2]
    have h1 : u.mostSignificant >>> 32 % UINT32_RANGE = u.mostSignificant / 2 ^ 32 := by
      rw [Nat.shiftRight_eq_div_pow]
      exact Nat.mod_eq_of_lt (by simp only [UINT32_RANGE]; omega)
    have h2 : u.leastSignificant >>> 32 % UINT32_RANGE = u.leastSignificant / 2 ^ 32 := by
      rw [Nat.shiftRight_eq_div_pow]
      exact Nat.mod_eq_of_lt (by simp only [UINT32_RANGE]; omega)
    rw [h1, h2]
    rfl

theorem C15_uuid_roundtrip_witness :
    WF (ofCapacity 5) ∧
      RoundTrips (WriteUUIDIntArray ⟨0x0102030405060708, 0xF1F2F3F4F5F6F7F8⟩) ReadUUIDIntArray
        ⟨0x0102030405060708, 0xF1F2F3F4F5F6F7F8⟩ (ofCapacity 5) :=
  ⟨WF.ofCapacity (by decide) (by decide),
    (C15_uuid_roundtrip (ofCapacity 5) (WF.ofCapacity (by decide) (by decide)) (by decide)
      ⟨0x0102030405060708, 0xF1F2F3F4F5F6F7F8⟩ (by norm_num) (by norm_num)).2.1⟩

end

/-! ## Positions -/

section

open ByteBufferImpl ByteBuffer

theorem toUInt32_toInt32 (n : Nat) : toUInt32 (toInt32 n) = n % 4294967296 := by
  unfold toUInt32 toInt32
  split <;> omega

theorem toInt32_of_lt {n : Nat} (h : n < 2147483648) : toInt32 n = (n : Int) := by
  unfold toInt32
  rw [if_pos (by omega)]
  omega

theorem toUInt64_natCast {n : Nat} (h : n < 18446744073709551616) : toUInt64 (n : Int) = n := by
  unfold toUInt64
  omega

theorem toUInt64_low26 (x : Int) : toUInt64 x &&& 0x3FFFFFF = (x % 67108864).toNat := by
  have h : toUInt64 x &&& 0x3FFFFFF = toUInt64 x % 2 ^ 26 :=
    Nat.and_pow_two_sub_one_eq_mod _ 26
  rw [h]
  unfold toUInt64
  omega

theorem andInt32_low12 (y : Int) : andInt32 y 0xFFF = ((y % 4096).toNat : Int) := by
  have h0 : toUInt32 0xFFF = 2 ^ 12 - 1 := by decide
  unfold andInt32
  rw [h0, Nat.and_pow_two_sub_one_eq_mod, toInt32_of_lt (by omega)]
  unfold toUInt32
  omega

theorem andInt32_low26 (n : Nat) :
    andInt32 (toInt32 n) 0x3FFFFFF = ((n % 67108864 : Nat) : Int) := by
  have h0 : toUInt32 0x3FFFFFF = 2 ^ 26 - 1 := by decide
  unfold andInt32
  rw [h0, Nat.and_pow_two_sub_one_eq_mod, toInt32_of_lt (by omega), toUInt32_toInt32]
  omega

/-- The word `WritePosition` hands to `WriteLong` is the word of the specification. -/
theorem position_word_eq (x y z : Int) :
    (((toUInt64 x &&& 0x3FFFFFF) <<< 38) % UINT64_RANGE
      ||| ((toUInt64 z &&& 0x3FFFFFF) <<< 12) % UINT64_RANGE
      ||| toUInt64 (andInt32 y 0xFFF)) = positionWord x y z := by
  rw [toUInt64_low26, toUInt64_low26, andInt32_low12, toUInt64_natCast (by omega)]
  simp only [Nat.shiftLeft_eq, UINT64_RANGE, positionWord]
  have hx : (x % 67108864).toNat < 67108864 := by omega
  have hz : (z % 67108864).toNat < 67108864 := by omega
  have hy : (y % 4096).toNat < 4096 := by omega
  have e1 : ((2 : Int) ^ 26) = 67108864 := by norm_num
  have e2 : ((2 : Int) ^ 12) = 4096 := by norm_num
  rw [e1, e2]
  generalize (x % 67108864).toNat = X at hx ⊢
  generalize (z % 67108864).toNat = Z at hz ⊢
  generalize (y % 4096).toNat = Y at hy ⊢
  rw [Nat.mod_eq_of_lt (by omega), Nat.mod_eq_of_lt (by omega),
    or_eq_add 38 (X * 2 ^ 38) (Z * 2 ^ 12) (by omega) (by omega),
    or_eq_add 12 _ Y (by omega) (by omega)]

theorem positionWord_lt (x y z : Int) : positionWord x y z < 18446744073709551616 := by
  unfold positionWord
  have e1 : ((2 : Int) ^ 26) = 67108864 := by norm_num
  have e2 : ((2 : Int) ^ 12) = 4096 := by norm_num
  rw [e1, e2]
  omega

/-- Unpacking the word of a position whose coordinates fit their fields. -/
theorem position_unpack (x y z : Int) (hx1 : -33554432 ≤ x) (hx2 : x ≤ 33554431)
    (hy1 : -2048 ≤ y) (hy2 : y ≤ 2047) (hz1 : -33554432 ≤ z) (hz2 : z ≤ 33554431) :
    ((if toInt32 (positionWord x y z >>> 38) ≥ 33554432
        then toInt32 (positionWord x y z >>> 38) - 67108864
        else toInt32 (positionWord x y z >>> 38)),
      (if toInt32 (positionWord x y z &&& 0xFFF) ≥ 2048
        then toInt32 (positionWord x y z &&& 0xFFF) - 4096
        else toInt32 (positionWord x y z &&& 0xFFF)),
      (if andInt32 (toInt32 (positionWord x y z >>> 12)) 0x3FFFFFF ≥ 33554432
        then andInt32 (toInt32 (positionWord x y z >>> 12)) 0x3FFFFFF - 67108864
        else andInt32 (toInt32 (positionWord x y z >>> 12)) 0x3FFFFFF)) = (x, y, z) := by
  have hmask : positionWord x y z &&& 0xFFF = positionWord x y z % 2 ^ 12 :=
    Nat.and_pow_two_sub_one_eq_mod _ 12
  rw [hmask, andInt32_low26]
  simp only [Nat.shiftRight_eq_div_pow]
  have e1 : ((2 : Int) ^ 26) = 67108864 := by norm_num
  have e2 : ((2 : Int) ^ 12) = 4096 := by norm_num
  have hX : positionWord x y z / 2 ^ 38 = (x % 67108864).toNat := by
    unfold positionWord; rw [e1, e2]; omega
  have hY : positionWord x y z % 2 ^ 12 = (y % 4096).toNat := by
    unfold positionWord; rw [e1, e2]; omega
  have hZ : positionWord x y z / 2 ^ 12 % 67108864 = (z % 67108864).toNat := by
    unfold positionWord; rw [e1, e2]; omega
  rw [hX, hY, hZ, toInt32_of_lt (by omega), toInt32_of_lt (by omega)]
  have gx : (if ((x % 67108864).toNat : Int) ≥ 33554432
      then ((x % 67108864).toNat : Int) - 67108864 else ((x % 67108864).toNat : Int)) = x := by
    split <;> omega
  have gy : (if ((y % 4096).toNat : Int) ≥ 2048
      then ((y % 4096).toNat : Int) - 4096 else ((y % 4096).toNat : Int)) = y := by
    split <;> omega
  have gz : (if ((z % 67108864).toNat : Int) ≥ 33554432
      then ((z % 67108864).toNat : Int) - 67108864 else ((z % 67108864).toNat : Int)) = z := by
    split <;> omega
  rw [gx, gy, gz]

theorem WF.writePosition {s : ByteBufferImpl} (hs : WF s) (hpos : writePos s + 8 < SIZE_RANGE)
    (x y z : Int) :
    ∃ s1, WritePosition x y z s = .ok () s1 ∧ WF s1 ∧
      contents s1 = contents s ++ bigEndian 8 (positionWord x y z) := by
  obtain ⟨s1, a1, b1, c1, _, _⟩ := hs.writeLong hpos (positionWord x y z)
  refine ⟨s1, ?_, b1, c1⟩
  unfold WritePosition
  rw [position_word_eq, a1]

/-- C16: on a well-formed buffer, for all `x` and `z` in `[-2^25, 2^25 - 1]` and `y` in
`[-2^11, 2^11 - 1]`, `WritePosition(x, y, z)` appends bytes from which `ReadPosition`, on any
well-formed buffer beginning with them, returns exactly `(x, y, z)` and consumes exactly those
bytes; on a buffer without unread bytes the read right after the write returns `(x, y, z)`. -/
theorem C16_position_roundtrip (s : ByteBufferImpl) (hs : WF s)
    (hpos : writePos s + 8 < SIZE_RANGE) (x y z : Int)
    (hx1 : -2 ^ 25 ≤ x) (hx2 : x ≤ 2 ^ 25 - 1) (hy1 : -2 ^ 11 ≤ y) (hy2 : y ≤ 2 ^ 11 - 1)
    (hz1 : -2 ^ 25 ≤ z) (hz2 : z ≤ 2 ^ 25 - 1) :
    RoundTrips (WritePosition x y z) ReadPosition (x, y, z) s := by
  obtain ⟨s1, a1, w1, c1⟩ := hs.writePosition hpos x y z
  refine RoundTrips.intro hs _ a1 w1 c1 ?_
  intro t rest ht hc
  obtain ⟨t1, e1, e2, e3, _, e5, _⟩ := ht.readLong_bigEndian (positionWord_lt x y z) hc
  refine ⟨t1, ?_, e2, e3, ?_⟩
  · unfold ReadPosition
    rw [e1]
    simp only [Res.bind]
    rw [position_unpack x y z (by omega) (by omega) (by omega) (by omega) (by omega)
      (by omega)]
  · simp only [bigEndian, List.length_map, List.length_range]
    omega

theorem C16_position_roundtrip_witness :
    WF (ofCapacity 5) ∧
      RoundTrips (WritePosition (-33554432) (-2048) 33554431) ReadPosition
        (-33554432, -2048, 33554431) (ofCapacity 5) :=
  ⟨WF.ofCapacity (by decide) (by decide),
    C16_position_roundtrip (ofCapacity 5) (WF.ofCapacity (by decide) (by decide)) (by decide)
      (-33554432) (-2048) 33554431 (by norm_num) (by norm_num) (by norm_num) (by norm_num)
      (by norm_num) (by norm_num)⟩

/-- The bits of the word of a position are the bits of its three fields. -/
theorem positionWord_bits (x y z : Int) :
    (∀ i, i < 26 → (positionWord x y z).testBit (38 + i) = (x % 2 ^ 26).toNat.testBit i) ∧
    (∀ i, i < 26 → (positionWord x y z).testBit (12 + i) = (z % 2 ^ 26).toNat.testBit i) ∧
    (∀ i, i < 12 → (positionWord x y z).testBit i = (y % 2 ^ 12).toNat.testBit i) := by
  unfold positionWord
  have hx : (x % 2 ^ 26).toNat < 2 ^ 26 := by
    have e1 : ((2 : Int) ^ 26) = 67108864 := by norm_num
    rw [e1]; omega
  have hz : (z % 2 ^ 26).toNat < 2 ^ 26 := by
    have e1 : ((2 : Int) ^ 26) = 67108864 := by norm_num
    rw [e1]; omega
  have hy : (y % 2 ^ 12).toNat < 2 ^ 12 := by
    have e2 : ((2 : Int) ^ 12) = 4096 := by norm_num
    rw [e2]; omega
  generalize (x % 2 ^ 26).toNat = X at hx ⊢
  generalize (z % 2 ^ 26).toNat = Z at hz ⊢
  generalize (y % 2 ^ 12).toNat = Y at hy ⊢
  refine ⟨?_, ?_, ?_⟩
  · intro i _
    have e : X * 2 ^ 38 + Z * 2 ^ 12 + Y = 2 ^ 38 * X + (Z * 2 ^ 12 + Y) := by omega
    rw [e, Nat.testBit_mul_pow_two_add X (by omega), if_neg (by omega)]
    congr 1
    omega
  · intro i hi
    have e : X * 2 ^ 38 + Z * 2 ^ 12 + Y = 2 ^ 12 * (2 ^ 26 * X + Z) + Y := by omega
    rw [e, Nat.testBit_mul_pow_two_add _ hy, if_neg (by omega),
      Nat.testBit_mul_pow_two_add X hz, if_pos (by omega)]
    congr 1
    omega
  · intro i hi
    have e : X * 2 ^ 38 + Z * 2 ^ 12 + Y = 2 ^ 12 * (2 ^ 26 * X + Z) + Y := by omega
    rw [e, Nat.testBit_mul_pow_two_add _ hy, if_pos hi]

/-- C17: on a well-formed buffer, for all integers `x`, `y`, `z` (so for all 32-bit ones),
`WritePosition(x, y, z)` appends the 8 big-endian bytes of the 64-bit word whose bits 38..63
are the low 26 bits of `x`, bits 12..37 the low 26 bits of `z` and bits 0..11 the low 12 bits
of `y`; for `(0, 0, 0)` these are 8 zero bytes. -/
theorem C17_position_bytes (s : ByteBufferImpl) (hs : WF s)
    (hpos : writePos s + 8 < SIZE_RANGE) (x y z : Int) :
    (∃ s1, WritePosition x y z s = .ok () s1 ∧
      contents s1 = contents s ++ bigEndian 8 (positionWord x y z) ∧
      s1.readableBytes = s.readableBytes + 8) ∧
    (∀ i, i < 26 → (positionWord x y z).testBit (38 + i) = (x % 2 ^ 26).toNat.testBit i) ∧
    (∀ i, i < 26 → (positionWord x y z).testBit (12 + i) = (z % 2 ^ 26).toNat.testBit i) ∧
    (∀ i, i < 12 → (positionWord x y z).testBit i = (y % 2 ^ 12).toNat.testBit i) ∧
    bigEndian 8 (positionWord 0 0 0) = [0, 0, 0, 0, 0, 0, 0, 0] := by
  obtain ⟨s1, a1, w1, c1⟩ := hs.writePosition hpos x y z
  obtain ⟨b1, b2, b3⟩ := positionWord_bits x y z
  refine ⟨⟨s1, a1, c1, ?_⟩, b1, b2, b3, by decide⟩
  rw [hs.readable_of_contents w1 c1]
  rfl

theorem C17_position_bytes_witness :
    WF (ofCapacity 5) ∧
      ∃ s1, WritePosition 0 0 0 (ofCapacity 5) = .ok () s1 ∧
        contents s1 = [0, 0, 0, 0, 0, 0, 0, 0] := by
  obtain ⟨⟨s1, h1, h2, _⟩, _, _, _, h3⟩ :=
    C17_position_bytes (ofCapacity 5) (WF.ofCapacity (by decide) (by decide)) (by decide) 0 0 0
  rw [h3] at h2
  exact ⟨WF.ofCapacity (by decide) (by decide), s1, h1, h2⟩

end

/-! ## Transfer of ownership -/

section

open ByteBufferImpl ByteBuffer

theorem not_mem_dropLast_of_nodup : ∀ (l : List Nat) (x : Nat), l.Nodup →
    l.getLast? = some x → x ∉ l.dropLast := by
  intro l x hn hl
  obtain ⟨ys, rfl⟩ := List.getLast?_eq_some_iff.mp hl
  rw [List.dropLast_concat]
  intro hmem
  have := List.nodup_append.mp hn
  exact this.2.2 hmem (List.mem_singleton.mpr rfl)

/-- C18 (failing inputs): on a well-formed buffer whose writer index is `0`, for a region of
exactly one segment's capacity, `WriteBytes` raises the readable-byte count by the size and
appends the bytes, while `WriteBytesAndDelete` leaves the readable-byte count and the writer
index as they were and keeps writing into the old tail segment, which is no longer in the
deque; the bytes handed over are not readable. Whenever the writer index is not `0` or the size
is not the capacity, `WriteBytesAndDelete` is `WriteBytes`. -/
theorem C18_transfer_differs (s : ByteBufferImpl) (hs : WF s) (input : List Nat)
    (hw : s.localWriterIndex = 0) (hlen : input.length = s.singleCapacity)
    (hpos : writePos s + input.length < SIZE_RANGE) :
    (∃ s1, WriteBytes input s = .ok () s1 ∧
      s1.readableBytes = s.readableBytes + input.length ∧
      contents s1 = contents s ++ input) ∧
    (∃ s2, WriteBytesAndDelete input s = .ok () s2 ∧ s2.readableBytes = s.readableBytes ∧
      s2.localWriterIndex = 0 ∧ s2.currentWriteBuffer = s.currentWriteBuffer ∧
      s.currentWriteBuffer ∉ s2.buffers ∧ s2.readableBytes ≠ s.readableBytes + input.length) ∧
    (∀ (t : ByteBufferImpl) (raw : List Nat),
      ¬ (t.localWriterIndex = 0 ∧ raw.length = t.singleCapacity) →
      WriteBytesAndDelete raw t = WriteBytes raw t) := by
  refine ⟨?_, ?_, ?_⟩
  · obtain ⟨s1, e1, e2, e3, _, _⟩ := hs.writeBytes input hpos
    exact ⟨s1, e1, hs.readable_of_contents e2 e3, e3⟩
  · have hb := hs.buffers_pos
    have hcap := hs.cap_pos
    unfold WriteBytesAndDelete
    rw [if_pos ⟨hw, hlen⟩]
    cases hbuf : s.buffers with
    | nil => rw [hbuf] at hb; simp at hb
    | cons p ps =>
      refine ⟨_, rfl, rfl, hw, rfl, ?_, ?_⟩
      · show s.currentWriteBuffer ∉ (p :: ps).dropLast ++ [s.heap.length]
        rw [← hbuf]
        intro hmem
        rcases List.mem_append.mp hmem with h | h
        · exact not_mem_dropLast_of_nodup _ _ hs.nodup hs.back h
        · have hin : s.currentWriteBuffer ∈ s.buffers := by
            obtain ⟨ys, hys⟩ := List.getLast?_eq_some_iff.mp hs.back
            rw [hys]
            exact List.mem_append_right _ (List.mem_singleton.mpr rfl)
          have := hs.lt_heap hin
          rw [List.mem_singleton] at h
          omega
      · show s.readableBytes ≠ s.readableBytes + input.length
        omega
  · intro t raw h
    unfold WriteBytesAndDelete
    rw [if_neg h]

theorem C18_transfer_differs_witness :
    WF (ofCapacity 4) ∧
      (∃ s1, WriteBytes [1, 2, 3, 4] (ofCapacity 4) = .ok () s1 ∧ s1.readableBytes = 4 ∧
        contents s1 = [1, 2, 3, 4]) ∧
      (∃ s2, WriteBytesAndDelete [1, 2, 3, 4] (ofCapacity 4) = .ok () s2 ∧
        s2.readableBytes = 0) := by
  obtain ⟨⟨s1, a1, a2, a3⟩, ⟨s2, b1, b2, _⟩, _⟩ :=
    C18_transfer_differs (ofCapacity 4) (WF.ofCapacity (by decide) (by decide)) [1, 2, 3, 4]
      rfl rfl (by decide)
  exact ⟨WF.ofCapacity (by decide) (by decide), ⟨s1, a1, a2, a3⟩, ⟨s2, b1, b2⟩⟩

end

/-! ## Skips -/

section

open ByteBufferImpl ByteBuffer

theorem SkipReadBytes_loop_done (fuel count : Nat) (s : ByteBufferImpl)
    (h : ¬ count > (s.singleCapacity + SIZE_RANGE - s.localReaderIndex) % SIZE_RANGE) :
    SkipReadBytes.loop fuel count s = .ok count s := by
  cases fuel with
  | zero => unfold SkipReadBytes.loop; rw [if_neg h]
  | succ fuel => unfold SkipReadBytes.loop; rw [if_neg h]

theorem SkipWriteBytes_loop_done (fuel count : Nat) (s : ByteBufferImpl)
    (h : ¬ count > (s.singleCapacity + SIZE_RANGE - s.localWriterIndex) % SIZE_RANGE) :
    SkipWriteBytes.loop fuel count s = .ok count s := by
  cases fuel with
  | zero => unfold SkipWriteBytes.loop; rw [if_neg h]
  | succ fuel => unfold SkipWriteBytes.loop; rw [if_neg h]

theorem cap_sub_mod {cap i : Nat} (hcap : cap < SIZE_RANGE) (hi : i ≤ cap) :
    (cap + SIZE_RANGE - i) % SIZE_RANGE = cap - i := by
  have h : cap + SIZE_RANGE - i = (cap - i) + SIZE_RANGE := by omega
  rw [h, Nat.add_mod_right]
  exact Nat.mod_eq_of_lt (by omega)

/-- C19 (failing inputs): when the reader index is not `0` and the skipped bytes end inside
the head segment, `SkipReadBytes(n)` lowers the readable-byte count by `n` but sets the reader
index to `n` instead of moving it forward by `n`: the reader ends up before the place it should
be at, by the old reader index. -/
theorem C19_skip_read_assigns (s : ByteBufferImpl) (n : Nat)
    (hcap : s.singleCapacity < SIZE_RANGE) (hr : 1 ≤ s.localReaderIndex)
    (hfit : s.localReaderIndex + n ≤ s.singleCapacity) (hn : n ≤ s.readableBytes) :
    SkipReadBytes n s
      = .ok () { s with readableBytes := s.readableBytes - n, localReaderIndex := n } ∧
    n ≠ s.localReaderIndex + n := by
  refine ⟨?_, by omega⟩
  unfold SkipReadBytes
  rw [if_neg (by omega), SkipReadBytes_loop_done _ _ _ (by
    show ¬ n > (s.singleCapacity + SIZE_RANGE - s.localReaderIndex) % SIZE_RANGE
    rw [cap_sub_mod hcap (by omega)]; omega)]
  simp only [Res.bind]
  unfold TryRefreshReaderBuffer
  rw [if_neg (by
    show ¬ n ≥ s.singleCapacity
    omega)]

theorem C19_skip_read_assigns_witness :
    ∃ s1 s2, WriteBytes [1, 2, 3, 4] (ofCapacity 8) = .ok () s1 ∧ ReadByte s1 = .ok 1 s2 ∧
      (∃ s3 s4, SkipReadBytes 1 s2 = .ok () s3 ∧ s3.readableBytes = 2 ∧
        s3.localReaderIndex = 1 ∧ ReadByte s3 = .ok 2 s4) ∧
      (∃ s3 s4, ByteBuffer.ReadBytes 1 s2 = .ok [2] s3 ∧ s3.readableBytes = 2 ∧
        s3.localReaderIndex = 2 ∧ ReadByte s3 = .ok 3 s4) := by
  refine ⟨_, _, rfl, rfl, ⟨_, _, (C19_skip_read_assigns _ 1 (by decide) (by decide)
    (by decide) (by decide)).1, rfl, rfl, rfl⟩, ⟨_, _, rfl, rfl, rfl, rfl⟩⟩

/-- A skip over all bytes of the only segment pops that segment: `TryRefreshReaderBuffer` runs
right after the skip, where `ReadBytes` leaves the reader at the end of the segment. -/
theorem SkipReadBytes_only_segment :
    ∃ s1, WriteBytes [1, 2, 3, 4] (ofCapacity 4) = .ok () s1 ∧
      SkipReadBytes 4 s1 = .undefined ∧
      ∃ s2, ByteBuffer.ReadBytes 4 s1 = .ok [1, 2, 3, 4] s2 ∧ s2.readableBytes = 0 :=
  ⟨_, rfl, rfl, _, rfl, rfl⟩

/-- C20 (failing inputs): when the writer index is not `0` and the skipped bytes end inside
the tail segment, `SkipWriteBytes(n)` raises the readable-byte count by `n` but sets the writer
index to `n` instead of moving it forward by `n`, so the write position does not grow by `n`. -/
theorem C20_skip_write_assigns (s : ByteBufferImpl) (n : Nat)
    (hcap : s.singleCapacity < SIZE_RANGE) (hw : 1 ≤ s.localWriterIndex)
    (hfit : s.localWriterIndex + n ≤ s.singleCapacity)
    (hrb : s.readableBytes + n < SIZE_RANGE) :
    SkipWriteBytes n s
      = .ok () { s with readableBytes := s.readableBytes + n, localWriterIndex := n } ∧
    writePos { s with readableBytes := s.readableBytes + n, localWriterIndex := n }
      ≠ writePos s + n := by
  refine ⟨?_, by simp only [writePos]; omega⟩
  unfold SkipWriteBytes
  rw [SkipWriteBytes_loop_done _ _ _ (by
    show ¬ n > (s.singleCapacity + SIZE_RANGE - s.localWriterIndex) % SIZE_RANGE
    rw [cap_sub_mod hcap (by omega)]; omega)]
  simp only [Res.bind]
  unfold TryRefreshWriterBuffer
  rw [if_neg (by
    show ¬ n ≥ s.singleCapacity
    omega), Nat.mod_eq_of_lt hrb]

theorem C20_skip_write_assigns_witness :
    ∃ s1, WriteByte 7 (ofCapacity 8) = .ok () s1 ∧ writePos s1 = 1 ∧
      (∃ s2, SkipWriteBytes 2 s1 = .ok () s2 ∧ s2.readableBytes = 3 ∧ writePos s2 = 2) ∧
      (∃ s2, WriteBytes [0, 0] s1 = .ok () s2 ∧ s2.readableBytes = 3 ∧ writePos s2 = 3) := by
  refine ⟨_, rfl, rfl, ⟨_, (C20_skip_write_assigns _ 2 (by decide) (by decide) (by decide)
    (by decide)).1, rfl, rfl⟩, ⟨_, rfl, rfl, rfl⟩⟩

/-- While `count` is more than `fuel + 1` capacities, the loop of `SkipWriteBytes` is not
through after `fuel` turns. -/
theorem SkipWriteBytes_loop_long :
    ∀ (fuel count : Nat) (s : ByteBufferImpl), 1 ≤ s.singleCapacity →
      s.singleCapacity < SIZE_RANGE → s.localWriterIndex ≤ s.singleCapacity →
      count < SIZE_RANGE → s.singleCapacity * (fuel + 1) < count →
      SkipWriteBytes.loop fuel count s = .undefined := by
  intro fuel
  induction fuel with
  | zero =>
    intro count s h1 hcap hw hc hlong
    unfold SkipWriteBytes.loop
    rw [cap_sub_mod hcap hw, if_pos (by omega)]
  | succ fuel ih =>
    intro count s h1 hcap hw hc hlong
    unfold SkipWriteBytes.loop
    rw [cap_sub_mod hcap hw, if_pos (by
      have : s.singleCapacity * (fuel + 1 + 1)
          = s.singleCapacity * (fuel + 1) + s.singleCapacity := by ring
      omega)]
    simp only [AppendBuffer, Res.bind]
    have hge : s.singleCapacity ≤ count := by
      have : s.singleCapacity * (fuel + 1 + 1)
          = s.singleCapacity * (fuel + 1) + s.singleCapacity := by ring
      omega
    have hm : (count + SIZE_RANGE - s.singleCapacity) % SIZE_RANGE
        = count - s.singleCapacity := by
      have h : count + SIZE_RANGE - s.singleCapacity
          = (count - s.singleCapacity) + SIZE_RANGE := by omega
      rw [h, Nat.add_mod_right]
      exact Nat.mod_eq_of_lt (by omega)
    rw [hm]
    apply ih
    · exact h1
    · exact hcap
    · exact Nat.zero_le _
    · omega
    · have : s.singleCapacity * (fuel + 1 + 1)
          = s.singleCapacity * (fuel + 1) + s.singleCapacity := by ring
      show s.singleCapacity * (fuel + 1) < count - s.singleCapacity
      omega

/-- A skip that crosses the end of a partly written tail segment: with capacity `4` and two
bytes written, `SkipWriteBytes(3)` takes the whole capacity off `count`, which wraps to
`2^64 - 1`; the loop then appends a segment per turn and is not through after `2^61` turns. -/
theorem SkipWriteBytes_wraps :
    ∃ s1, WriteBytes [1, 2] (ofCapacity 4) = .ok () s1 ∧
      ∀ fuel, fuel ≤ 2305843009213693952 →
        SkipWriteBytes.loop (fuel + 1) 3
            { s1 with readableBytes := (s1.readableBytes + 3) % SIZE_RANGE } = .undefined := by
  refine ⟨_, rfl, ?_⟩
  intro fuel hfuel
  unfold SkipWriteBytes.loop
  rw [if_pos (by decide)]
  simp only [AppendBuffer, Res.bind]
  apply SkipWriteBytes_loop_long
  · decide
  · decide
  · decide
  · decide
  · show 4 * (fuel + 1) < (3 + SIZE_RANGE - 4) % SIZE_RANGE
    have : (3 + SIZE_RANGE - 4) % SIZE_RANGE = 18446744073709551615 := by decide
    rw [this]
    omega

end

/-! ## Bounds of direct addressing -/

section

open ByteBufferImpl ByteBuffer

/-- C21 (as stated, refuted): with reader index `1` in a segment of capacity `8`,
`CanReadDirect(2^64 - 1)` returns true, the sum having wrapped to `0`, although
`1 + (2^64 - 1)` exceeds the capacity; the same after one written byte for
`CanWriteDirect(2^64 - 1)`. -/
theorem C21_direct_wraps :
    ∃ s1 s2, WriteBytes [1, 2] (ofCapacity 8) = .ok () s1 ∧ ReadByte s1 = .ok 1 s2 ∧
      s2.localReaderIndex = 1 ∧ s2.localWriterIndex = 2 ∧ s2.singleCapacity = 8 ∧
      CanReadDirect 18446744073709551615 s2 = true ∧
      ¬ s2.localReaderIndex + 18446744073709551615 ≤ s2.singleCapacity ∧
      CanWriteDirect 18446744073709551614 s2 = true ∧
      ¬ s2.localWriterIndex + 18446744073709551614 ≤ s2.singleCapacity :=
  ⟨_, _, rfl, rfl, rfl, rfl, rfl, by decide, by decide, by decide, by decide⟩

/-- C21 (amended): for every buffer state and every size `n` whose sum with the reader index
is below `2^64`, if `CanReadDirect(n)` returns true then `readerIndex + n` is at most (indeed
below) the segment capacity, and on a well-formed buffer the `n` bytes at
`GetDirectReadAddress()` lie inside the live current segment; the same for `CanWriteDirect`,
the writer index and `GetDirectWriteAddress()`. -/
theorem C21_direct_fits (s : ByteBufferImpl) (n : Nat) :
    (s.localReaderIndex + n < SIZE_RANGE → CanReadDirect n s = true →
      s.localReaderIndex + n ≤ s.singleCapacity ∧ s.localReaderIndex + n < s.singleCapacity ∧
      (WF s → ∃ bytes, s.heap.loadRange (GetDirectReadAddress s).1 (GetDirectReadAddress s).2 n
        = some bytes ∧ bytes.length = n)) ∧
    (s.localWriterIndex + n < SIZE_RANGE → CanWriteDirect n s = true →
      s.localWriterIndex + n ≤ s.singleCapacity ∧ s.localWriterIndex + n < s.singleCapacity ∧
      (WF s → ∃ bytes, s.heap.loadRange (GetDirectWriteAddress s).1 (GetDirectWriteAddress s).2 n
        = some bytes ∧ bytes.length = n)) := by
  refine ⟨?_, ?_⟩
  · intro hlt hcan
    simp only [CanReadDirect, Nat.mod_eq_of_lt hlt, decide_eq_true_eq] at hcan
    refine ⟨by omega, hcan, ?_⟩
    intro hs
    have hmem : s.currentReadBuffer ∈ s.buffers := by
      obtain ⟨tl, htl⟩ := List.head?_eq_some_iff.mp hs.front
      rw [htl]
      exact List.mem_cons_self _ _
    obtain ⟨seg, hseg, hlen⟩ := hs.live _ hmem
    refine ⟨(seg.drop s.localReaderIndex).take n, ?_, ?_⟩
    · simp only [GetDirectReadAddress, Heap.loadRange, hseg]
      rw [if_pos (by omega)]
    · simp only [List.length_take, List.length_drop]
      omega
  · intro hlt hcan
    simp only [CanWriteDirect, Nat.mod_eq_of_lt hlt, decide_eq_true_eq] at hcan
    refine ⟨by omega, hcan, ?_⟩
    intro hs
    have hmem : s.currentWriteBuffer ∈ s.buffers := by
      obtain ⟨ys, hys⟩ := List.getLast?_eq_some_iff.mp hs.back
      rw [hys]
      exact List.mem_append_right _ (List.mem_singleton.mpr rfl)
    obtain ⟨seg, hseg, hlen⟩ := hs.live _ hmem
    refine ⟨(seg.drop s.localWriterIndex).take n, ?_, ?_⟩
    · simp only [GetDirectWriteAddress, Heap.loadRange, hseg]
      rw [if_pos (by omega)]
    · simp only [List.length_take, List.length_drop]
      omega

theorem C21_direct_fits_witness :
    (ofCapacity 8).localReaderIndex + 7 < SIZE_RANGE ∧ CanReadDirect 7 (ofCapacity 8) = true ∧
      (ofCapacity 8).localReaderIndex + 7 ≤ (ofCapacity 8).singleCapacity ∧
      CanReadDirect 8 (ofCapacity 8) = false :=
  ⟨by decide, by decide,
    ((C21_direct_fits (ofCapacity 8) 7).1 (by decide) (by decide)).1, by decide⟩

end

/-! ## Dispatch table -/

section

open PacketHandler

/-- The function `Handle` always has a result: the one of the callback the table holds for
the two ordinals, or `false` with nothing called. -/
theorem Handle_eq_entry {σ : Type} (callbacks : Callbacks σ) (h handler connection : Nat)
    (packet : PacketHolder) (w : σ) :
    Handle h handler connection packet callbacks w
      = some (match entry callbacks h packet.ordinal with
        | none => (false, w)
        | some callback => callback handler connection packet w) := by
  unfold Handle entry
  by_cases hh : h ≥ callbacks.length
  · rw [if_pos hh, List.getElem?_eq_none hh]
  · rw [if_neg hh]
    obtain ⟨localCallbacks, hl⟩ : ∃ l, callbacks[h]? = some l :=
      ⟨callbacks[h], List.getElem?_eq_getElem (by omega)⟩
    simp only [hl]
    by_cases hp : packet.ordinal ≥ localCallbacks.length
    · rw [if_pos hp, List.getElem?_eq_none hp]
    · rw [if_neg hp]
      obtain ⟨c, hc⟩ : ∃ c, localCallbacks[packet.ordinal]? = some c :=
        ⟨localCallbacks[packet.ordinal], List.getElem?_eq_getElem (by omega)⟩
      simp only [hc]
      cases c <;> rfl

theorem length_vectorResize {α : Type} (vector : List α) (n : Nat) (value : α) :
    (vectorResize vector n value).length = n := by
  simp only [vectorResize, List.length_append, List.length_take, List.length_replicate]
  omega

theorem getElem?_vectorResize {α : Type} (vector : List α) (n i : Nat) (value : α)
    (hi : i < n) (hv : i < vector.length) : (vectorResize vector n value)[i]? = vector[i]? := by
  unfold vectorResize
  rw [List.getElem?_append_left (by simp only [List.length_take]; omega),
    List.getElem?_take_of_lt hi]

theorem getElem?_resizeVectorAndSet {α : Type} (vector : List α) (ordinal : Nat)
    (value empty : α) :
    (OrdinalVector.ResizeVectorAndSet vector ordinal value empty)[ordinal]? = some value := by
  unfold OrdinalVector.ResizeVectorAndSet
  apply List.getElem?_set_self
  split
  · rw [length_vectorResize]; omega
  · omega

/-- A registration whose handler ordinal is above the size of the table indexes the table
outside its size. -/
theorem SetPointerCallback_outside {σ : Type} (callbacks : Callbacks σ) (h p : Nat)
    (callback : Option (Callback σ)) (hlt : callbacks.length < h) :
    SetPointerCallback h p callback callbacks = none := by
  unfold SetPointerCallback
  simp only [if_neg (show ¬ callbacks.length ≥ h by omega),
    List.getElem?_eq_none (show callbacks.length ≤ h by omega)]

/-- A registration whose handler ordinal is at most the size of the table resizes the table
to `handler_ordinal + 8` elements and sets the entry. -/
theorem SetPointerCallback_inside {σ : Type} (callbacks : Callbacks σ) (h p : Nat)
    (callback : Option (Callback σ)) (hle : h ≤ callbacks.length)
    (h32 : h + 8 < UINT32_RANGE) :
    ∃ callbacks1, SetPointerCallback h p callback callbacks = some callbacks1 ∧
      callbacks1.length = h + 8 ∧ entry callbacks1 h p = callback ∧
      ∀ h2 p2, h + 8 ≤ h2 → entry callbacks1 h2 p2 = none := by
  unfold SetPointerCallback
  simp only [if_pos (show callbacks.length ≥ h from hle), Nat.mod_eq_of_lt h32]
  have hlen := length_vectorResize callbacks (h + 8) ([] : List (Option (Callback σ)))
  obtain ⟨localCallbacks, hl⟩ : ∃ l, (vectorResize callbacks (h + 8) [])[h]? = some l :=
    ⟨(vectorResize callbacks (h + 8) [])[h], List.getElem?_eq_getElem (by omega)⟩
  simp only [hl]
  refine ⟨_, rfl, by rw [List.length_set, hlen], ?_, ?_⟩
  · unfold entry
    rw [List.getElem?_set_self (by omega)]
    simp only [getElem?_resizeVectorAndSet]
  · intro h2 p2 h2le
    unfold entry
    rw [List.getElem?_eq_none (by rw [List.length_set, hlen]; exact h2le)]

/-- C22 (failing inputs): `SetPointerCallback(h, p, cb)` has no defined result whenever `h` is
above the size of the table, since the table is resized only when its size is at least `h`;
so for `(3, 7)` on the initially empty table. When `h` is at most the size, the callback is
registered and `Handle` for the two ordinals calls it once and returns its result. -/
theorem C22_register_outside {σ : Type} (callbacks : Callbacks σ) (h p : Nat)
    (cb : Callback σ) :
    (callbacks.length < h → SetPointerCallback h p (some cb) callbacks = none) ∧
    SetPointerCallback 3 7 (some cb) [] = none ∧
    (h ≤ callbacks.length → h + 8 < UINT32_RANGE →
      ∃ callbacks1, SetPointerCallback h p (some cb) callbacks = some callbacks1 ∧
        ∀ handler connection payload w,
          Handle h handler connection { ordinal := p, payload := payload } callbacks1 w
            = some (cb handler connection { ordinal := p, payload := payload } w)) := by
  refine ⟨SetPointerCallback_outside callbacks h p _, rfl, ?_⟩
  intro hle h32
  obtain ⟨callbacks1, e1, _, e3, _⟩ := SetPointerCallback_inside callbacks h p (some cb) hle h32
  refine ⟨callbacks1, e1, ?_⟩
  intro handler connection payload w
  rw [Handle_eq_entry]
  simp only [e3]

theorem C22_register_outside_witness :
    (([] : Callbacks (List Nat)).length < 3 ∧
      SetPointerCallback 3 7 (some fun _ _ packet w => (true, packet.ordinal :: w))
        ([] : Callbacks (List Nat)) = none) ∧
    ∃ callbacks1, SetPointerCallback 0 7 (some fun _ _ packet w => (true, packet.ordinal :: w))
        ([] : Callbacks (List Nat)) = some callbacks1 ∧
      Handle 0 0 0 { ordinal := 7, payload := [] } callbacks1 [] = some (true, [7]) := by
  refine ⟨⟨by decide, (C22_register_outside [] 3 7 _).1 (by decide)⟩, ?_⟩
  obtain ⟨callbacks1, e1, e2⟩ := (C22_register_outside ([] : Callbacks (List Nat)) 0 7
    (fun _ _ packet w => (true, packet.ordinal :: w))).2.2 (by decide) (by decide)
  exact ⟨callbacks1, e1, e2 0 0 [] []⟩

/-- C23: for every table, `Handle` returns `false`, with the surroundings as they were (no
callback called) and with a defined result (nothing thrown, no access outside a vector),
whenever the handler ordinal is not below the size of the table, or the packet ordinal is not
below the size of that handler's vector, or the `std::function` at the two ordinals is
empty. -/
theorem C23_not_handled {σ : Type} (callbacks : Callbacks σ) (h handler connection : Nat)
    (packet : PacketHolder) (w : σ) :
    (callbacks.length ≤ h → Handle h handler connection packet callbacks w = some (false, w)) ∧
    (∀ localCallbacks, callbacks[h]? = some localCallbacks →
      localCallbacks.length ≤ packet.ordinal →
      Handle h handler connection packet callbacks w = some (false, w)) ∧
    (∀ localCallbacks, callbacks[h]? = some localCallbacks →
      localCallbacks[packet.ordinal]? = some none →
      Handle h handler connection packet callbacks w = some (false, w)) ∧
    (entry callbacks h packet.ordinal = none →
      Handle h handler connection packet callbacks w = some (false, w)) := by
  refine ⟨?_, ?_, ?_, ?_⟩
  · intro hh
    rw [Handle_eq_entry]
    simp only [entry, List.getElem?_eq_none hh]
  · intro localCallbacks hl hp
    rw [Handle_eq_entry]
    simp only [entry, hl, List.getElem?_eq_none hp]
  · intro localCallbacks hl hp
    rw [Handle_eq_entry]
    simp only [entry, hl, hp]
  · intro he
    rw [Handle_eq_entry]
    simp only [he]

theorem C23_not_handled_witness :
    ∃ callbacks1, SetPointerCallback 3 7 (some fun _ _ packet w => (true, packet.ordinal :: w))
        ([[], [], [], []] : Callbacks (List Nat)) = some callbacks1 ∧
      Handle 3 0 0 { ordinal := 7, payload := [] } callbacks1 [] = some (true, [7]) ∧
      Handle 3 0 0 { ordinal := 8, payload := [] } callbacks1 [] = some (false, []) ∧
      Handle 3 0 0 { ordinal := 6, payload := [] } callbacks1 [] = some (false, []) ∧
      Handle 4 0 0 { ordinal := 7, payload := [] } callbacks1 [] = some (false, []) ∧
      Handle 11 0 0 { ordinal := 7, payload := [] } callbacks1 [] = some (false, []) :=
  ⟨_, rfl, rfl,
    (C23_not_handled _ 3 0 0 { ordinal := 8, payload := [] } []).2.1 _ rfl (by decide),
    (C23_not_handled _ 3 0 0 { ordinal := 6, payload := [] } []).2.2.1 _ rfl rfl,
    (C23_not_handled _ 4 0 0 { ordinal := 7, payload := [] } []).2.2.2 rfl,
    (C23_not_handled _ 11 0 0 { ordinal := 7, payload := [] } []).1 (by decide)⟩

/-- C24 (failing inputs): `SetPointerCallback(h, p, cb)` on a table of more than `h + 8`
handlers cuts the table down to `h + 8`: the outer size afterwards is below the size before and
every entry of a handler ordinal from `h + 8` on is gone; and on a table of fewer than `h`
handlers it has no defined result. -/
theorem C24_register_shrinks {σ : Type} (callbacks : Callbacks σ) (h p : Nat)
    (callback : Option (Callback σ)) :
    (h + 8 < callbacks.length → h + 8 < UINT32_RANGE →
      ∃ callbacks1, SetPointerCallback h p callback callbacks = some callbacks1 ∧
        callbacks1.length = h + 8 ∧ callbacks1.length < callbacks.length ∧
        ∀ h2 p2, h + 8 ≤ h2 → entry callbacks1 h2 p2 = none) ∧
    (callbacks.length < h → SetPointerCallback h p callback callbacks = none) := by
  refine ⟨?_, SetPointerCallback_outside callbacks h p callback⟩
  intro hlt h32
  obtain ⟨callbacks1, e1, e2, _, e4⟩ :=
    SetPointerCallback_inside callbacks h p callback (by omega) h32
  exact ⟨callbacks1, e1, e2, by omega, e4⟩

theorem C24_register_shrinks_witness :
    ∃ t1 t2 t3 : Callbacks Unit,
      SetPointerCallback 0 0 (some fun _ _ _ w => (true, w)) [] = some t1 ∧
      SetPointerCallback 8 0 (some fun _ _ _ w => (false, w)) t1 = some t2 ∧
      t2.length = 16 ∧ entry t2 8 0 = some (fun _ _ _ w => (false, w)) ∧
      SetPointerCallback 0 1 (some fun _ _ _ w => (true, w)) t2 = some t3 ∧
      t3.length = 8 ∧ entry t3 8 0 = none := by
  obtain ⟨t1, t2, a1, a2, a3, a4⟩ : ∃ t1 t2 : Callbacks Unit,
      SetPointerCallback 0 0 (some fun _ _ _ w => (true, w)) [] = some t1 ∧
      SetPointerCallback 8 0 (some fun _ _ _ w => (false, w)) t1 = some t2 ∧
      t2.length = 16 ∧ entry t2 8 0 = some (fun _ _ _ w => (false, w)) :=
    ⟨_, _, rfl, rfl, rfl, rfl⟩
  obtain ⟨t3, e1, e2, _, e4⟩ :=
    (C24_register_shrinks t2 0 1 (some fun _ _ _ w => (true, w))).1 (by rw [a3]; decide)
      (by decide)
  exact ⟨t1, t2, t3, a1, a2, a3, a4, e1, e2, e4 8 0 (by decide)⟩

/-- C26 (failing inputs): for every table, handler ordinal `h` and packet ordinal `p`,
`HasCallback(p)` returns `false` whenever the size of the table is at least `h`, whatever is
registered, and otherwise indexes the table at `h`, beyond its size; it returns `true` for no
input at all. After `SetPointerCallback(0, 0, cb)` on the empty table, `Handle` calls `cb` for
handler `0` and packet `0`, and `HasCallback(0)` of that handler returns `false`. -/
theorem C26_has_callback_inverted {σ : Type} (callbacks : Callbacks σ) (h p : Nat) :
    HasCallback h p callbacks = (if callbacks.length ≥ h then some false else none) ∧
    HasCallback h p callbacks ≠ some true ∧
    (∀ cb : Callback σ, ∃ callbacks1, SetPointerCallback 0 0 (some cb) [] = some callbacks1 ∧
      entry callbacks1 0 0 = some cb ∧
      (∀ handler connection payload w,
        Handle 0 handler connection { ordinal := 0, payload := payload } callbacks1 w
          = some (cb handler connection { ordinal := 0, payload := payload } w)) ∧
      HasCallback 0 0 callbacks1 = some false) ∧
    HasCallback 1 0 ([] : Callbacks σ) = none := by
  have hmain : HasCallback h p callbacks
      = (if callbacks.length ≥ h then some false else none) := by
    unfold HasCallback
    by_cases hh : callbacks.length ≥ h
    · rw [if_pos hh, if_pos hh]
    · rw [if_neg hh, if_neg hh, List.getElem?_eq_none (by omega)]
  refine ⟨hmain, ?_, ?_, rfl⟩
  · rw [hmain]
    split
    · intro hc; cases hc
    · intro hc; cases hc
  · intro cb
    refine ⟨_, rfl, rfl, ?_, rfl⟩
    intro handler connection payload w
    rfl

end

/-! ## Accept loop -/

section

open EpollListener

theorem handedOff_acceptCalls (socketFileDescriptor : Int) :
    ∀ received : List (Int × Nat),
      handedOff (acceptCalls socketFileDescriptor received) = received.map fun r => r.1 := by
  intro received
  induction received with
  | nil => rfl
  | cons r rs ih => simp only [acceptCalls, handedOff, ih, List.map_cons]

/-- The inner loop on an event that is readable and without error or hang-up takes every
pending connection and ends with the `accept4` that fails with `EAGAIN`. -/
theorem drain_until_exhausted (socketFileDescriptor : Int) (event : epoll_event)
    (hin : event.events &&& EPOLLIN ≠ 0) (herr : event.events &&& EPOLLERR = 0)
    (hhup : event.events &&& EPOLLHUP = 0) :
    ∀ (received : List (Int × Nat)), (∀ r ∈ received, r.1 ≠ -1) →
      ∀ (accepts : List (Int × Nat)) (calls : List Call),
        StartListening.drain socketFileDescriptor event (received ++ (-1, EAGAIN) :: accepts)
            calls
          = (calls ++ acceptCalls socketFileDescriptor received
              ++ [.accept4 socketFileDescriptor], accepts, .done) := by
  have hflags : ¬ (event.events &&& EPOLLIN = 0 ∨ event.events &&& EPOLLERR ≠ 0
      ∨ event.events &&& EPOLLHUP ≠ 0) := by
    rintro (h | h | h)
    · exact hin h
    · exact h herr
    · exact h hhup
  intro received
  induction received with
  | nil =>
    intro _ accepts calls
    simp only [List.nil_append, acceptCalls, List.append_nil]
    unfold StartListening.drain
    rw [if_neg hflags, if_pos rfl, if_neg (by simp)]
  | cons r rs ih =>
    intro hfd accepts calls
    obtain ⟨fd, errno⟩ := r
    have hne : fd ≠ -1 := hfd (fd, errno) (List.mem_cons_self _ _)
    rw [List.cons_append]
    unfold StartListening.drain
    rw [if_neg hflags, if_neg hne, ih (fun x hx => hfd x (List.mem_cons_of_mem _ hx))]
    simp only [acceptCalls, List.append_assoc, List.cons_append, List.nil_append]

/-- C25: in the loop of `StartListening`, when an `epoll_wait` returns one event that has
`EPOLLIN` set and neither `EPOLLERR` nor `EPOLLHUP`, and `accept4` then returns `N` descriptors
and fails with `EAGAIN`, the calls made before the loop is back at `epoll_wait` are, for each
descriptor in the order received, the `accept4` and `eventLoop->Accept` of that descriptor, then
the failing `accept4`: `Accept` is called exactly `N` times, once per descriptor, nothing is
closed and nothing is thrown; with no further readiness the run ends blocked in the next
`epoll_wait`. -/
theorem C25_accept_until_exhausted (socketFileDescriptor epollFileDescriptor : Int)
    (event : epoll_event) (unfilled : List epoll_event)
    (hin : event.events &&& EPOLLIN ≠ 0) (herr : event.events &&& EPOLLERR = 0)
    (hhup : event.events &&& EPOLLHUP = 0) (received : List (Int × Nat))
    (hfd : ∀ r ∈ received, r.1 ≠ -1) (waits : List (Int × List epoll_event))
    (accepts : List (Int × Nat)) (calls : List Call) :
    StartListening.loop socketFileDescriptor epollFileDescriptor
        ((1, event :: unfilled) :: waits) (received ++ (-1, EAGAIN) :: accepts) calls
      = StartListening.loop socketFileDescriptor epollFileDescriptor waits accepts
          (calls ++ [.epoll_wait epollFileDescriptor]
            ++ acceptCalls socketFileDescriptor received ++ [.accept4 socketFileDescriptor]) ∧
    StartListening.loop socketFileDescriptor epollFileDescriptor
        [(1, event :: unfilled)] (received ++ [(-1, EAGAIN)]) []
      = { calls := [.epoll_wait epollFileDescriptor]
            ++ acceptCalls socketFileDescriptor received
            ++ [.accept4 socketFileDescriptor, .epoll_wait epollFileDescriptor]
          ending := .blocked } ∧
    handedOff (acceptCalls socketFileDescriptor received) = received.map (fun r => r.1) ∧
    (handedOff (acceptCalls socketFileDescriptor received)).length = received.length := by
  have hstep : ∀ waits accepts calls,
      StartListening.loop socketFileDescriptor epollFileDescriptor
          ((1, event :: unfilled) :: waits) (received ++ (-1, EAGAIN) :: accepts) calls
        = StartListening.loop socketFileDescriptor epollFileDescriptor waits accepts
            (calls ++ [.epoll_wait epollFileDescriptor]
              ++ acceptCalls socketFileDescriptor received
              ++ [.accept4 socketFileDescriptor]) := by
    intro waits accepts calls
    rw [StartListening.loop]
    have h1 : (1 : Int).toNat = 0 + 1 := rfl
    rw [h1, StartListening.forEvents,
      drain_until_exhausted socketFileDescriptor event hin herr hhup received hfd]
    simp only [StartListening.forEvents]
  refine ⟨hstep waits accepts calls, ?_, handedOff_acceptCalls _ _, ?_⟩
  · rw [hstep [] [] []]
    simp only [StartListening.loop, List.nil_append, List.append_assoc, List.cons_append]
  · rw [handedOff_acceptCalls, List.length_map]

theorem C25_accept_until_exhausted_witness :
    StartListening.loop 3 4 [(1, [{ events := 1, fd := 3 }])]
        [(5, 0), (6, 0), (7, 0), (-1, 11)] []
      = { calls := [.epoll_wait 4, .accept4 3, .Accept 5, .accept4 3, .Accept 6, .accept4 3,
            .Accept 7, .accept4 3, .epoll_wait 4]
          ending := .blocked } :=
  (C25_accept_until_exhausted 3 4 { events := 1, fd := 3 } [] (by decide) (by decide)
    (by decide) [(5, 0), (6, 0), (7, 0)] (by decide) [] [] []).2.1

end

/-! ## Truncated VarLong -/

section

open ByteBufferImpl ByteBuffer

theorem WF.held {s : ByteBufferImpl} (hs : WF s) : Held s :=
  ⟨hs.cap_pos, hs.nodup, hs.live, hs.front, hs.reader_le⟩

theorem Held.front_flat {s : ByteBufferImpl} (hs : Held s) :
    ∃ tail seg, s.buffers = s.currentReadBuffer :: tail ∧ s.currentReadBuffer ∉ tail ∧
      s.heap.region s.currentReadBuffer = some seg ∧ seg.length = s.singleCapacity ∧
      flatOf s.heap s.buffers = seg ++ flatOf s.heap tail := by
  obtain ⟨tail, htail⟩ := List.head?_eq_some_iff.mp hs.front
  obtain ⟨seg, hseg, hlen⟩ := hs.live s.currentReadBuffer (by simp [htail])
  have hnd := hs.nodup
  rw [htail] at hnd
  refine ⟨tail, seg, htail, (List.nodup_cons.mp hnd).1, hseg, hlen, ?_⟩
  rw [htail]
  simp [flatOf, hseg]

/-- A well-formed buffer has its readable bytes in memory, followed by the bytes from the
write position on. -/
theorem WF.physical_eq {s : ByteBufferImpl} (hs : WF s) :
    physical s = contents s ++ beyond s := by
  unfold physical contents beyond
  have h1 := hs.reader_le_pos
  have h2 := hs.writePos_le
  have h3 := hs.length_flat
  generalize flatOf s.heap s.buffers = flat at h3 ⊢
  have hsplit : flat = flat.take (writePos s) ++ flat.drop (writePos s) :=
    (List.take_append_drop _ _).symm
  conv => lhs; rw [hsplit]
  rw [List.drop_append_of_le_length (by rw [List.length_take]; omega)]

/-- With the reader inside the head segment, `ReadByteUnsafe` returns the next byte in memory,
whatever the readable-byte count, which goes down by one modulo `2^64`. -/
theorem Held.readByteUnsafe_inside {s : ByteBufferImpl} (hs : Held s)
    (hr : s.localReaderIndex < s.singleCapacity) :
    ∃ b rest s1, physical s = b :: rest ∧ ReadByteUnsafe s = .ok b s1 ∧ Held s1 ∧
      physical s1 = rest ∧ s1.singleCapacity = s.singleCapacity ∧
      s1.readableBytes = (s.readableBytes + SIZE_RANGE - 1) % SIZE_RANGE := by
  obtain ⟨tail, seg, htail, hnot, hseg, hslen, hflat⟩ := hs.front_flat
  have hlt : s.localReaderIndex < (flatOf s.heap s.buffers).length := by
    rw [hflat, List.length_append]; omega
  obtain ⟨b, hb⟩ : ∃ b, seg[s.localReaderIndex]? = some b :=
    ⟨seg[s.localReaderIndex], List.getElem?_eq_getElem (by omega)⟩
  have hfb : (flatOf s.heap s.buffers)[s.localReaderIndex]? = some b := by
    rw [hflat, List.getElem?_append_left (by omega), hb]
  have hdrop : physical s
      = b :: (flatOf s.heap s.buffers).drop (s.localReaderIndex + 1) := by
    unfold physical
    rw [List.drop_eq_getElem_cons hlt]
    congr 1
    have := List.getElem?_eq_getElem hlt
    rw [hfb] at this
    exact (Option.some.inj this).symm
  refine ⟨b, _, { s with
    readableBytes := (s.readableBytes + SIZE_RANGE - 1) % SIZE_RANGE
    localReaderIndex := s.localReaderIndex + 1 }, hdrop, ?_, ?_, rfl, rfl, rfl⟩
  · unfold ReadByteUnsafe TryRefreshReaderBuffer
    rw [if_neg (by omega)]
    simp only [Res.bind, Heap.load, hseg, hb]
  · exact ⟨hs.cap_pos, hs.nodup, hs.live, hs.front,
      by show s.localReaderIndex + 1 ≤ s.singleCapacity; omega⟩

theorem ReadByteUnsafe_of_refresh {s t : ByteBufferImpl}
    (h : TryRefreshReaderBuffer s = .ok () t) (ht : t.localReaderIndex < t.singleCapacity) :
    ReadByteUnsafe s = ReadByteUnsafe t := by
  have h2 : TryRefreshReaderBuffer t = .ok () t := by
    unfold TryRefreshReaderBuffer
    rw [if_neg (by omega)]
  unfold ReadByteUnsafe
  rw [h, h2]

/-- The function `ReadByteUnsafe` looks at memory only: it returns the next byte in the held
segments, whatever the readable-byte count, which goes down by one modulo `2^64`; once the
reader is at the end of the last segment it releases that segment and takes the front of the
emptied deque, which has no defined result. -/
theorem Held.readByteUnsafe_physical {s : ByteBufferImpl} (hs : Held s) :
    (physical s = [] ∧ ReadByteUnsafe s = .undefined) ∨
    (∃ b rest s1, physical s = b :: rest ∧ ReadByteUnsafe s = .ok b s1 ∧ Held s1 ∧
      physical s1 = rest ∧ s1.singleCapacity = s.singleCapacity ∧
      s1.readableBytes = (s.readableBytes + SIZE_RANGE - 1) % SIZE_RANGE) := by
  by_cases hr : s.localReaderIndex < s.singleCapacity
  · exact Or.inr (hs.readByteUnsafe_inside hr)
  · have hr2 : s.localReaderIndex = s.singleCapacity := Nat.le_antisymm hs.reader_le (by omega)
    obtain ⟨tail, seg, htail, hnot, hseg, hslen, hflat⟩ := hs.front_flat
    have hphys : physical s = flatOf s.heap tail := by
      unfold physical
      rw [hflat, hr2, ← hslen, List.drop_left]
    cases htl : tail with
    | nil =>
      left
      refine ⟨by rw [hphys, htl]; rfl, ?_⟩
      have hpop : PopBuffer s = .undefined := by
        unfold PopBuffer
        rw [htail, htl]
        dsimp only
        cases s.heap.region s.currentReadBuffer <;> rfl
      unfold ReadByteUnsafe TryRefreshReaderBuffer
      rw [if_pos (by omega), hpop]
      rfl
    | cons q rest =>
      right
      have hpop : PopBuffer s = .ok () { s with
          localReaderIndex := 0
          heap := s.heap.free s.currentReadBuffer
          buffers := tail
          currentReadBuffer := q } := by
        unfold PopBuffer
        rw [htail, htl]
        simp only [hseg]
      have hreg : ∀ p ∈ tail,
          Heap.region (s.heap.free s.currentReadBuffer) p = s.heap.region p := by
        intro p hp
        apply Heap.region_set_ne
        rintro rfl
        exact hnot hp
      have hnd := hs.nodup
      rw [htail] at hnd
      have ht : Held { s with
          localReaderIndex := 0
          heap := s.heap.free s.currentReadBuffer
          buffers := tail
          currentReadBuffer := q } := by
        refine ⟨hs.cap_pos, (List.nodup_cons.mp hnd).2, ?_, ?_, Nat.zero_le _⟩
        · intro p hp
          show ∃ seg, Heap.region (s.heap.free _) p = some seg ∧ seg.length = s.singleCapacity
          rw [hreg p hp]
          exact hs.live p (by rw [htail]; exact List.mem_cons_of_mem _ hp)
        · show tail.head? = some q
          rw [htl]; rfl
      have hrefresh : TryRefreshReaderBuffer s = .ok () { s with
          localReaderIndex := 0
          heap := s.heap.free s.currentReadBuffer
          buffers := tail
          currentReadBuffer := q } := by
        unfold TryRefreshReaderBuffer
        rw [if_pos (by omega), hpop]
      have hcap := hs.cap_pos
      obtain ⟨b, rest2, s1, e1, e2, e3, e4, e5, e6⟩ := ht.readByteUnsafe_inside
        (by show 0 < s.singleCapacity; omega)
      have hphys2 : physical { s with
          localReaderIndex := 0
          heap := s.heap.free s.currentReadBuffer
          buffers := tail
          currentReadBuffer := q } = physical s := by
        rw [hphys]
        unfold physical
        show List.drop 0 (flatOf (s.heap.free _) tail) = _
        rw [List.drop_zero, flatOf_congr hreg]
      rw [hphys2] at e1
      refine ⟨b, rest2, s1, e1, ?_, e3, e4, e5, e6⟩
      rw [ReadByteUnsafe_of_refresh hrefresh (by show 0 < s.singleCapacity; omega), e2]

/-- The value decoded from two runs of bytes is the value decoded from the second run, started
from the value decoded from the first. -/
theorem decodedAfter_append :
    ∀ (xs ys : List Nat) (i d : Nat),
      decodedAfter i d (xs ++ ys) = decodedAfter (i + xs.length) (decodedAfter i d xs) ys := by
  intro xs
  induction xs with
  | nil =>
    intro ys i d
    rfl
  | cons x xs ih =>
    intro ys i d
    show decodedAfter (i + 1) (d ||| ((x &&& 0x7F) <<< (i * 7)) % UINT64_RANGE) (xs ++ ys)
      = decodedAfter (i + (xs.length + 1))
        (decodedAfter (i + 1) (d ||| ((x &&& 0x7F) <<< (i * 7)) % UINT64_RANGE) xs) ys
    rw [ih, Nat.add_assoc, Nat.add_comm 1]

/-- The only exception `ReadVarLong` can throw is the one after its loop. -/
theorem ReadVarLong_loop_raised :
    ∀ (turns i d : Nat) (s : ByteBufferImpl) (e : Exn) (s1 : ByteBufferImpl),
      ReadVarLong.loop turns i d s = .raised e s1 → e = .invalidVarLong := by
  intro turns
  induction turns with
  | zero =>
    intro i d s e s1 h
    unfold ReadVarLong.loop at h
    injection h with h1 _
    exact h1.symm
  | succ turns ih =>
    intro i d s e s1 h
    unfold ReadVarLong.loop at h
    rcases Res.bind_eq_raised.mp h with h1 | ⟨byte, t, _, h2⟩
    · exact absurd h1 (ReadByteUnsafe_noThrow s e s1)
    · dsimp only at h2
      split at h2
      · cases h2
      · exact ih _ _ _ _ _ h2

/-- Bytes in memory that all carry the continuation bit are taken by the loop of `ReadVarLong`
one after the other, by one call of `ReadByteUnsafe` each, whatever the readable-byte count,
which goes down by their number modulo `2^64`. -/
theorem ReadVarLong_loop_memory :
    ∀ (bs : List Nat) (turns i d : Nat) (s : ByteBufferImpl) (rest : List Nat), Held s →
      physical s = bs ++ rest → (∀ b ∈ bs, b &&& 0x80 ≠ 0) → s.readableBytes < SIZE_RANGE →
      ∃ s1, readUnsafeN bs.length s = .ok bs s1 ∧ Held s1 ∧ physical s1 = rest ∧
        s1.readableBytes < SIZE_RANGE ∧
        (s1.readableBytes + bs.length) % SIZE_RANGE = s.readableBytes ∧
        ReadVarLong.loop (turns + bs.length) i d s
          = ReadVarLong.loop turns (i + bs.length) (decodedAfter i d bs) s1 := by
  intro bs
  induction bs with
  | nil =>
    intro turns i d s rest hs hp _ hrb
    exact ⟨s, rfl, hs, hp, hrb, Nat.mod_eq_of_lt hrb, rfl⟩
  | cons b bs ih =>
    intro turns i d s rest hs hp hcont hrb
    rcases hs.readByteUnsafe_physical with
      ⟨hnil, _⟩ | ⟨b2, rest2, s1, a1, a2, a3, a4, a5, a6⟩
    · rw [hp] at hnil
      cases hnil
    · rw [hp, List.cons_append] at a1
      injection a1 with hb hrest
      subst hb
      have hrb1 : s1.readableBytes < SIZE_RANGE := by
        rw [a6]
        exact Nat.mod_lt _ (by decide)
      obtain ⟨s2, b1, b2, b3, b4, b5, b6⟩ := ih turns (i + 1)
        (d ||| ((b &&& 0x7F) <<< (i * 7)) % UINT64_RANGE) s1 rest (a3) (by rw [a4, hrest])
        (fun x hx => hcont x (List.mem_cons_of_mem _ hx)) hrb1
      refine ⟨s2, ?_, b2, b3, b4, ?_, ?_⟩
      · simp only [List.length_cons, readUnsafeN, a2, Res.bind, b1]
      · have hS : SIZE_RANGE = 18446744073709551616 := rfl
        rw [hS] at hrb b5 a6 ⊢
        rw [a6] at b5
        simp only [List.length_cons]
        omega
      · have hlen : turns + (b :: bs).length = (turns + bs.length) + 1 := by
          simp only [List.length_cons]; omega
        have hidx : i + (b :: bs).length = i + 1 + bs.length := by
          simp only [List.length_cons]; omega
        rw [hlen, hidx]
        show _ = ReadVarLong.loop turns (i + 1 + bs.length) (decodedAfter (i + 1)
          (d ||| ((b &&& 0x7F) <<< (i * 7)) % UINT64_RANGE) bs) s2
        rw [← b6]
        conv => lhs; unfold ReadVarLong.loop
        rw [a2]
        simp only [Res.bind]
        rw [if_neg (hcont b (List.mem_cons_self _ _))]

/-- The outcome of the loop of `ReadVarLong` when the bytes in memory reach a byte without
the continuation bit within the turns left. -/
theorem ReadVarLong_loop_terminated (run : List Nat) (turns i d : Nat) (s : ByteBufferImpl)
    (rest : List Nat) (hs : Held s) (hp : physical s = run ++ rest)
    (hlen : run.length ≤ turns) (hcont : ∀ b ∈ run.dropLast, b &&& 0x80 ≠ 0)
    (hlast : ∃ l, run.getLast? = some l ∧ l &&& 0x80 = 0)
    (hrb : s.readableBytes < SIZE_RANGE) :
    ∃ s2, ReadVarLong.loop turns i d s = .ok (decodedAfter i d run) s2 ∧ physical s2 = rest ∧
      s2.readableBytes < SIZE_RANGE ∧
      (s2.readableBytes + run.length) % SIZE_RANGE = s.readableBytes := by
  obtain ⟨l, hl, hl0⟩ := hlast
  have hrun : run = run.dropLast ++ [l] := (List.dropLast_append_getLast? l hl).symm
  have hlen2 : run.length = run.dropLast.length + 1 := by
    conv => lhs; rw [hrun]
    simp
  rw [hrun, List.append_assoc] at hp
  obtain ⟨s1, _, a2, a3, a4, a5, a6⟩ := ReadVarLong_loop_memory run.dropLast
    (turns - run.dropLast.length) i d s ([l] ++ rest) hs hp hcont hrb
  have ht : turns - run.dropLast.length + run.dropLast.length = turns := by omega
  rw [ht] at a6
  obtain ⟨k, hk⟩ : ∃ k, turns - run.dropLast.length = k + 1 :=
    ⟨turns - run.dropLast.length - 1, by omega⟩
  rcases a2.readByteUnsafe_physical with
    ⟨hnil, _⟩ | ⟨b2, rest2, s2, c1, c2, c3, c4, c5, c6⟩
  · rw [a3] at hnil
    cases hnil
  · rw [a3, List.singleton_append] at c1
    injection c1 with hb hrest
    subst hb
    refine ⟨s2, ?_, by rw [c4, hrest], ?_, ?_⟩
    · rw [a6, hk]
      unfold ReadVarLong.loop
      rw [c2]
      simp only [Res.bind]
      rw [if_pos hl0]
      conv => rhs; rw [hrun, decodedAfter_append]
      rfl
    · rw [c6]
      exact Nat.mod_lt _ (by decide)
    · have hS : SIZE_RANGE = 18446744073709551616 := rfl
      rw [hS] at hrb a4 a5 c6 ⊢
      rw [c6, hlen2]
      omega

/-- The outcome of the loop of `ReadVarLong` when as many bytes in memory as there are turns
left all carry the continuation bit. -/
theorem ReadVarLong_loop_overlong (run : List Nat) (i d : Nat) (s : ByteBufferImpl)
    (rest : List Nat) (hs : Held s) (hp : physical s = run ++ rest)
    (hcont : ∀ b ∈ run, b &&& 0x80 ≠ 0) (hrb : s.readableBytes < SIZE_RANGE) :
    ∃ s2, ReadVarLong.loop run.length i d s = .raised .invalidVarLong s2 ∧
      s2.readableBytes < SIZE_RANGE ∧
      (s2.readableBytes + run.length) % SIZE_RANGE = s.readableBytes := by
  obtain ⟨s1, _, a2, a3, a4, a5, a6⟩ :=
    ReadVarLong_loop_memory run 0 i d s rest hs hp hcont hrb
  rw [Nat.zero_add] at a6
  refine ⟨s1, ?_, a4, a5⟩
  rw [a6]
  rfl

/-- The outcome of the loop of `ReadVarLong` when memory ends before the turns do and every
byte in it carries the continuation bit. -/
theorem ReadVarLong_loop_ran_off (turns i d : Nat) (s : ByteBufferImpl) (hs : Held s)
    (hlen : (physical s).length < turns) (hcont : ∀ b ∈ physical s, b &&& 0x80 ≠ 0)
    (hrb : s.readableBytes < SIZE_RANGE) :
    ReadVarLong.loop turns i d s = .undefined := by
  obtain ⟨s1, _, a2, a3, a4, a5, a6⟩ := ReadVarLong_loop_memory (physical s)
    (turns - (physical s).length) i d s [] hs (List.append_nil _).symm hcont hrb
  have ht : turns - (physical s).length + (physical s).length = turns := by omega
  rw [ht] at a6
  obtain ⟨k, hk⟩ : ∃ k, turns - (physical s).length = k + 1 :=
    ⟨turns - (physical s).length - 1, by omega⟩
  rcases a2.readByteUnsafe_physical with ⟨_, hund⟩ | ⟨b2, rest2, s2, c1, _⟩
  · rw [a6, hk]
    unfold ReadVarLong.loop
    rw [hund]
    rfl
  · rw [a3] at c1
    cases c1

/-- Bytes against a number of turns: a byte without the continuation bit comes within the
turns, or as many bytes as there are turns all carry the bit, or the bytes end before the turns
do and all carry the bit. -/
theorem continuation_run_cases :
    ∀ (n : Nat) (l : List Nat),
      (∃ run rest, l = run ++ rest ∧ run.length ≤ n ∧ (∀ b ∈ run.dropLast, b &&& 0x80 ≠ 0) ∧
        ∃ x, run.getLast? = some x ∧ x &&& 0x80 = 0) ∨
      (∃ run rest, l = run ++ rest ∧ run.length = n ∧ ∀ b ∈ run, b &&& 0x80 ≠ 0) ∨
      (l.length < n ∧ ∀ b ∈ l, b &&& 0x80 ≠ 0) := by
  intro n
  induction n with
  | zero =>
    intro l
    exact Or.inr (Or.inl ⟨[], l, rfl, rfl, fun b hb => (by cases hb)⟩)
  | succ n ih =>
    intro l
    cases l with
    | nil => exact Or.inr (Or.inr ⟨(by simp), fun b hb => (by cases hb)⟩)
    | cons b bs =>
      by_cases hb : b &&& 0x80 = 0
      · exact Or.inl ⟨[b], bs, rfl, (by simp), fun x hx => (by cases hx), b, rfl, hb⟩
      · rcases ih bs with ⟨run, rest, h1, h2, h3, x, h4, h5⟩ | ⟨run, rest, h1, h2, h3⟩ | ⟨h1, h2⟩
        · refine Or.inl ⟨b :: run, rest, (by rw [h1]; rfl),
            (by simp only [List.length_cons]; omega), ?_, x, ?_, h5⟩
          · cases run with
            | nil => cases h4
            | cons c cs =>
              intro y hy
              rw [List.dropLast_cons₂] at hy
              rcases List.mem_cons.mp hy with rfl | hy2
              · exact hb
              · exact h3 y hy2
          · cases run with
            | nil => cases h4
            | cons c cs => rw [List.getLast?_cons_cons]; exact h4
        · refine Or.inr (Or.inl ⟨b :: run, rest, (by rw [h1]; rfl),
            (by simp only [List.length_cons]; omega), ?_⟩)
          intro y hy
          rcases List.mem_cons.mp hy with rfl | hy2
          · exact hb
          · exact h3 y hy2
        · refine Or.inr (Or.inr ⟨(by simp only [List.length_cons]; omega), ?_⟩)
          intro y hy
          rcases List.mem_cons.mp hy with rfl | hy2
          · exact hb
          · exact h2 y hy2

/-- The state in which `ReadVarLong` meets the end of a truncated VarLong: after one call of
`ReadByteUnsafe` for each of the `k` readable bytes the readable-byte count is `0`, the bytes next
in memory are those from the write position on, and the loop has `10 - k` turns left. -/
theorem WF.readVarLong_truncated {s : ByteBufferImpl} (hs : WF s)
    (hk : s.readableBytes < 10) (hcont : ∀ b ∈ contents s, b &&& 0x80 ≠ 0) :
    ∃ s1, readUnsafeN s.readableBytes s = .ok (contents s) s1 ∧ s1.readableBytes = 0 ∧
      Held s1 ∧ physical s1 = beyond s ∧
      ReadVarLong s = ReadVarLong.loop (9 - s.readableBytes + 1) s.readableBytes
        (decodedAfter 0 0 (contents s)) s1 := by
  have hlen := hs.length_contents
  have hS : SIZE_RANGE = 18446744073709551616 := rfl
  obtain ⟨s1, a1, a2, a3, a4, a5, a6⟩ := ReadVarLong_loop_memory (contents s)
    (9 - s.readableBytes + 1) 0 0 s (beyond s) hs.held hs.physical_eq hcont
    (by rw [hS]; omega)
  rw [hlen] at a1 a5 a6
  have hten : 9 - s.readableBytes + 1 + s.readableBytes = 10 := by omega
  rw [hten, Nat.zero_add] at a6
  refine ⟨s1, a1, ?_, a2, a3, a6⟩
  rw [hS] at a4 a5
  omega

/-- The bytes from the write position on are the rest of the tail segment. -/
theorem WF.length_beyond {s : ByteBufferImpl} (hs : WF s) :
    (beyond s).length = s.singleCapacity - s.localWriterIndex := by
  have h1 := hs.buffers_pos
  have h2 := hs.writer_le
  have h3 := hs.length_flat
  obtain ⟨n, hn⟩ : ∃ n, s.buffers.length = n + 1 := ⟨s.buffers.length - 1, by omega⟩
  unfold beyond
  rw [List.length_drop, h3]
  simp only [writePos, hn, Nat.add_sub_cancel]
  rw [Nat.add_mul]
  omega

/-- C27 (as stated, refuted): a buffer of capacity `1` with the single byte `0x80` written is
well formed and holds one readable byte, which carries the continuation bit. `ReadVarLong`
takes that byte, which leaves a readable-byte count of `0` and the reader at the end of the
only segment; the next `ReadByteUnsafe` releases that segment and takes the front of the
emptied deque: it has no defined result, so no byte is used and no count is left, wrapped or
not. -/
theorem C27_full_segment_undefined :
    ∃ s s1, WriteByte 0x80 (ofCapacity 1) = .ok () s ∧ WF s ∧ s.readableBytes = 1 ∧
      contents s = [0x80] ∧ (∀ b ∈ contents s, b &&& 0x80 ≠ 0) ∧ beyond s = [] ∧
      ReadByteUnsafe s = .ok 0x80 s1 ∧ s1.readableBytes = 0 ∧
      ReadByteUnsafe s1 = .undefined ∧ ReadVarLong s = .undefined ∧
      ¬ ∃ b s2, ReadByteUnsafe s1 = .ok b s2 := by
  have hwf : WF
      { heap := [some [0x80]]
        buffers := [0]
        singleCapacity := 1
        currentReadBuffer := 0
        currentWriteBuffer := 0
        localReaderIndex := 0
        localWriterIndex := 1
        readableBytes := 1 } := by
    refine ⟨by decide, by decide, by decide, ?_, rfl, rfl, by decide, by decide, by decide,
      by decide, by decide⟩
    intro p hp
    rw [List.mem_singleton.mp hp]
    exact ⟨_, rfl, rfl⟩
  refine ⟨_, _, rfl, hwf, rfl, rfl, ?_, rfl, rfl, rfl, rfl, rfl, ?_⟩
  · intro b hb
    rw [List.mem_singleton.mp hb]
    decide
  · rintro ⟨b, s2, h⟩
    cases h

/-- C27 (amended): `ReadVarLong` never throws an Incomplete or Underflow error, whatever the
buffer: the only exception it can throw is `Invalid VarLong`. On a well-formed buffer holding
`k < 10` readable bytes that all carry the continuation bit `0x80`, it takes the `k` bytes by
`k` calls of `ReadByteUnsafe`, which leave a readable-byte count of `0`, and calls
`ReadByteUnsafe` again. When the tail segment is not full, that call returns the byte at the
write position, the first one after the written data, and wraps the readable-byte count to
`2^64 - 1`; when the tail segment is full, it releases the last segment and takes the front of
the emptied deque, which has no defined result. What `ReadVarLong` returns is decided by the
bytes from the write position on. If the first of them without the continuation bit is number
`g <= 10 - k`, the value decoded from the `k` readable bytes and these `g` bytes is returned
and the readable-byte count is `2^64 - g`. If the first `10 - k` of them all carry the bit,
`Invalid VarLong` is thrown with the count at `2^64 - (10 - k)`. If the segment ends before
either, there is no defined result. One of the three is the case for every such buffer. -/
theorem C27_varlong_unguarded (s : ByteBufferImpl) (hs : WF s) (hk : s.readableBytes < 10)
    (hcont : ∀ b ∈ contents s, b &&& 0x80 ≠ 0) :
    (∀ e s1, ReadVarLong s = .raised e s1 → e = .invalidVarLong) ∧
    (beyond s).length = s.singleCapacity - s.localWriterIndex ∧
    (∃ s1, readUnsafeN s.readableBytes s = .ok (contents s) s1 ∧ s1.readableBytes = 0 ∧
      ReadVarLong s = (ReadByteUnsafe s1).bind (fun byte s2 =>
        if byte &&& 0x80 = 0 then .ok (decodedAfter 0 0 (contents s ++ [byte])) s2
        else
          ReadVarLong.loop (9 - s.readableBytes) (s.readableBytes + 1)
            (decodedAfter 0 0 (contents s ++ [byte])) s2) ∧
      ((beyond s = [] ∧ ReadByteUnsafe s1 = .undefined) ∨
        ∃ b rest s2, beyond s = b :: rest ∧ ReadByteUnsafe s1 = .ok b s2 ∧
          s2.readableBytes = SIZE_RANGE - 1)) ∧
    (∀ run rest, beyond s = run ++ rest → s.readableBytes + run.length ≤ 10 →
      (∀ b ∈ run.dropLast, b &&& 0x80 ≠ 0) → (∃ l, run.getLast? = some l ∧ l &&& 0x80 = 0) →
      ∃ s2, ReadVarLong s = .ok (decodedAfter 0 0 (contents s ++ run)) s2 ∧
        s2.readableBytes + run.length = SIZE_RANGE ∧ physical s2 = rest) ∧
    (∀ run rest, beyond s = run ++ rest → s.readableBytes + run.length = 10 →
      (∀ b ∈ run, b &&& 0x80 ≠ 0) →
      ∃ s2, ReadVarLong s = .raised .invalidVarLong s2 ∧
        s2.readableBytes + run.length = SIZE_RANGE) ∧
    (s.readableBytes + (beyond s).length < 10 → (∀ b ∈ beyond s, b &&& 0x80 ≠ 0) →
      ReadVarLong s = .undefined) ∧
    ((∃ run rest s2, beyond s = run ++ rest ∧ 1 ≤ run.length ∧
        s.readableBytes + run.length ≤ 10 ∧
        ReadVarLong s = .ok (decodedAfter 0 0 (contents s ++ run)) s2 ∧
        s2.readableBytes + run.length = SIZE_RANGE) ∨
      (∃ s2, ReadVarLong s = .raised .invalidVarLong s2 ∧
        s2.readableBytes + (10 - s.readableBytes) = SIZE_RANGE) ∨
      (ReadVarLong s = .undefined ∧ s.readableBytes + (beyond s).length < 10 ∧
        ∀ b ∈ beyond s, b &&& 0x80 ≠ 0)) := by
  have hS : SIZE_RANGE = 18446744073709551616 := rfl
  have hlenc := hs.length_contents
  obtain ⟨s1, a1, a2, a3, a4, a5⟩ := hs.readVarLong_truncated hk hcont
  have hrb1 : s1.readableBytes < SIZE_RANGE := by rw [a2, hS]; omega
  have hdec : ∀ run, decodedAfter s.readableBytes (decodedAfter 0 0 (contents s)) run
      = decodedAfter 0 0 (contents s ++ run) := by
    intro run
    rw [decodedAfter_append, hlenc, Nat.zero_add]
  have hterm : ∀ run rest, beyond s = run ++ rest → s.readableBytes + run.length ≤ 10 →
      (∀ b ∈ run.dropLast, b &&& 0x80 ≠ 0) → (∃ l, run.getLast? = some l ∧ l &&& 0x80 = 0) →
      ∃ s2, ReadVarLong s = .ok (decodedAfter 0 0 (contents s ++ run)) s2 ∧
        s2.readableBytes + run.length = SIZE_RANGE ∧ physical s2 = rest := by
    intro run rest hb hlen hc hl
    obtain ⟨s2, b1, b2, b3, b4⟩ := ReadVarLong_loop_terminated run
      (9 - s.readableBytes + 1) s.readableBytes (decodedAfter 0 0 (contents s)) s1 rest a3
      (by rw [a4, hb]) (by omega) hc hl hrb1
    have hpos : 1 ≤ run.length := by
      obtain ⟨l, hl1, _⟩ := hl
      cases run with
      | nil => cases hl1
      | cons c cs => simp
    refine ⟨s2, by rw [a5, b1, hdec], ?_, b2⟩
    rw [a2, hS] at b4
    rw [hS] at b3 ⊢
    omega
  have hover : ∀ run rest, beyond s = run ++ rest → s.readableBytes + run.length = 10 →
      (∀ b ∈ run, b &&& 0x80 ≠ 0) →
      ∃ s2, ReadVarLong s = .raised .invalidVarLong s2 ∧
        s2.readableBytes + run.length = SIZE_RANGE := by
    intro run rest hb hlen hc
    obtain ⟨s2, b1, b2, b3⟩ := ReadVarLong_loop_overlong run s.readableBytes
      (decodedAfter 0 0 (contents s)) s1 rest a3 (by rw [a4, hb]) hc hrb1
    have hturns : 9 - s.readableBytes + 1 = run.length := by omega
    refine ⟨s2, by rw [a5, hturns, b1], ?_⟩
    rw [a2, hS] at b3
    rw [hS] at b2 ⊢
    omega
  have hoff : s.readableBytes + (beyond s).length < 10 → (∀ b ∈ beyond s, b &&& 0x80 ≠ 0) →
      ReadVarLong s = .undefined := by
    intro hlen hc
    rw [a5]
    exact ReadVarLong_loop_ran_off _ _ _ s1 a3 (by rw [a4]; omega) (by rw [a4]; exact hc) hrb1
  refine ⟨fun e t h => ReadVarLong_loop_raised 10 0 0 s e t h, hs.length_beyond,
    ⟨s1, a1, a2, ?_, ?_⟩, hterm, hover, hoff, ?_⟩
  · rw [a5]
    conv => lhs; unfold ReadVarLong.loop
    congr 1
    funext byte s2
    rw [← hdec [byte]]
    rfl
  · rcases a3.readByteUnsafe_physical with ⟨h1, h2⟩ | ⟨b, rest, s2, h1, h2, _, _, _, h6⟩
    · exact Or.inl ⟨by rw [← a4, h1], h2⟩
    · refine Or.inr ⟨b, rest, s2, by rw [← a4, h1], h2, ?_⟩
      rw [h6, a2]
      decide
  · rcases continuation_run_cases (10 - s.readableBytes) (beyond s) with
      ⟨run, rest, h1, h2, h3, h4⟩ | ⟨run, rest, h1, h2, h3⟩ | ⟨h1, h2⟩
    · obtain ⟨s2, c1, c2, _⟩ := hterm run rest h1 (by omega) h3 h4
      have hpos : 1 ≤ run.length := by
        obtain ⟨l, hl1, _⟩ := h4
        cases run with
        | nil => cases hl1
        | cons c cs => simp
      exact Or.inl ⟨run, rest, s2, h1, hpos, by omega, c1, c2⟩
    · obtain ⟨s2, c1, c2⟩ := hover run rest h1 (by omega) h3
      exact Or.inr (Or.inl ⟨s2, c1, by rw [← h2]; exact c2⟩)
    · exact Or.inr (Or.inr ⟨hoff (by omega) h2, by omega, h2⟩)

theorem C27_varlong_unguarded_witness :
    ∃ s0 s1 s, WriteBytes [0x80, 0x81, 0x05] (ofCapacity 3) = .ok () s0 ∧
      ResetWriterIndex s0 = .ok () s1 ∧ WriteByte 0x80 s1 = .ok () s ∧ WF s ∧
      contents s = [0x80] ∧ beyond s = [0x81, 0x05] ∧
      ∃ s2, ReadVarLong s = .ok 82048 s2 ∧ s2.readableBytes + 2 = SIZE_RANGE := by
  have hwf : WF
      { heap := [some [0x80, 0x81, 0x05]]
        buffers := [0]
        singleCapacity := 3
        currentReadBuffer := 0
        currentWriteBuffer := 0
        localReaderIndex := 0
        localWriterIndex := 1
        readableBytes := 1 } := by
    refine ⟨by decide, by decide, by decide, ?_, rfl, rfl, by decide, by decide, by decide,
      by decide, by decide⟩
    intro p hp
    rw [List.mem_singleton.mp hp]
    exact ⟨_, rfl, rfl⟩
  obtain ⟨s2, h1, h2, _⟩ := (C27_varlong_unguarded _ hwf (by decide)
    (by intro b hb; rw [List.mem_singleton.mp hb]; decide)).2.2.2.1 [0x81, 0x05] [] rfl
    (by decide) (by intro b hb; rw [List.mem_singleton.mp hb]; decide)
    ⟨0x05, rfl, by decide⟩
  exact ⟨_, _, _, rfl, rfl, rfl, hwf, rfl, rfl, s2, h1, h2⟩

end

end Ship
